import Mathlib

/-!
A shallow embedding of the maze engine of this repository
(`maze_core.py`, and `compute_shortest_path` from `game_ui.py` /
`maze_game.py`), together with proofs of the specification claims.

Modelling conventions:
* Python cells are `Cell(x, y, walls)` where `walls` is a dict over the
  four directions; the coordinates are redundant (`grid[y][x].x == x`),
  so a grid is embedded as a function `ℤ → ℤ → Walls` (applied as
  `g x y`, mirroring `self.grid[y][x]`).
* The global `random` source is embedded as oracle streams: an index
  stream `ℕ → ℕ` (each `random.choice` / `random.randrange` at loop
  iteration `k` takes the stream value at `k` modulo the list length),
  a rational stream `ℕ → ℚ` for `random.random()`, and a stream used by
  `random.shuffle`, which is embedded as an oracle-determined
  permutation (`permuteList`).  All theorems quantify over all streams,
  so every execution of the Python program is covered.
* Unbounded `while` loops are embedded with an explicit fuel that is
  proved sufficient; `int()` on a nonnegative float is `Int.floor`;
  floats are embedded as rationals.
-/

namespace MazeCore

/-- The four directions, in the iteration order of the Python dict
`DIRECTIONS` (insertion order `N, S, E, W`). -/
inductive Dir : Type
  | N | S | E | W
deriving DecidableEq, Repr

/-- `DIRECTIONS`: the coordinate delta of each direction. -/
def delta : Dir → ℤ × ℤ
  | .N => (0, -1)
  | .S => (0, 1)
  | .E => (1, 0)
  | .W => (-1, 0)

/-- `OPPOSITE`. -/
def opp : Dir → Dir
  | .N => .S
  | .S => .N
  | .E => .W
  | .W => .E

/-- The iteration order of the `DIRECTIONS` dict. -/
def dirList : List Dir := [.N, .S, .E, .W]

/-- The wall flags of one cell (`Cell.walls`, a dict over `N S E W`). -/
structure Walls where
  wN : Bool
  wS : Bool
  wE : Bool
  wW : Bool
deriving DecidableEq, Repr

/-- `cell.walls[direction]`. -/
def Walls.get (ws : Walls) : Dir → Bool
  | .N => ws.wN
  | .S => ws.wS
  | .E => ws.wE
  | .W => ws.wW

/-- `cell.walls[direction] = v`. -/
def Walls.set (ws : Walls) : Dir → Bool → Walls
  | .N, v => { ws with wN := v }
  | .S, v => { ws with wS := v }
  | .E, v => { ws with wE := v }
  | .W, v => { ws with wW := v }

/-- A grid of cells: `g x y` is `self.grid[y][x].walls`. -/
abbrev Grid := ℤ → ℤ → Walls

/-- A freshly allocated grid: every cell has all four walls
(`Cell.walls` default factory). -/
def allWalls : Grid := fun _ _ => ⟨true, true, true, true⟩

/-- Neighbouring coordinates: `nx, ny = x + dx, y + dy`. -/
def padd (p : ℤ × ℤ) (d : Dir) : ℤ × ℤ :=
  (p.1 + (delta d).1, p.2 + (delta d).2)

/-- `0 <= x < self.width and 0 <= y < self.height`. -/
def inB (w h : ℕ) (p : ℤ × ℤ) : Prop :=
  0 ≤ p.1 ∧ p.1 < (w : ℤ) ∧ 0 ≤ p.2 ∧ p.2 < (h : ℤ)

instance (w h : ℕ) (p : ℤ × ℤ) : Decidable (inB w h p) := by
  unfold inB; infer_instance

/-- Update one wall flag of one cell of the grid (a single Python
statement such as `current_cell.walls[direction] = False`). -/
def setWall (g : Grid) (x y : ℤ) (d : Dir) (v : Bool) : Grid :=
  fun a b => if a = x ∧ b = y then (g a b).set d v else g a b

/-- The symmetric carve performed (always as this very pair of
statements) by all three generators and by the braider:
`current_cell.walls[direction] = False` followed by
`next_cell.walls[OPPOSITE[direction]] = False`. -/
def carve (g : Grid) (x y : ℤ) (d : Dir) : Grid :=
  setWall (setWall g x y d false) (x + (delta d).1) (y + (delta d).2) (opp d) false

/-- The in-bounds cells, as a finite set. -/
def cells (w h : ℕ) : Finset (ℤ × ℤ) :=
  Finset.Ico (0 : ℤ) (w : ℤ) ×ˢ Finset.Ico (0 : ℤ) (h : ℤ)

/-- The number of cleared wall-pairs of the grid: each undirected open
adjacency is counted once, through the east/south wall of its
lexicographically smaller cell. -/
def openPairCount (g : Grid) (w h : ℕ) : ℕ :=
  Finset.sum (cells w h) fun p =>
    (if (g p.1 p.2).wE = false ∧ p.1 + 1 < (w : ℤ) then 1 else 0) +
    (if (g p.1 p.2).wS = false ∧ p.2 + 1 < (h : ℤ) then 1 else 0)

/-- `sum(1 for wall_open in cell.walls.values() if not wall_open)`. -/
def openings (ws : Walls) : ℕ :=
  (dirList.filter (fun d => ws.get d = false)).length

/-- Two cells are linked when they are grid-adjacent and the wall
between them (in the direction from the first to the second) is
cleared. -/
def openAdj (g : Grid) (w h : ℕ) (a b : ℤ × ℤ) : Prop :=
  inB w h a ∧ inB w h b ∧ ∃ d, b = padd a d ∧ (g a.1 a.2).get d = false

/-- Reachability through cleared walls. -/
def OpenReach (g : Grid) (w h : ℕ) : ℤ × ℤ → ℤ × ℤ → Prop :=
  Relation.ReflTransGen (openAdj g w h)

/-- Wall symmetry: the wall toward an in-bounds neighbour is cleared
iff the neighbour's wall back is cleared. -/
def symGrid (g : Grid) (w h : ℕ) : Prop :=
  ∀ (p : ℤ × ℤ) (d : Dir), inB w h p → inB w h (padd p d) →
    (g p.1 p.2).get d = (g (padd p d).1 (padd p d).2).get (opp d)

/-- Border invariant: a wall facing outside the grid is present. -/
def borderGrid (g : Grid) (w h : ℕ) : Prop :=
  ∀ (p : ℤ × ℤ) (d : Dir), inB w h p → ¬ inB w h (padd p d) →
    (g p.1 p.2).get d = true

/-- A `while cond:` loop with explicit fuel; `step` receives the
remaining fuel so that oracle streams can be indexed per iteration. -/
def loopFuel {σ : Type} (cond : σ → Bool) (step : ℕ → σ → σ) : ℕ → σ → σ
  | 0, s => s
  | f + 1, s => if cond s then loopFuel cond step f (step f s) else s

/-! ### `Maze._generate_dfs` -/

/-- The local state of the depth-first backtracker: the grid, the
`visited` table, the backtrack `stack` (list head is the Python list
end), the current position, and `visited_cells`. -/
structure DfsState where
  grid : Grid
  vis : ℤ × ℤ → Bool
  stack : List (ℤ × ℤ)
  cur : ℤ × ℤ
  count : ℕ

/-- The `neighbors` list built at the top of the DFS loop body: for
each direction (dict order) whose target is in bounds and unvisited,
the direction and the target coordinates. -/
def dfsNeighbors (w h : ℕ) (vis : ℤ × ℤ → Bool) (c : ℤ × ℤ) :
    List (Dir × ℤ × ℤ) :=
  dirList.filterMap fun d =>
    let q := padd c d
    if inB w h q ∧ vis q = false then some (d, q.1, q.2) else none

/-- One iteration of the DFS `while` loop.  `random.choice(neighbors)`
is the oracle value `pick` reduced modulo the list length. -/
def dfsStep (w h : ℕ) (pick : ℕ) (s : DfsState) : DfsState :=
  match dfsNeighbors w h s.vis s.cur with
  | [] =>
    match s.stack with
    | [] => s
    | q :: rest => { s with cur := q, stack := rest }
  | n0 :: ns =>
    let nbrs := n0 :: ns
    let c := nbrs.getD (pick % nbrs.length) n0
    { grid := carve s.grid s.cur.1 s.cur.2 c.1
      vis := fun q => if q = (c.2.1, c.2.2) then true else s.vis q
      stack := s.cur :: s.stack
      cur := (c.2.1, c.2.2)
      count := s.count + 1 }

/-- Initial DFS state: `(0,0)` visited, empty stack, one visited
cell. -/
def dfsInit (g0 : Grid) : DfsState :=
  { grid := g0
    vis := fun q => decide (q = ((0 : ℤ), (0 : ℤ)))
    stack := []
    cur := (0, 0)
    count := 1 }

/-- Fuel spent by `_generate_dfs`: each iteration either visits a new
cell (at most `w*h - 1` of them) or pops the stack. -/
def dfsFuel (w h : ℕ) : ℕ := 2 * (w * h) + 1

/-- `Maze._generate_dfs`, run on the freshly allocated grid `g0`. -/
def generateDfs (w h : ℕ) (rng : ℕ → ℕ) (g0 : Grid) : Grid :=
  (loopFuel (fun s => decide (s.count < w * h))
    (fun f s => dfsStep w h (rng f) s) (dfsFuel w h) (dfsInit g0)).grid

/-! ### `Maze._generate_prim` -/

/-- A frontier entry `(x, y, direction, nx, ny)`. -/
structure FEdge where
  fx : ℤ
  fy : ℤ
  dir : Dir
  tx : ℤ
  ty : ℤ
deriving DecidableEq

/-- `add_frontier(x, y)`: the entries appended for the cell `(x,y)`. -/
def addFrontier (w h : ℕ) (vis : ℤ × ℤ → Bool) (x y : ℤ) : List FEdge :=
  dirList.filterMap fun d =>
    let q := padd (x, y) d
    if inB w h q ∧ vis q = false then some ⟨x, y, d, q.1, q.2⟩ else none

/-- The local state of randomized Prim. -/
structure PrimState where
  grid : Grid
  vis : ℤ × ℤ → Bool
  frontier : List FEdge

/-- One iteration of the Prim `while frontier:` loop.
`random.randrange(len(frontier))` is `pick % length`, and
`frontier.pop(index)` is `getD` plus `eraseIdx`. -/
def primStep (w h : ℕ) (pick : ℕ) (s : PrimState) : PrimState :=
  match s.frontier with
  | [] => s
  | e0 :: es =>
    let fr := e0 :: es
    let i := pick % fr.length
    let e := fr.getD i e0
    let fr2 := fr.eraseIdx i
    if s.vis (e.tx, e.ty) then { s with frontier := fr2 }
    else
      let vis2 := fun q => if q = (e.tx, e.ty) then true else s.vis q
      { grid := carve s.grid e.fx e.fy e.dir
        vis := vis2
        frontier := fr2 ++ addFrontier w h vis2 e.tx e.ty }

/-- Initial Prim state: `(0,0)` visited and its frontier added. -/
def primInit (w h : ℕ) (g0 : Grid) : PrimState :=
  let vis0 := fun q : ℤ × ℤ => decide (q = ((0 : ℤ), (0 : ℤ)))
  { grid := g0, vis := vis0, frontier := addFrontier w h vis0 0 0 }

/-- Fuel spent by `_generate_prim`: at most four entries are ever
appended per cell, and every iteration removes one entry. -/
def primFuel (w h : ℕ) : ℕ := 4 * (w * h) + 5

/-- `Maze._generate_prim`, run on the freshly allocated grid `g0`. -/
def generatePrim (w h : ℕ) (rng : ℕ → ℕ) (g0 : Grid) : Grid :=
  (loopFuel (fun s => !s.frontier.isEmpty)
    (fun f s => primStep w h (rng f) s) (primFuel w h) (primInit w h g0)).grid

/-! ### `Maze._generate_kruskal` -/

/-- `find(idx)` with path halving: `parent[idx] = parent[parent[idx]];
idx = parent[idx]`.  The Python loop is unbounded; the fuel `n` (the
number of cells) is proved sufficient under the union-find
invariant. -/
def ufFind : ℕ → (ℕ → ℕ) → ℕ → ((ℕ → ℕ) × ℕ)
  | 0, p, i => (p, i)
  | fuel + 1, p, i =>
    if p i = i then (p, i)
    else ufFind fuel (Function.update p i (p (p i))) (p (p i))

/-- `union(a, b)` with union by rank; returns the updated parent and
rank tables and whether a merge happened. -/
def ufUnion (n : ℕ) (p rk : ℕ → ℕ) (a b : ℕ) :
    ((ℕ → ℕ) × (ℕ → ℕ) × Bool) :=
  let fa := ufFind n p a
  let fb := ufFind n fa.1 b
  let p2 := fb.1
  let ra := fa.2
  let rb := fb.2
  if ra = rb then (p2, rk, false)
  else if rk ra < rk rb then (Function.update p2 ra rb, rk, true)
  else if rk rb < rk ra then (Function.update p2 rb ra, rk, true)
  else (Function.update p2 rb ra, Function.update rk ra (rk ra + 1), true)

/-- The full candidate edge list: for every cell (row-major), its East
and South neighbour edges, as `(cell_index, neighbor_index,
direction)` with `index = y * width + x`. -/
def kruskalEdges (w h : ℕ) : List (ℕ × ℕ × Dir) :=
  (List.range h).flatMap fun y =>
    (List.range w).flatMap fun x =>
      [Dir.E, Dir.S].filterMap fun d =>
        let q := padd ((x : ℤ), (y : ℤ)) d
        if inB w h q then some (y * w + x, q.2.toNat * w + q.1.toNat, d)
        else none

/-- `random.shuffle`, embedded as an oracle-determined permutation:
repeatedly extract the element at the oracle index (reduced modulo the
remaining length). -/
def permuteList {α : Type} (rs : ℕ → ℕ) : List α → List α
  | [] => []
  | a :: l =>
    let xs := a :: l
    let i := rs xs.length % xs.length
    xs.getD i a :: permuteList rs (xs.eraseIdx i)
termination_by l => l.length
decreasing_by
  have h : rs (a :: l).length % (a :: l).length < (a :: l).length :=
    Nat.mod_lt _ (by simp)
  rw [List.length_eraseIdx_of_lt h]
  simp

/-- The local state of randomized Kruskal. -/
structure KState where
  parent : ℕ → ℕ
  rank : ℕ → ℕ
  grid : Grid

/-- The body of the Kruskal edge loop: union the two endpoint
components; on a merge, recover the coordinates by `divmod` and carve
the wall. -/
def kruskalStep (w h : ℕ) (s : KState) (e : ℕ × ℕ × Dir) : KState :=
  let u := ufUnion (w * h) s.parent s.rank e.1 e.2.1
  if u.2.2 then
    let y : ℤ := (e.1 / w : ℕ)
    let x : ℤ := (e.1 % w : ℕ)
    let ny : ℤ := (e.2.1 / w : ℕ)
    let nx : ℤ := (e.2.1 % w : ℕ)
    { parent := u.1, rank := u.2.1,
      grid := setWall (setWall s.grid x y e.2.2 false) nx ny (opp e.2.2) false }
  else { parent := u.1, rank := u.2.1, grid := s.grid }

/-- The Kruskal edge loop. -/
def kruskalGo (w h : ℕ) : List (ℕ × ℕ × Dir) → KState → KState
  | [], s => s
  | e :: es, s => kruskalGo w h es (kruskalStep w h s e)

/-- `Maze._generate_kruskal`, run on the freshly allocated grid `g0`:
`parent = [i for i in range(n)]`, `rank = [0, ...]`, shuffled edges. -/
def generateKruskal (w h : ℕ) (rs : ℕ → ℕ) (g0 : Grid) : Grid :=
  (kruskalGo w h (permuteList rs (kruskalEdges w h))
    ⟨fun i => i, fun _ => 0, g0⟩).grid

/-! ### Randomness bundle and `Maze._generate` dispatch -/

/-- The oracle streams consumed by one generation attempt (or by the
braider): `idx` for `random.choice` / `random.randrange`, `flt` for
`random.random()`, `shuf` for `random.shuffle`. -/
structure Rand where
  idx : ℕ → ℕ
  flt : ℕ → ℚ
  shuf : ℕ → ℕ

/-- `Maze._generate`: `generators.get(self.algorithm,
self._generate_dfs)()`, run on a freshly allocated all-walled grid. -/
def generate (alg : String) (w h : ℕ) (r : Rand) : Grid :=
  match alg with
  | "dfs" => generateDfs w h r.idx allWalls
  | "prim" => generatePrim w h r.idx allWalls
  | "kruskal" => generateKruskal w h r.shuf allWalls
  | _ => generateDfs w h r.idx allWalls

/-! ### `Maze._dead_end_ratio` and `Maze._apply_braid` -/

/-- The number of in-bounds dead ends (cells with exactly one open
wall). -/
def deadEndCount (g : Grid) (w h : ℕ) : ℕ :=
  ((cells w h).filter fun p => openings (g p.1 p.2) = 1).card

/-- `Maze._dead_end_ratio`: dead ends over `width * height`. -/
def deadEndRatio (g : Grid) (w h : ℕ) : ℚ :=
  (deadEndCount g w h : ℚ) / ((w * h : ℕ) : ℚ)

/-- The row-major list of dead-end cells collected at the top of
`_apply_braid`. -/
def deadEndList (g : Grid) (w h : ℕ) : List (ℤ × ℤ) :=
  (List.range h).flatMap fun y =>
    (List.range w).filterMap fun x : ℕ =>
      if openings (g (x : ℤ) (y : ℤ)) = 1 then some ((x : ℤ), (y : ℤ))
      else none

/-- The `candidates` list of `_apply_braid` for the cell `(x,y)`:
walled directions whose in-bounds neighbour still has the connecting
wall present.  (The Python list stores the neighbour cell; only the
direction is needed to carve.) -/
def braidCandidates (g : Grid) (w h : ℕ) (x y : ℤ) : List Dir :=
  dirList.filterMap fun d =>
    if (g x y).get d = false then none
    else
      let q := padd (x, y) d
      if inB w h q then
        if (g q.1 q.2).get (opp d) = true then some d else none
      else none

/-- The per-cell loop of `_apply_braid`: skip with probability
`1 - braid_factor` (`random.random() > braid_factor`), otherwise carve
one random candidate, if any. -/
def braidGo (w h : ℕ) (bf : ℚ) (r : Rand) :
    List (ℤ × ℤ) → ℕ → Grid → Grid
  | [], _, g => g
  | (x, y) :: rest, i, g =>
    if r.flt i > bf then braidGo w h bf r rest (i + 1) g
    else
      match braidCandidates g w h x y with
      | [] => braidGo w h bf r rest (i + 1) g
      | c0 :: cs =>
        let cands := c0 :: cs
        let d := cands.getD (r.idx i % cands.length) c0
        braidGo w h bf r rest (i + 1) (carve g x y d)

/-- `Maze._apply_braid`. -/
def applyBraid (w h : ℕ) (bf : ℚ) (r : Rand) (g : Grid) : Grid :=
  braidGo w h bf r (permuteList r.shuf (deadEndList g w h)) 0 g

/-! ### `Maze._build_maze` and `Maze.__init__` -/

/-- The attempt count of the bias selector (`_build_maze`, lines
54-58): `int()` on a nonnegative value is `Int.floor`. -/
def attemptsFor (db : ℚ) : ℕ :=
  if 0 < db then min 10 (3 + (⌊db * 10⌋).toNat)
  else if db < 0 then min 10 (3 + (⌊-db * 10⌋).toNat)
  else 1

/-- The attempt loop of `_build_maze`: generate on a fresh grid, score
by dead-end ratio, keep the extremal candidate (strict comparison, so
the first extremal attempt wins).  Returns the last generated grid
(`self.grid`) and the best candidate.  Attempt `i` consumes the oracle
bundle `rnds i`.  A grid clone is the identity in this pure model. -/
def selectKeep (db : ℚ) (best : Option (Grid × ℚ)) (g : Grid) (ratio : ℚ) :
    Option (Grid × ℚ) :=
  if 0 < db then
    match best with
    | none => some (g, ratio)
    | some br => if br.2 < ratio then some (g, ratio) else some br
  else if db < 0 then
    match best with
    | none => some (g, ratio)
    | some br => if ratio < br.2 then some (g, ratio) else some br
  else some (g, ratio)

def selectLoop (w h : ℕ) (alg : String) (db : ℚ) (rnds : ℕ → Rand) :
    ℕ → ℕ → Option (Grid × ℚ) → Grid → Grid × Option (Grid × ℚ)
  | 0, _, best, cur => (cur, best)
  | k + 1, i, best, cur =>
    let g := generate alg w h (rnds i)
    selectLoop w h alg db rnds k (i + 1) (selectKeep db best g (deadEndRatio g w h)) g

/-- The bias selector: run the attempts and return the kept grid and
its ratio; the `best_grid is None` fallback (unreachable, as at least
one attempt always runs) scores the last generated grid.  `self.grid`
starts as an empty list in Python; the initial `cur` value is
irrelevant and modelled as `allWalls`. -/
def selectGrid (w h : ℕ) (alg : String) (db : ℚ) (rnds : ℕ → Rand) :
    Grid × ℚ :=
  let r := selectLoop w h alg db rnds (attemptsFor db) 0 none allWalls
  match r.2 with
  | some br => br
  | none => (r.1, deadEndRatio r.1 w h)

/-- `Maze._build_maze`: bias selection, then braiding when
`braid_factor > 0`, re-measuring the ratio after braiding. -/
def buildMaze (w h : ℕ) (alg : String) (bf db : ℚ) (rnds : ℕ → Rand)
    (rbraid : Rand) : Grid × ℚ :=
  let sel := selectGrid w h alg db rnds
  if 0 < bf then
    let g2 := applyBraid w h bf rbraid sel.1
    (g2, deadEndRatio g2 w h)
  else sel

/-- `algorithm not in self.SUPPORTED_ALGORITHMS` normalization. -/
def normAlg (a : String) : String :=
  if a = "dfs" ∨ a = "prim" ∨ a = "kruskal" then a else "dfs"

/-- `min(max(braid_factor, 0.0), 1.0)`. -/
def clamp01 (q : ℚ) : ℚ := min (max q 0) 1

/-- `min(max(dead_end_bias, -1.0), 1.0)`. -/
def clampBias (q : ℚ) : ℚ := min (max q (-1)) 1

/-- The constructed `Maze` object (its state after `__init__`). -/
structure Maze where
  width : ℕ
  height : ℕ
  algorithm : String
  braid_factor : ℚ
  dead_end_bias : ℚ
  grid : Grid
  dead_end_ratio : ℚ

/-- `Maze.__init__`: reject dimensions below 2x2 before any grid state
exists, normalize the algorithm, clamp the tuning parameters, then
build. -/
def mkMaze (width height : ℤ) (algorithm : String) (braid_factor dead_end_bias : ℚ)
    (rnds : ℕ → Rand) (rbraid : Rand) : Except String Maze :=
  if width < 2 ∨ height < 2 then
    .error "Maze dimensions must be at least 2x2."
  else
    let alg := normAlg algorithm
    let bf := clamp01 braid_factor
    let db := clampBias dead_end_bias
    let w := width.toNat
    let h := height.toNat
    let r := buildMaze w h alg bf db rnds rbraid
    .ok ⟨w, h, alg, bf, db, r.1, r.2⟩

/-- Extract the maze from a successful construction (a dummy maze for
the error case, used only to state theorems without binders). -/
def theMaze (r : Except String Maze) : Maze :=
  match r with
  | .ok m => m
  | .error _ => ⟨0, 0, "dfs", 0, 0, allWalls, 0⟩

/-- The grid of a successful construction. -/
def mazeGridOf (r : Except String Maze) : Grid := (theMaze r).grid

/-- `Maze.has_wall`. -/
def hasWall (m : Maze) (x y : ℤ) (d : Dir) : Bool := (m.grid x y).get d

/-! ### `MazeGame.compute_shortest_path` (`game_ui.py` /
`maze_game.py`) -/

/-- The BFS state: the queue (list head = deque left end), the key set
of the `parents` dict, the flattened parent lookup (`parents.get(c)`
is `None` both for a missing key and for the start sentinel), and
whether the loop broke after dequeuing the goal. -/
structure BfsState where
  queue : List (ℤ × ℤ)
  dom : ℤ × ℤ → Bool
  par : ℤ × ℤ → Option (ℤ × ℤ)
  found : Bool

/-- The neighbour scan for one direction: skip on a wall or
out-of-bounds target; record the parent and enqueue an undiscovered
target. -/
def bfsVisit (m : Maze) (c : ℤ × ℤ) (s : BfsState) (d : Dir) : BfsState :=
  if hasWall m c.1 c.2 d then s
  else
    let q := padd c d
    if inB m.width m.height q then
      if s.dom q then s
      else
        { s with
          dom := fun r => if r = q then true else s.dom r
          par := fun r => if r = q then some c else s.par r
          queue := s.queue ++ [q] }
    else s

/-- One iteration of the BFS `while queue:` loop: dequeue; break on
the goal; otherwise scan the four directions in dict order. -/
def bfsStep (m : Maze) (goal : ℤ × ℤ) (s : BfsState) : BfsState :=
  match s.queue with
  | [] => s
  | c :: rest =>
    if c = goal then { s with queue := rest, found := true }
    else dirList.foldl (bfsVisit m c) { s with queue := rest }

/-- Fuel spent by the BFS loop. -/
def bfsFuel (m : Maze) : ℕ := 2 * (m.width * m.height) + 2

/-- The path reconstruction loop: `node = goal; while node is not
None: path.append(node); node = parents.get(node)`.  The chain length
is proved below to stay under the fuel. -/
def backtrack (par : ℤ × ℤ → Option (ℤ × ℤ)) : ℕ → ℤ × ℤ → List (ℤ × ℤ)
  | 0, c => [c]
  | f + 1, c =>
    match par c with
    | none => [c]
    | some p => c :: backtrack par f p

/-- `MazeGame.compute_shortest_path` (identical in `game_ui.py` and
`maze_game.py`): singleton on `start == goal`; BFS; on exhaustion
without a break (`while ... else`) the empty list; otherwise the
reversed parent chain from the goal. -/
def bfsStart (start : ℤ × ℤ) : BfsState :=
  { queue := [start]
    dom := fun r => decide (r = start)
    par := fun _ => none
    found := false }

/-- The state of the BFS when its `while` loop ends. -/
def bfsFinal (m : Maze) (start goal : ℤ × ℤ) : BfsState :=
  loopFuel (fun s => !s.found && !s.queue.isEmpty)
    (fun _ s => bfsStep m goal s) (bfsFuel m) (bfsStart start)

def computeShortestPath (m : Maze) (start goal : ℤ × ℤ) : List (ℤ × ℤ) :=
  if start = goal then [start]
  else if (bfsFinal m start goal).found then
    (backtrack (bfsFinal m start goal).par (m.width * m.height + 1) goal).reverse
  else []

/-- The number of in-bounds cells marked in a visited table. -/
def visCard (w h : ℕ) (vis : ℤ × ℤ → Bool) : ℕ :=
  ((cells w h).filter fun p => vis p = true).card

/-- What each generator guarantees on a freshly allocated grid:
symmetric walls, intact border, exactly `w*h - 1` cleared wall-pairs
(stated without truncated subtraction), and every in-bounds cell
reachable from `(0,0)` through cleared walls. -/
structure GenOk (g : Grid) (w h : ℕ) : Prop where
  sym : symGrid g w h
  border : borderGrid g w h
  pairs : openPairCount g w h + 1 = w * h
  reach0 : ∀ p, inB w h p → OpenReach g w h (0, 0) p

/-- The loop invariant of `_generate_dfs`. -/
structure DfsInv (w h : ℕ) (s : DfsState) : Prop where
  sym : symGrid s.grid w h
  border : borderGrid s.grid w h
  fresh : ∀ p, inB w h p → s.vis p = false → ∀ d, (s.grid p.1 p.2).get d = true
  countEq : s.count = visCard w h s.vis
  pairs : openPairCount s.grid w h + 1 = s.count
  visIn : ∀ p, s.vis p = true → inB w h p
  reach : ∀ p, s.vis p = true → OpenReach s.grid w h (0, 0) p
  zeroVis : s.vis (0, 0) = true
  curVis : s.vis s.cur = true
  stackVis : ∀ q ∈ s.stack, s.vis q = true
  closure : ∀ p, s.vis p = true → p ∉ s.stack → p ≠ s.cur →
    ∀ d, inB w h (padd p d) → s.vis (padd p d) = true

/-- The loop invariant of `_generate_prim`.  `frSrc` states that every
frontier entry goes from a visited in-bounds cell to an in-bounds
target consistent with its direction; `frCov` states that every edge
from a visited cell to an unvisited in-bounds cell is still in the
frontier (the frontier may also hold stale entries). -/
structure PrimInv (w h : ℕ) (s : PrimState) : Prop where
  sym : symGrid s.grid w h
  border : borderGrid s.grid w h
  fresh : ∀ p, inB w h p → s.vis p = false → ∀ d, (s.grid p.1 p.2).get d = true
  pairs : openPairCount s.grid w h + 1 = visCard w h s.vis
  visIn : ∀ p, s.vis p = true → inB w h p
  reach : ∀ p, s.vis p = true → OpenReach s.grid w h (0, 0) p
  zeroVis : s.vis (0, 0) = true
  frSrc : ∀ e ∈ s.frontier, s.vis (e.fx, e.fy) = true ∧ inB w h (e.fx, e.fy) ∧
    (e.tx, e.ty) = padd (e.fx, e.fy) e.dir ∧ inB w h (e.tx, e.ty)
  frCov : ∀ p d, s.vis p = true → inB w h (padd p d) → s.vis (padd p d) = false →
    (⟨p.1, p.2, d, (padd p d).1, (padd p d).2⟩ : FEdge) ∈ s.frontier

/-! Proof-level notions for the union-find structure of
`_generate_kruskal`. -/

/-- `r` is its own parent. -/
def isRoot (p : ℕ → ℕ) (r : ℕ) : Prop := p r = r

/-- One step along a parent pointer (only from non-roots). -/
def PStep (p : ℕ → ℕ) (a b : ℕ) : Prop := p a = b ∧ p a ≠ a

/-- `r` is the root of the tree containing `i`. -/
def Root (p : ℕ → ℕ) (i r : ℕ) : Prop :=
  Relation.ReflTransGen (PStep p) i r ∧ isRoot p r

/-- `i` and `j` lie in the same union-find component. -/
def SameRoot (p : ℕ → ℕ) (i j : ℕ) : Prop := ∃ r, Root p i r ∧ Root p j r

/-- The union-find invariant: parents stay in range and the stored
rank strictly increases along parent pointers (which is what makes
every chain reach a root within `n` steps). -/
def UFinv (p rk : ℕ → ℕ) (n : ℕ) : Prop :=
  ∀ i, i < n → p i < n ∧ (p i ≠ i → rk i < rk (p i))

/-- The number of union-find roots. -/
def numRoots (p : ℕ → ℕ) (n : ℕ) : ℕ :=
  ((Finset.range n).filter fun i => p i = i).card

/-- Chain-length measure: the number of indices of strictly larger
rank. -/
def rkMeasure (rk : ℕ → ℕ) (n i : ℕ) : ℕ :=
  ((Finset.range n).filter fun j => rk i < rk j).card

/-- The cell coordinates of a Kruskal cell index (`divmod`). -/
def cellOf (w : ℕ) (i : ℕ) : ℤ × ℤ := (((i % w : ℕ) : ℤ), ((i / w : ℕ) : ℤ))

/-- The cell index of in-bounds cell coordinates. -/
def idxOf (w : ℕ) (p : ℤ × ℤ) : ℕ := p.2.toNat * w + p.1.toNat

/-- Validity of one entry of the Kruskal edge list. -/
def EdgeOk (w h : ℕ) (e : ℕ × ℕ × Dir) : Prop :=
  e.1 < w * h ∧ e.2.1 < w * h ∧ inB w h (cellOf w e.1) ∧
    inB w h (cellOf w e.2.1) ∧ cellOf w e.2.1 = padd (cellOf w e.1) e.2.2

/-- The loop invariant of `_generate_kruskal`: the union-find tables
are well formed, the grid is symmetric with intact border, the number
of carved wall-pairs complements the number of components, and the
union-find partition is exactly connectivity through carved walls. -/
structure KInv (w h : ℕ) (s : KState) : Prop where
  uf : UFinv s.parent s.rank (w * h)
  sym : symGrid s.grid w h
  border : borderGrid s.grid w h
  count : openPairCount s.grid w h + numRoots s.parent (w * h) = w * h
  partn : ∀ i j, i < w * h → j < w * h →
    (SameRoot s.parent i j ↔ OpenReach s.grid w h (cellOf w i) (cellOf w j))

/-- A parent chain of length `k` from `c` back to the BFS start (the
cell whose `parents` entry is the `None` sentinel). -/
def parChain (par : ℤ × ℤ → Option (ℤ × ℤ)) : ℕ → ℤ × ℤ → ℤ × ℤ → Prop
  | 0, c, c2 => c = c2 ∧ par c = none
  | k + 1, c, c2 => ∃ p, par c = some p ∧ parChain par k p c2

/-- One legal move of the returned path: in-bounds cells, adjacent,
with the connecting wall cleared. -/
def stepOpen (m : Maze) (a b : ℤ × ℤ) : Prop :=
  inB m.width m.height a ∧ inB m.width m.height b ∧
    ∃ d, b = padd a d ∧ hasWall m a.1 a.2 d = false

/-- Termination measure of the BFS loop. -/
def bfsMeasN (m : Maze) (s : BfsState) : ℕ :=
  s.queue.length + 2 * (m.width * m.height - visCard m.width m.height s.dom)

/-- The BFS loop invariant. -/
structure BInv (m : Maze) (start goal : ℤ × ℤ) (s : BfsState) : Prop where
  startB : inB m.width m.height start
  dom0 : s.dom start = true
  par0 : s.par start = none
  qdom : ∀ c ∈ s.queue, s.dom c = true
  domB : ∀ c, s.dom c = true → inB m.width m.height c
  parP : ∀ c p, s.par c = some p → s.dom p = true ∧ stepOpen m p c
  chain : ∀ c, s.dom c = true →
    ∃ k, k < visCard m.width m.height s.dom ∧ parChain s.par k c start
  nodom : ∀ c, s.dom c = false → s.par c = none
  fgoal : s.found = true → s.dom goal = true

/-! ## Basic lemmas -/

theorem opp_opp (d : Dir) : opp (opp d) = d := by cases d <;> rfl

theorem opp_ne (d : Dir) : opp d ≠ d := by cases d <;> decide

theorem padd_padd_opp (p : ℤ × ℤ) (d : Dir) : padd (padd p d) (opp d) = p := by
  cases d <;> simp [padd, delta, opp]

theorem padd_ne (p : ℤ × ℤ) (d : Dir) : padd p d ≠ p := by
  cases d <;> simp [padd, delta, Prod.ext_iff] <;> omega

theorem Walls.get_set (ws : Walls) (d d' : Dir) (v : Bool) :
    (ws.set d v).get d' = if d' = d then v else ws.get d' := by
  cases d <;> cases d' <;> simp [Walls.set, Walls.get]

theorem setWall_apply (g : Grid) (x y a b : ℤ) (d : Dir) (v : Bool) :
    setWall g x y d v a b = if a = x ∧ b = y then (g a b).set d v else g a b := rfl

/-- Pointwise description of a carve: exactly the two symmetric wall
slots become `false`; every other slot is unchanged. -/
theorem carve_get (g : Grid) (x y : ℤ) (d : Dir) (a b : ℤ) (d' : Dir) :
    ((carve g x y d) a b).get d' =
      if (a = x ∧ b = y ∧ d' = d) ∨
         (a = x + (delta d).1 ∧ b = y + (delta d).2 ∧ d' = opp d) then false
      else (g a b).get d' := by
  cases d <;> cases d' <;>
    simp only [carve, setWall_apply, delta, opp] <;>
    split_ifs <;>
    simp_all [Walls.set, Walls.get]

/-- A carve never re-raises a wall. -/
theorem carve_false_mono (g : Grid) (x y : ℤ) (d : Dir) (a b : ℤ) (d' : Dir)
    (h : (g a b).get d' = false) : ((carve g x y d) a b).get d' = false := by
  rw [carve_get]; split <;> simp [h]

theorem carve_self (g : Grid) (x y : ℤ) (d : Dir) :
    ((carve g x y d) x y).get d = false := by
  rw [carve_get]; simp

theorem carve_nbr (g : Grid) (x y : ℤ) (d : Dir) :
    ((carve g x y d) (x + (delta d).1) (y + (delta d).2)).get (opp d) = false := by
  rw [carve_get]; simp

theorem mem_cells {w h : ℕ} {p : ℤ × ℤ} : p ∈ cells w h ↔ inB w h p := by
  simp only [cells, Finset.mem_product, Finset.mem_Ico, inB]
  tauto

theorem card_cells (w h : ℕ) : (cells w h).card = w * h := by
  simp [cells, Int.card_Ico]

/-- Adding 1 at exactly one point of a finite sum. -/
theorem sum_succ_at {α : Type} [DecidableEq α] (s : Finset α) (F G : α → ℕ)
    (a : α) (ha : a ∈ s) (hsame : ∀ b ∈ s, b ≠ a → G b = F b)
    (hdiff : G a = F a + 1) :
    Finset.sum s G = Finset.sum s F + 1 := by
  have h1 : Finset.sum (s.erase a) G + G a = Finset.sum s G :=
    Finset.sum_erase_add s G ha
  have h2 : Finset.sum (s.erase a) F + F a = Finset.sum s F :=
    Finset.sum_erase_add s F ha
  have h3 : Finset.sum (s.erase a) G = Finset.sum (s.erase a) F :=
    Finset.sum_congr rfl fun b hb =>
      hsame b (Finset.mem_of_mem_erase hb) (Finset.ne_of_mem_erase hb)
  omega

theorem openPairCount_allWalls (w h : ℕ) : openPairCount allWalls w h = 0 := by
  unfold openPairCount
  rw [Finset.sum_eq_zero]
  intro p _
  simp [allWalls]

/-! Field-level description of the four carve directions: which
`wE` / `wS` entries (the ones `openPairCount` reads) change. -/

theorem carve_E_wE (g : Grid) (x y a b : ℤ) :
    ((carve g x y .E) a b).wE = if a = x ∧ b = y then false else (g a b).wE := by
  simp only [carve, setWall, delta, opp]
  split_ifs <;> simp_all [Walls.set]

theorem carve_E_wS (g : Grid) (x y a b : ℤ) :
    ((carve g x y .E) a b).wS = (g a b).wS := by
  simp only [carve, setWall, delta, opp]
  split_ifs <;> simp_all [Walls.set]

theorem carve_S_wS (g : Grid) (x y a b : ℤ) :
    ((carve g x y .S) a b).wS = if a = x ∧ b = y then false else (g a b).wS := by
  simp only [carve, setWall, delta, opp]
  split_ifs <;> simp_all [Walls.set]

theorem carve_S_wE (g : Grid) (x y a b : ℤ) :
    ((carve g x y .S) a b).wE = (g a b).wE := by
  simp only [carve, setWall, delta, opp]
  split_ifs <;> simp_all [Walls.set]

theorem carve_N_wS (g : Grid) (x y a b : ℤ) :
    ((carve g x y .N) a b).wS = if a = x ∧ b = y - 1 then false else (g a b).wS := by
  simp only [carve, setWall, delta, opp]
  split_ifs <;> simp_all [Walls.set] <;> omega

theorem carve_N_wE (g : Grid) (x y a b : ℤ) :
    ((carve g x y .N) a b).wE = (g a b).wE := by
  simp only [carve, setWall, delta, opp]
  split_ifs <;> simp_all [Walls.set]

theorem carve_W_wE (g : Grid) (x y a b : ℤ) :
    ((carve g x y .W) a b).wE = if a = x - 1 ∧ b = y then false else (g a b).wE := by
  simp only [carve, setWall, delta, opp]
  split_ifs <;> simp_all [Walls.set] <;> omega

theorem carve_W_wS (g : Grid) (x y a b : ℤ) :
    ((carve g x y .W) a b).wS = (g a b).wS := by
  simp only [carve, setWall, delta, opp]
  split_ifs <;> simp_all [Walls.set]

/-- Carving an in-bounds symmetric wall pair that was present on both
sides increments the cleared-pair count by exactly one. -/
theorem openPairCount_carve (g : Grid) (w h : ℕ) (x y : ℤ) (d : Dir)
    (hp : inB w h (x, y)) (hq : inB w h (padd (x, y) d))
    (hw1 : (g x y).get d = true)
    (hw2 : (g (padd (x, y) d).1 (padd (x, y) d).2).get (opp d) = true) :
    openPairCount (carve g x y d) w h = openPairCount g w h + 1 := by
  obtain ⟨hx0, hxw, hy0, hyh⟩ := hp
  simp only at hx0 hxw hy0 hyh
  unfold openPairCount
  cases d with
  | E =>
    simp only [padd, delta, opp] at hq hw2
    obtain ⟨-, hxw2, -, -⟩ := hq
    simp only at hxw2
    apply sum_succ_at _ _ _ (x, y) (mem_cells.mpr ⟨hx0, hxw, hy0, hyh⟩)
    · intro b _ hb
      have hb2 : ¬ (b.1 = x ∧ b.2 = y) := by
        intro hc; exact hb (Prod.ext hc.1 hc.2)
      rw [carve_E_wE, carve_E_wS, if_neg hb2]
    · have h1 : (g x y).wE = true := hw1
      rw [carve_E_wE, carve_E_wS]
      simp only [show ((x, y).1 = x ∧ (x, y).2 = y) ↔ True by simp, if_true, h1]
      have hc : x + 1 < (w : ℤ) := by simpa using hxw2
      simp [hc, hxw, hyh]
      try omega
  | S =>
    simp only [padd, delta, opp] at hq hw2
    obtain ⟨-, -, -, hyh2⟩ := hq
    simp only at hyh2
    apply sum_succ_at _ _ _ (x, y) (mem_cells.mpr ⟨hx0, hxw, hy0, hyh⟩)
    · intro b _ hb
      have hb2 : ¬ (b.1 = x ∧ b.2 = y) := by
        intro hc; exact hb (Prod.ext hc.1 hc.2)
      rw [carve_S_wS, carve_S_wE, if_neg hb2]
    · have h1 : (g x y).wS = true := hw1
      rw [carve_S_wS, carve_S_wE]
      simp only [show ((x, y).1 = x ∧ (x, y).2 = y) ↔ True by simp, if_true, h1]
      have hc : y + 1 < (h : ℤ) := by simpa using hyh2
      simp [hc, hxw, hyh]
      try omega
  | N =>
    simp only [padd, delta, opp] at hq hw2
    obtain ⟨hA, hB, hC, hD⟩ := hq
    simp only at hA hB hC hD
    have hmem : (x, y - 1) ∈ cells w h :=
      mem_cells.mpr ⟨by omega, by omega, by omega, by omega⟩
    apply sum_succ_at _ _ _ (x, y - 1) hmem
    · intro b _ hb
      have hb2 : ¬ (b.1 = x ∧ b.2 = y - 1) := by
        intro hc; exact hb (Prod.ext hc.1 hc.2)
      rw [carve_N_wS, carve_N_wE, if_neg hb2]
    · have h1 : (g x (y - 1)).wS = true := by
        have h2 : (g (x + 0) (y + -1)).get Dir.S = true := hw2
        rw [show x + 0 = x by omega, show y + -1 = y - 1 by omega] at h2
        exact h2
      rw [carve_N_wS, carve_N_wE]
      simp only [show ((x, y - 1).1 = x ∧ (x, y - 1).2 = y - 1) ↔ True by simp,
        if_true, h1]
      have hc : y - 1 + 1 < (h : ℤ) := by omega
      simp [hc, hxw, hyh]
      try omega
  | W =>
    simp only [padd, delta, opp] at hq hw2
    obtain ⟨hA, hB, hC, hD⟩ := hq
    simp only at hA hB hC hD
    have hmem : (x - 1, y) ∈ cells w h :=
      mem_cells.mpr ⟨by omega, by omega, by omega, by omega⟩
    apply sum_succ_at _ _ _ (x - 1, y) hmem
    · intro b _ hb
      have hb2 : ¬ (b.1 = x - 1 ∧ b.2 = y) := by
        intro hc; exact hb (Prod.ext hc.1 hc.2)
      rw [carve_W_wE, carve_W_wS, if_neg hb2]
    · have h1 : (g (x - 1) y).wE = true := by
        have h2 : (g (x + -1) (y + 0)).get Dir.E = true := hw2
        rw [show x + -1 = x - 1 by omega, show y + 0 = y by omega] at h2
        exact h2
      rw [carve_W_wE, carve_W_wS]
      simp only [show ((x - 1, y).1 = x - 1 ∧ (x - 1, y).2 = y) ↔ True by simp,
        if_true, h1]
      have hc : x - 1 + 1 < (w : ℤ) := by omega
      simp [hc, hxw, hyh]
      try omega

/-! ## Reachability lemmas -/

theorem openAdj_mono {g g2 : Grid} {w h : ℕ}
    (hm : ∀ a b d, (g a b).get d = false → (g2 a b).get d = false)
    {p q : ℤ × ℤ} (hadj : openAdj g w h p q) : openAdj g2 w h p q := by
  obtain ⟨hp, hq, d, hd, hf⟩ := hadj
  exact ⟨hp, hq, d, hd, hm _ _ _ hf⟩

theorem OpenReach_mono {g g2 : Grid} {w h : ℕ}
    (hm : ∀ a b d, (g a b).get d = false → (g2 a b).get d = false)
    {p q : ℤ × ℤ} (hr : OpenReach g w h p q) : OpenReach g2 w h p q :=
  Relation.ReflTransGen.mono (fun _ _ ha => openAdj_mono hm ha) hr

theorem openAdj_symm {g : Grid} {w h : ℕ} (hsym : symGrid g w h)
    {p q : ℤ × ℤ} (hadj : openAdj g w h p q) : openAdj g w h q p := by
  obtain ⟨hp, hq, d, hd, hf⟩ := hadj
  subst hd
  refine ⟨hq, hp, opp d, (padd_padd_opp p d).symm, ?_⟩
  rw [← hsym p d hp hq]
  exact hf

theorem OpenReach_symm {g : Grid} {w h : ℕ} (hsym : symGrid g w h)
    {p q : ℤ × ℤ} (hr : OpenReach g w h p q) : OpenReach g w h q p :=
  (Relation.ReflTransGen.symmetric fun _ _ ha => openAdj_symm hsym ha) hr

theorem OpenReach_allWalls {w h : ℕ} {p q : ℤ × ℤ}
    (hr : OpenReach allWalls w h p q) : p = q := by
  induction hr with
  | refl => rfl
  | tail _ hstep ih =>
    obtain ⟨_, _, d, _, hf⟩ := hstep
    exact absurd hf (by simp [allWalls, Walls.get]; cases d <;> simp [Walls.get])

/-- Grid-graph induction: a property of `(0,0)` closed under in-bounds
adjacency holds at every in-bounds cell. -/
theorem closed_all (w h : ℕ) (P : ℤ × ℤ → Prop) (h0 : P (0, 0))
    (hcl : ∀ p d, inB w h p → inB w h (padd p d) → P p → P (padd p d)) :
    ∀ p, inB w h p → P p := by
  have key : ∀ n : ℕ, ∀ x y : ℤ, (x + y).toNat = n → inB w h (x, y) → P (x, y) := by
    intro n
    induction n using Nat.strong_induction_on with
    | _ n IH =>
      intro x y hn hin
      obtain ⟨hx0, hxw, hy0, hyh⟩ := hin
      simp only at hx0 hxw hy0 hyh
      by_cases hx : x = 0
      · by_cases hy : y = 0
        · subst hx; subst hy; exact h0
        · have hy1 : 1 ≤ y := by omega
          have hsub : inB w h (x, y - 1) := ⟨by omega, by omega, by omega, by omega⟩
          have hstep := hcl (x, y - 1) .S hsub
            (by simp only [padd, delta]
                exact ⟨by omega, by omega, by omega, by omega⟩)
            (IH ((x + (y - 1)).toNat) (by omega) x (y - 1) rfl hsub)
          have : padd (x, y - 1) .S = (x, y) := by
            simp only [padd, delta, Prod.ext_iff]
            constructor <;> omega
          rwa [this] at hstep
      · have hx1 : 1 ≤ x := by omega
        have hsub : inB w h (x - 1, y) := ⟨by omega, by omega, by omega, by omega⟩
        have hstep := hcl (x - 1, y) .E hsub
          (by simp only [padd, delta]
              exact ⟨by omega, by omega, by omega, by omega⟩)
          (IH ((x - 1 + y).toNat) (by omega) (x - 1) y rfl hsub)
        have : padd (x - 1, y) .E = (x, y) := by
          simp only [padd, delta, Prod.ext_iff]
          constructor <;> omega
        rwa [this] at hstep
  intro p hp
  exact key ((p.1 + p.2).toNat) p.1 p.2 rfl hp

/-! ## Carve preservation lemmas -/

theorem carve_other {g : Grid} {x y : ℤ} {d : Dir} {p : ℤ × ℤ}
    (h1 : p ≠ (x, y)) (h2 : p ≠ padd (x, y) d) :
    (carve g x y d) p.1 p.2 = g p.1 p.2 := by
  have c1 : ¬ (p.1 = x ∧ p.2 = y) := fun hc => h1 (Prod.ext hc.1 hc.2)
  have c2 : ¬ (p.1 = x + (delta d).1 ∧ p.2 = y + (delta d).2) :=
    fun hc => h2 (Prod.ext hc.1 hc.2)
  simp only [carve, setWall_apply, if_neg c1, if_neg c2]

theorem symGrid_carve {g : Grid} {w h : ℕ} (x y : ℤ) (d : Dir)
    (hsym : symGrid g w h) : symGrid (carve g x y d) w h := by
  intro p d' hp' hq'
  rw [carve_get, carve_get]
  have hiff : ((p.1 = x ∧ p.2 = y ∧ d' = d) ∨
      (p.1 = x + (delta d).1 ∧ p.2 = y + (delta d).2 ∧ d' = opp d)) ↔
      (((padd p d').1 = x ∧ (padd p d').2 = y ∧ opp d' = d) ∨
      ((padd p d').1 = x + (delta d).1 ∧ (padd p d').2 = y + (delta d).2 ∧
        opp d' = opp d)) := by
    cases d <;> cases d' <;> simp [padd, delta, opp] <;> omega
  by_cases hL : (p.1 = x ∧ p.2 = y ∧ d' = d) ∨
      (p.1 = x + (delta d).1 ∧ p.2 = y + (delta d).2 ∧ d' = opp d)
  · rw [if_pos hL, if_pos (hiff.mp hL)]
  · rw [if_neg hL, if_neg (fun hR => hL (hiff.mpr hR))]
    exact hsym p d' hp' hq'

theorem borderGrid_carve {g : Grid} {w h : ℕ} {x y : ℤ} {d : Dir}
    (hb : borderGrid g w h) (hp : inB w h (x, y)) (hq : inB w h (padd (x, y) d)) :
    borderGrid (carve g x y d) w h := by
  intro p d' hp' hq'
  rw [carve_get]
  split_ifs with hcond
  · exfalso
    rcases hcond with ⟨h1, h2, h3⟩ | ⟨h1, h2, h3⟩
    · have hp2 : p = (x, y) := Prod.ext h1 h2
      subst h3
      rw [hp2] at hq'
      exact hq' hq
    · have hp2 : p = padd (x, y) d := Prod.ext h1 h2
      subst h3
      rw [hp2, padd_padd_opp] at hq'
      exact hq' hp
  · exact hb p d' hp' hq'

theorem openAdj_carve_self {g : Grid} {w h : ℕ} {x y : ℤ} {d : Dir}
    (hp : inB w h (x, y)) (hq : inB w h (padd (x, y) d)) :
    openAdj (carve g x y d) w h (x, y) (padd (x, y) d) :=
  ⟨hp, hq, d, rfl, carve_self g x y d⟩

theorem openAdj_carve_nbr {g : Grid} {w h : ℕ} {x y : ℤ} {d : Dir}
    (hp : inB w h (x, y)) (hq : inB w h (padd (x, y) d)) :
    openAdj (carve g x y d) w h (padd (x, y) d) (x, y) :=
  ⟨hq, hp, opp d, (padd_padd_opp (x, y) d).symm, carve_nbr g x y d⟩

/-- Any open adjacency of the carved grid is an old one or the carved
pair itself. -/
theorem openAdj_carve_cases {g : Grid} {w h : ℕ} {x y : ℤ} {d : Dir}
    {p q : ℤ × ℤ} (hadj : openAdj (carve g x y d) w h p q) :
    openAdj g w h p q ∨ (p = (x, y) ∧ q = padd (x, y) d) ∨
      (p = padd (x, y) d ∧ q = (x, y)) := by
  obtain ⟨hp, hq, d', hd, hf⟩ := hadj
  rw [carve_get] at hf
  by_cases hcond : (p.1 = x ∧ p.2 = y ∧ d' = d) ∨
      (p.1 = x + (delta d).1 ∧ p.2 = y + (delta d).2 ∧ d' = opp d)
  · rcases hcond with ⟨h1, h2, h3⟩ | ⟨h1, h2, h3⟩
    · right; left
      have hp2 : p = (x, y) := Prod.ext h1 h2
      subst h3
      exact ⟨hp2, by rw [hd, hp2]⟩
    · right; right
      have hp2 : p = padd (x, y) d := Prod.ext h1 h2
      subst h3
      exact ⟨hp2, by rw [hd, hp2, padd_padd_opp]⟩
  · left
    rw [if_neg hcond] at hf
    exact ⟨hp, hq, d', hd, hf⟩

/-- Reachability in a carved grid: the old reachability extended by
travel through the new edge (in either direction). -/
theorem OpenReach_carve_iff {g : Grid} {w h : ℕ} {x y : ℤ} {d : Dir}
    (hsym : symGrid g w h) (hp : inB w h (x, y)) (hq : inB w h (padd (x, y) d))
    (u v : ℤ × ℤ) :
    OpenReach (carve g x y d) w h u v ↔
      OpenReach g w h u v ∨
      (OpenReach g w h u (x, y) ∧ OpenReach g w h (padd (x, y) d) v) ∨
      (OpenReach g w h u (padd (x, y) d) ∧ OpenReach g w h (x, y) v) := by
  have hmono : ∀ a b e, (g a b).get e = false → ((carve g x y d) a b).get e = false :=
    fun a b e he => carve_false_mono g x y d a b e he
  constructor
  · intro hr
    induction hr with
    | refl => exact Or.inl Relation.ReflTransGen.refl
    | tail hmid hstep ih =>
      rename_i m q
      rcases openAdj_carve_cases hstep with hold | ⟨hm, hq2⟩ | ⟨hm, hq2⟩
      · rcases ih with h1 | ⟨h1, h2⟩ | ⟨h1, h2⟩
        · exact Or.inl (h1.tail hold)
        · exact Or.inr (Or.inl ⟨h1, h2.tail hold⟩)
        · exact Or.inr (Or.inr ⟨h1, h2.tail hold⟩)
      · subst hm; subst hq2
        rcases ih with h1 | ⟨h1, h2⟩ | ⟨h1, h2⟩
        · exact Or.inr (Or.inl ⟨h1, Relation.ReflTransGen.refl⟩)
        · exact Or.inr (Or.inl ⟨h1, Relation.ReflTransGen.refl⟩)
        · exact Or.inl h1
      · subst hm; subst hq2
        rcases ih with h1 | ⟨h1, h2⟩ | ⟨h1, h2⟩
        · exact Or.inr (Or.inr ⟨h1, Relation.ReflTransGen.refl⟩)
        · exact Or.inl h1
        · exact Or.inr (Or.inr ⟨h1, Relation.ReflTransGen.refl⟩)
  · intro hr
    rcases hr with h1 | ⟨h1, h2⟩ | ⟨h1, h2⟩
    · exact OpenReach_mono hmono h1
    · exact ((OpenReach_mono hmono h1).tail (openAdj_carve_self hp hq)).trans
        (OpenReach_mono hmono h2)
    · exact ((OpenReach_mono hmono h1).tail (openAdj_carve_nbr hp hq)).trans
        (OpenReach_mono hmono h2)

/-! ## The fuelled loop -/

/-- Running a fuelled loop from a state whose measure is below the
fuel, when every step preserves the invariant and decreases the
measure, ends in an invariant state that fails the loop condition. -/
theorem loopFuel_spec {σ : Type} (cond : σ → Bool) (step : ℕ → σ → σ)
    (inv : σ → Prop) (μ : σ → ℕ)
    (hstep : ∀ f s, inv s → cond s = true → inv (step f s) ∧ μ (step f s) < μ s) :
    ∀ fuel s, inv s → μ s < fuel →
      inv (loopFuel cond step fuel s) ∧
        cond (loopFuel cond step fuel s) = false := by
  intro fuel
  induction fuel with
  | zero => intro s _ hμ; omega
  | succ f ih =>
    intro s hinv hμ
    rw [loopFuel]
    by_cases hc : cond s = true
    · rw [if_pos hc]
      obtain ⟨hinv2, hμ2⟩ := hstep f s hinv hc
      exact ih (step f s) hinv2 (by omega)
    · rw [if_neg hc]
      exact ⟨hinv, by simpa using hc⟩

/-! ## List and visited-table helpers -/

theorem getD_mem {α : Type} (l : List α) (k : ℕ) (dflt : α) (hne : l ≠ []) :
    l.getD (k % l.length) dflt ∈ l := by
  have hlt : k % l.length < l.length :=
    Nat.mod_lt _ (List.length_pos.mpr hne)
  rw [List.getD_eq_getElem l dflt hlt]
  exact List.getElem_mem hlt

theorem allWalls_get (x y : ℤ) (d : Dir) : (allWalls x y).get d = true := by
  cases d <;> rfl

theorem symGrid_allWalls (w h : ℕ) : symGrid allWalls w h := by
  intro p d _ _
  rw [allWalls_get, allWalls_get]

theorem borderGrid_allWalls (w h : ℕ) : borderGrid allWalls w h := by
  intro p d _ _
  exact allWalls_get _ _ _

theorem visCard_le (w h : ℕ) (vis : ℤ × ℤ → Bool) : visCard w h vis ≤ w * h :=
  (Finset.card_filter_le _ _).trans (le_of_eq (card_cells w h))

theorem visCard_full {w h : ℕ} {vis : ℤ × ℤ → Bool}
    (hfull : visCard w h vis = w * h) : ∀ p, inB w h p → vis p = true := by
  have heq : (cells w h).filter (fun p => vis p = true) = cells w h :=
    Finset.eq_of_subset_of_card_le (Finset.filter_subset _ _)
      (by
        show (cells w h).card ≤ visCard w h vis
        rw [card_cells, hfull])
  intro p hp
  have hmem : p ∈ (cells w h).filter (fun p => vis p = true) := by
    rw [heq]; exact mem_cells.mpr hp
  exact (Finset.mem_filter.mp hmem).2

theorem visCard_insert {w h : ℕ} {vis : ℤ × ℤ → Bool} {q : ℤ × ℤ}
    (hq : inB w h q) (hnv : vis q = false) :
    visCard w h (fun r => if r = q then true else vis r) = visCard w h vis + 1 := by
  unfold visCard
  have heq : ((cells w h).filter fun p => (if p = q then true else vis p) = true) =
      insert q ((cells w h).filter fun p => vis p = true) := by
    ext p
    simp only [Finset.mem_filter, Finset.mem_insert]
    by_cases hpq : p = q
    · subst hpq; simp [mem_cells.mpr hq]
    · simp [hpq]
  rw [heq, Finset.card_insert_of_not_mem (by simp [hnv])]

theorem visCard_init (w h : ℕ) (hw : 1 ≤ w) (hh : 1 ≤ h) :
    visCard w h (fun q => decide (q = ((0 : ℤ), (0 : ℤ)))) = 1 := by
  unfold visCard
  have heq : ((cells w h).filter fun p => decide (p = ((0 : ℤ), (0 : ℤ))) = true) =
      {((0 : ℤ), (0 : ℤ))} := by
    ext p
    simp only [Finset.mem_filter, Finset.mem_singleton, decide_eq_true_eq]
    constructor
    · exact fun hc => hc.2
    · intro hc
      subst hc
      have hin : inB w h ((0 : ℤ), (0 : ℤ)) := by
        refine ⟨by norm_num, ?_, by norm_num, ?_⟩
        · show (0 : ℤ) < (w : ℤ)
          omega
        · show (0 : ℤ) < (h : ℤ)
          omega
      exact ⟨mem_cells.mpr hin, rfl⟩
  rw [heq, Finset.card_singleton]

/-! ## `_generate_dfs`: correctness -/

theorem dfsNeighbors_mem {w h : ℕ} {vis : ℤ × ℤ → Bool} {c : ℤ × ℤ}
    {e : Dir × ℤ × ℤ} :
    e ∈ dfsNeighbors w h vis c ↔
      e.2 = padd c e.1 ∧ inB w h (padd c e.1) ∧ vis (padd c e.1) = false := by
  obtain ⟨d, a, b⟩ := e
  simp only [dfsNeighbors, List.mem_filterMap]
  constructor
  · rintro ⟨d2, _, hsome⟩
    split_ifs at hsome with hc
    · simp only [Option.some.injEq, Prod.mk.injEq] at hsome
      obtain ⟨hd, ha, hb⟩ := hsome
      subst hd
      refine ⟨?_, hc.1, hc.2⟩
      rw [← ha, ← hb]
  · rintro ⟨heq, hin, hnv⟩
    refine ⟨d, by cases d <;> simp [dirList], ?_⟩
    rw [if_pos ⟨hin, hnv⟩]
    simp only [Prod.ext_iff] at heq
    simp only [Option.some.injEq, Prod.mk.injEq]
    exact ⟨trivial, heq.1.symm, heq.2.symm⟩

theorem dfsNeighbors_nil {w h : ℕ} {vis : ℤ × ℤ → Bool} {c : ℤ × ℤ}
    (hnil : dfsNeighbors w h vis c = []) :
    ∀ d, inB w h (padd c d) → vis (padd c d) = true := by
  intro d hin
  by_contra hnv
  have hmem : (d, (padd c d).1, (padd c d).2) ∈ dfsNeighbors w h vis c := by
    rw [dfsNeighbors_mem]
    exact ⟨by simp [Prod.ext_iff], hin, by simpa using hnv⟩
  rw [hnil] at hmem
  exact absurd hmem (List.not_mem_nil _)

/-- One DFS iteration preserves the invariant and decreases the
measure `2*(cells left) + stack length`. -/
theorem dfsStep_spec (w h : ℕ) (pick : ℕ) (s : DfsState)
    (hinv : DfsInv w h s) (hcond : s.count < w * h) :
    DfsInv w h (dfsStep w h pick s) ∧
      2 * (w * h - (dfsStep w h pick s).count) + (dfsStep w h pick s).stack.length <
        2 * (w * h - s.count) + s.stack.length := by
  rcases hn : dfsNeighbors w h s.vis s.cur with _ | ⟨n0, ns⟩
  · rcases hst : s.stack with _ | ⟨q, rest⟩
    · exfalso
      have hall : ∀ p, inB w h p → s.vis p = true := by
        apply closed_all w h (fun p => s.vis p = true) hinv.zeroVis
        intro p d hp hq hvp
        by_cases hpc : p = s.cur
        · subst hpc
          exact dfsNeighbors_nil hn d hq
        · exact hinv.closure p hvp (by rw [hst]; exact List.not_mem_nil _) hpc d hq
      have hfull : visCard w h s.vis = w * h := by
        apply le_antisymm (visCard_le w h s.vis)
        unfold visCard
        rw [← card_cells w h]
        apply Finset.card_le_card
        intro p hp
        exact Finset.mem_filter.mpr ⟨hp, hall p (mem_cells.mp hp)⟩
      have := hinv.countEq
      omega
    · have hs2 : dfsStep w h pick s = { s with cur := q, stack := rest } := by
        simp only [dfsStep, hn, hst]
      rw [hs2]
      constructor
      · refine ⟨hinv.sym, hinv.border, hinv.fresh, hinv.countEq, hinv.pairs,
          hinv.visIn, hinv.reach, hinv.zeroVis, ?_, ?_, ?_⟩
        · exact hinv.stackVis q (by rw [hst]; exact List.mem_cons_self _ _)
        · intro r hr
          exact hinv.stackVis r (by rw [hst]; exact List.mem_cons_of_mem _ hr)
        · intro p hvp hpns hpq d hq2
          by_cases hpc : p = s.cur
          · subst hpc
            exact dfsNeighbors_nil hn d hq2
          · refine hinv.closure p hvp ?_ hpc d hq2
            rw [hst]
            intro hmem
            rcases List.mem_cons.mp hmem with h1 | h1
            · exact hpq h1
            · exact hpns h1
      · simp only [hst, List.length_cons]
        omega
  · have hmem0 : (n0 :: ns).getD (pick % (n0 :: ns).length) n0 ∈ (n0 :: ns) :=
      getD_mem _ _ _ (by simp)
    set c := (n0 :: ns).getD (pick % (n0 :: ns).length) n0 with hcdef
    have hcm : c ∈ dfsNeighbors w h s.vis s.cur := by rw [hn]; exact hmem0
    rw [dfsNeighbors_mem] at hcm
    obtain ⟨hceq, hcin, hcnv⟩ := hcm
    have hq2 : (c.2.1, c.2.2) = padd s.cur c.1 := hceq
    have hcurin : inB w h s.cur := hinv.visIn s.cur hinv.curVis
    have hw2 : (s.grid (padd s.cur c.1).1 (padd s.cur c.1).2).get (opp c.1) = true := by
      apply hinv.fresh (padd s.cur c.1) hcin
      · by_contra hvt
        rw [Bool.not_eq_false] at hvt
        rw [hvt] at hcnv
        exact absurd hcnv (by simp)
    have hw1 : (s.grid s.cur.1 s.cur.2).get c.1 = true := by
      rw [hinv.sym s.cur c.1 hcurin hcin]
      exact hw2
    have hvnew : s.vis (c.2.1, c.2.2) = false := by rw [hq2]; exact hcnv
    have hinnew : inB w h (c.2.1, c.2.2) := by rw [hq2]; exact hcin
    have hs2 : dfsStep w h pick s =
        { grid := carve s.grid s.cur.1 s.cur.2 c.1
          vis := fun r => if r = (c.2.1, c.2.2) then true else s.vis r
          stack := s.cur :: s.stack
          cur := (c.2.1, c.2.2)
          count := s.count + 1 } := by
      simp only [dfsStep, hn]
    rw [hs2]
    have hmono : ∀ a b e, (s.grid a b).get e = false →
        ((carve s.grid s.cur.1 s.cur.2 c.1) a b).get e = false :=
      fun a b e he => carve_false_mono _ _ _ _ a b e he
    have hvmono : ∀ r, s.vis r = true →
        (if r = (c.2.1, c.2.2) then true else s.vis r) = true := by
      intro r hr
      by_cases hrq : r = (c.2.1, c.2.2) <;> simp [hrq, hr]
    have hcount : openPairCount (carve s.grid s.cur.1 s.cur.2 c.1) w h =
        openPairCount s.grid w h + 1 :=
      openPairCount_carve s.grid w h s.cur.1 s.cur.2 c.1 hcurin hcin hw1 hw2
    constructor
    · refine ⟨symGrid_carve _ _ _ hinv.sym,
        borderGrid_carve hinv.border hcurin hcin, ?_, ?_, ?_, ?_, ?_, ?_, ?_, ?_, ?_⟩
      · intro p hp hvp d
        replace hvp : (if p = (c.2.1, c.2.2) then true else s.vis p) = false := hvp
        show ((carve s.grid s.cur.1 s.cur.2 c.1) p.1 p.2).get d = true
        by_cases hpq : p = (c.2.1, c.2.2)
        · rw [if_pos hpq] at hvp
          exact absurd hvp (by simp)
        · rw [if_neg hpq] at hvp
          have hpc : p ≠ s.cur := by
            intro hpc
            rw [hpc, hinv.curVis] at hvp
            exact absurd hvp (by simp)
          have hother : (carve s.grid s.cur.1 s.cur.2 c.1) p.1 p.2 = s.grid p.1 p.2 := by
            apply carve_other
            · exact hpc
            · rw [← hq2] at *
              exact hpq
          rw [hother]
          exact hinv.fresh p hp hvp d
      · show s.count + 1 = visCard w h _
        rw [visCard_insert hinnew hvnew, ← hinv.countEq]
      · show openPairCount _ w h + 1 = s.count + 1
        rw [hcount]
        have := hinv.pairs
        omega
      · intro p hvp
        replace hvp : (if p = (c.2.1, c.2.2) then true else s.vis p) = true := hvp
        by_cases hpq : p = (c.2.1, c.2.2)
        · rw [hpq]; exact hinnew
        · rw [if_neg hpq] at hvp
          exact hinv.visIn p hvp
      · intro p hvp
        replace hvp : (if p = (c.2.1, c.2.2) then true else s.vis p) = true := hvp
        show OpenReach (carve s.grid s.cur.1 s.cur.2 c.1) w h (0, 0) p
        by_cases hpq : p = (c.2.1, c.2.2)
        · subst hpq
          have hreach : OpenReach (carve s.grid s.cur.1 s.cur.2 c.1) w h (0, 0) s.cur :=
            OpenReach_mono hmono (hinv.reach s.cur hinv.curVis)
          have hstep : openAdj (carve s.grid s.cur.1 s.cur.2 c.1) w h s.cur
              (c.2.1, c.2.2) := by
            rw [hq2]
            exact openAdj_carve_self hcurin hcin
          exact hreach.tail hstep
        · rw [if_neg hpq] at hvp
          exact OpenReach_mono hmono (hinv.reach p hvp)
      · exact hvmono _ hinv.zeroVis
      · show (if (c.2.1, c.2.2) = (c.2.1, c.2.2) then true else s.vis (c.2.1, c.2.2)) = true
        rw [if_pos rfl]
      · intro r hr
        rcases List.mem_cons.mp hr with h1 | h1
        · subst h1
          exact hvmono _ hinv.curVis
        · exact hvmono _ (hinv.stackVis r h1)
      · intro p hvp hpst hpq d hq3
        replace hvp : (if p = (c.2.1, c.2.2) then true else s.vis p) = true := hvp
        replace hpst : p ∉ s.cur :: s.stack := hpst
        replace hpq : p ≠ (c.2.1, c.2.2) := hpq
        have hps : p ≠ s.cur := fun hc => hpst (hc ▸ List.mem_cons_self _ _)
        have hpst2 : p ∉ s.stack := fun hc => hpst (List.mem_cons_of_mem _ hc)
        have hvold : s.vis p = true := by
          rw [if_neg hpq] at hvp
          exact hvp
        exact hvmono _ (hinv.closure p hvold hpst2 hps d hq3)
    · simp only [List.length_cons]
      omega

/-- `_generate_dfs` produces a perfect maze on a fresh grid. -/
theorem generateDfs_ok (w h : ℕ) (hw : 1 ≤ w) (hh : 1 ≤ h) (rng : ℕ → ℕ) :
    GenOk (generateDfs w h rng allWalls) w h := by
  have hzin : inB w h ((0 : ℤ), (0 : ℤ)) := by
    refine ⟨by norm_num, ?_, by norm_num, ?_⟩
    · show (0 : ℤ) < (w : ℤ)
      omega
    · show (0 : ℤ) < (h : ℤ)
      omega
  have hinit : DfsInv w h (dfsInit allWalls) := by
    refine ⟨symGrid_allWalls w h, borderGrid_allWalls w h, ?_, ?_, ?_, ?_, ?_, ?_, ?_, ?_, ?_⟩
    · intro p _ _ d
      exact allWalls_get p.1 p.2 d
    · show 1 = visCard w h fun q => decide (q = ((0 : ℤ), (0 : ℤ)))
      rw [visCard_init w h hw hh]
    · show openPairCount allWalls w h + 1 = 1
      rw [openPairCount_allWalls]
    · intro p hvp
      replace hvp : decide (p = ((0 : ℤ), (0 : ℤ))) = true := hvp
      rw [of_decide_eq_true hvp]
      exact hzin
    · intro p hvp
      replace hvp : decide (p = ((0 : ℤ), (0 : ℤ))) = true := hvp
      rw [of_decide_eq_true hvp]
      exact Relation.ReflTransGen.refl
    · show decide (((0 : ℤ), (0 : ℤ)) = ((0 : ℤ), (0 : ℤ))) = true
      simp
    · show decide (((0 : ℤ), (0 : ℤ)) = ((0 : ℤ), (0 : ℤ))) = true
      simp
    · intro q hq
      exact absurd hq (List.not_mem_nil _)
    · intro p hvp hpst hpq d hq2
      exfalso
      apply hpq
      replace hvp : decide (p = ((0 : ℤ), (0 : ℤ))) = true := hvp
      exact of_decide_eq_true hvp
  have hspec := loopFuel_spec (fun s => decide (s.count < w * h))
    (fun f s => dfsStep w h (rng f) s) (DfsInv w h)
    (fun s => 2 * (w * h - s.count) + s.stack.length)
    (fun f s hs hc => dfsStep_spec w h (rng f) s hs (by simpa using hc))
    (dfsFuel w h) (dfsInit allWalls) hinit
    (by
      show 2 * (w * h - 1) + 0 < dfsFuel w h
      unfold dfsFuel
      have : 1 ≤ w * h := Nat.one_le_iff_ne_zero.mpr (by positivity)
      omega)
  set sf := loopFuel (fun s => decide (s.count < w * h))
    (fun f s => dfsStep w h (rng f) s) (dfsFuel w h) (dfsInit allWalls) with hsf
  obtain ⟨hfinv, hfcond⟩ := hspec
  have hge : w * h ≤ sf.count := by
    by_contra hlt
    rw [Bool.eq_false_iff] at hfcond
    exact hfcond (by simpa using (by omega : sf.count < w * h))
  have hle : sf.count ≤ w * h := hfinv.countEq ▸ visCard_le w h sf.vis
  have hcnt : sf.count = w * h := le_antisymm hle hge
  have hallvis : ∀ p, inB w h p → sf.vis p = true :=
    visCard_full (by rw [← hfinv.countEq, hcnt])
  have hgen : generateDfs w h rng allWalls = sf.grid := rfl
  rw [hgen]
  refine ⟨hfinv.sym, hfinv.border, ?_, ?_⟩
  · rw [hfinv.pairs, hcnt]
  · intro p hp
    exact hfinv.reach p (hallvis p hp)

/-! ## `_generate_prim`: correctness -/

theorem addFrontier_mem {w h : ℕ} {vis : ℤ × ℤ → Bool} {x y : ℤ} {e : FEdge} :
    e ∈ addFrontier w h vis x y ↔
      e.fx = x ∧ e.fy = y ∧ (e.tx, e.ty) = padd (x, y) e.dir ∧
        inB w h (padd (x, y) e.dir) ∧ vis (padd (x, y) e.dir) = false := by
  obtain ⟨fx, fy, d, tx, ty⟩ := e
  simp only [addFrontier, List.mem_filterMap]
  constructor
  · rintro ⟨d2, _, hsome⟩
    split_ifs at hsome with hc
    · simp only [Option.some.injEq, FEdge.mk.injEq] at hsome
      obtain ⟨h1, h2, h3, h4, h5⟩ := hsome
      subst h3
      exact ⟨h1.symm, h2.symm, by rw [← h4, ← h5], hc.1, hc.2⟩
  · rintro ⟨h1, h2, h3, hin, hnv⟩
    refine ⟨d, by cases d <;> simp [dirList], ?_⟩
    rw [if_pos ⟨hin, hnv⟩]
    simp only [Option.some.injEq, FEdge.mk.injEq]
    simp only [Prod.ext_iff] at h3
    exact ⟨h1.symm, h2.symm, trivial, h3.1.symm, h3.2.symm⟩

theorem addFrontier_len {w h : ℕ} {vis : ℤ × ℤ → Bool} {x y : ℤ} :
    (addFrontier w h vis x y).length ≤ 4 := by
  have := List.length_filterMap_le
    (fun d => let q := padd (x, y) d
      if inB w h q ∧ vis q = false then
        some (⟨x, y, d, q.1, q.2⟩ : FEdge) else none) dirList
  simpa [dirList] using this

theorem mem_eraseIdx_of_ne {α : Type} :
    ∀ (l : List α) (i : ℕ) (x dflt : α), i < l.length → x ∈ l →
      x ≠ l.getD i dflt → x ∈ l.eraseIdx i
  | [], i, x, dflt, hi, hx, hne => absurd hx (List.not_mem_nil x)
  | a :: t, 0, x, dflt, hi, hx, hne => by
    simp only [List.getD_cons_zero] at hne
    simp only [List.eraseIdx_cons_zero]
    rcases List.mem_cons.mp hx with h1 | h1
    · exact absurd h1 hne
    · exact h1
  | a :: t, i + 1, x, dflt, hi, hx, hne => by
    simp only [List.getD_cons_succ] at hne
    simp only [List.eraseIdx_cons_succ]
    rcases List.mem_cons.mp hx with h1 | h1
    · exact h1 ▸ List.mem_cons_self a _
    · exact List.mem_cons_of_mem a
        (mem_eraseIdx_of_ne t i x dflt (by simpa using hi) h1 hne)

theorem mem_of_mem_eraseIdx2 {α : Type} :
    ∀ (l : List α) (i : ℕ) (x : α), x ∈ l.eraseIdx i → x ∈ l
  | [], i, x, hx => by simpa using hx
  | a :: t, 0, x, hx => by
    simp only [List.eraseIdx_cons_zero] at hx
    exact List.mem_cons_of_mem a hx
  | a :: t, i + 1, x, hx => by
    simp only [List.eraseIdx_cons_succ] at hx
    rcases List.mem_cons.mp hx with h1 | h1
    · exact h1 ▸ List.mem_cons_self a _
    · exact List.mem_cons_of_mem a (mem_of_mem_eraseIdx2 t i x h1)

/-- One Prim iteration preserves the invariant and decreases
`frontier length + 4 * (cells left)`. -/
theorem primStep_spec (w h : ℕ) (pick : ℕ) (s : PrimState)
    (hinv : PrimInv w h s) (hcond : s.frontier ≠ []) :
    PrimInv w h (primStep w h pick s) ∧
      (primStep w h pick s).frontier.length +
          4 * (w * h - visCard w h (primStep w h pick s).vis) <
        s.frontier.length + 4 * (w * h - visCard w h s.vis) := by
  rcases hfr : s.frontier with _ | ⟨e0, es⟩
  · exact absurd hfr hcond
  set fr := e0 :: es with hfrdef
  set i := pick % fr.length with hidef
  set e := fr.getD i e0 with hedef
  have hilt : i < fr.length := Nat.mod_lt _ (by simp [hfrdef])
  have hlenE : (fr.eraseIdx i).length + 1 = fr.length := by
    rw [List.length_eraseIdx_of_lt hilt]
    have : 1 ≤ fr.length := by simp [hfrdef]
    omega
  have hemem : e ∈ s.frontier := by rw [hfr]; exact getD_mem _ _ _ (by simp)
  obtain ⟨hsrcV, hsrcI, hteq, htin⟩ := hinv.frSrc e hemem
  by_cases hvt : s.vis (e.tx, e.ty) = true
  · have hs2 : primStep w h pick s = { s with frontier := fr.eraseIdx i } := by
      simp only [primStep, hfr]
      rw [if_pos hvt]
    rw [hs2]
    constructor
    · refine ⟨hinv.sym, hinv.border, hinv.fresh, hinv.pairs, hinv.visIn,
        hinv.reach, hinv.zeroVis, ?_, ?_⟩
      · intro e2 he2
        exact hinv.frSrc e2 (by rw [hfr]; exact mem_of_mem_eraseIdx2 _ _ _ he2)
      · intro p d hvp hpin hnv
        apply mem_eraseIdx_of_ne fr i _ e0 hilt
        · rw [← hfr]
          exact hinv.frCov p d hvp hpin hnv
        · intro hc
          rw [← hedef] at hc
          have htx := congrArg FEdge.tx hc
          have hty := congrArg FEdge.ty hc
          have hpe : padd p d = (e.tx, e.ty) := Prod.ext htx hty
          replace hnv : s.vis (padd p d) = false := hnv
          rw [hpe, hvt] at hnv
          exact absurd hnv (by simp)
    · show (fr.eraseIdx i).length + 4 * (w * h - visCard w h s.vis) <
        fr.length + 4 * (w * h - visCard w h s.vis)
      omega
  · rw [Bool.not_eq_true] at hvt
    have hw2 : (s.grid (padd (e.fx, e.fy) e.dir).1 (padd (e.fx, e.fy) e.dir).2).get
        (opp e.dir) = true := by
      apply hinv.fresh _ (hteq ▸ htin)
      rw [← hteq]
      exact hvt
    have hw1 : (s.grid e.fx e.fy).get e.dir = true := by
      rw [hinv.sym (e.fx, e.fy) e.dir hsrcI (hteq ▸ htin)]
      exact hw2
    have hs2 : primStep w h pick s =
        { grid := carve s.grid e.fx e.fy e.dir
          vis := fun q => if q = (e.tx, e.ty) then true else s.vis q
          frontier := fr.eraseIdx i ++
            addFrontier w h (fun q => if q = (e.tx, e.ty) then true else s.vis q)
              e.tx e.ty } := by
      simp only [primStep, hfr]
      rw [if_neg (by rw [hvt]; simp)]
    rw [hs2]
    have hmono : ∀ a b d2, (s.grid a b).get d2 = false →
        ((carve s.grid e.fx e.fy e.dir) a b).get d2 = false :=
      fun a b d2 hd => carve_false_mono _ _ _ _ a b d2 hd
    have hvmono : ∀ r, s.vis r = true →
        (if r = (e.tx, e.ty) then true else s.vis r) = true := by
      intro r hr
      by_cases hrq : r = (e.tx, e.ty) <;> simp [hrq, hr]
    have htin2 : inB w h (padd (e.fx, e.fy) e.dir) := hteq ▸ htin
    have hvt2 : s.vis (padd (e.fx, e.fy) e.dir) = false := by rw [← hteq]; exact hvt
    have hcard : visCard w h (fun q => if q = (e.tx, e.ty) then true else s.vis q) =
        visCard w h s.vis + 1 := visCard_insert htin hvt
    have hcount : openPairCount (carve s.grid e.fx e.fy e.dir) w h =
        openPairCount s.grid w h + 1 :=
      openPairCount_carve s.grid w h e.fx e.fy e.dir hsrcI htin2 hw1 hw2
    constructor
    · refine ⟨symGrid_carve _ _ _ hinv.sym,
        borderGrid_carve hinv.border hsrcI htin2, ?_, ?_, ?_, ?_, ?_, ?_, ?_⟩
      · intro p hp hvp d
        replace hvp : (if p = (e.tx, e.ty) then true else s.vis p) = false := hvp
        show ((carve s.grid e.fx e.fy e.dir) p.1 p.2).get d = true
        by_cases hpq : p = (e.tx, e.ty)
        · rw [if_pos hpq] at hvp
          exact absurd hvp (by simp)
        · rw [if_neg hpq] at hvp
          have hpc : p ≠ (e.fx, e.fy) := by
            intro hpc
            rw [hpc, hsrcV] at hvp
            exact absurd hvp (by simp)
          have hother : (carve s.grid e.fx e.fy e.dir) p.1 p.2 = s.grid p.1 p.2 := by
            apply carve_other hpc
            intro hc
            exact hpq (by rw [hc, ← hteq])
          rw [hother]
          exact hinv.fresh p hp hvp d
      · show openPairCount (carve s.grid e.fx e.fy e.dir) w h + 1 = visCard w h _
        rw [hcount, hcard]
        have := hinv.pairs
        omega
      · intro p hvp
        replace hvp : (if p = (e.tx, e.ty) then true else s.vis p) = true := hvp
        by_cases hpq : p = (e.tx, e.ty)
        · rw [hpq]; exact htin
        · rw [if_neg hpq] at hvp
          exact hinv.visIn p hvp
      · intro p hvp
        replace hvp : (if p = (e.tx, e.ty) then true else s.vis p) = true := hvp
        show OpenReach (carve s.grid e.fx e.fy e.dir) w h (0, 0) p
        by_cases hpq : p = (e.tx, e.ty)
        · subst hpq
          have hreach : OpenReach (carve s.grid e.fx e.fy e.dir) w h (0, 0) (e.fx, e.fy) :=
            OpenReach_mono hmono (hinv.reach _ hsrcV)
          have hstep : openAdj (carve s.grid e.fx e.fy e.dir) w h (e.fx, e.fy)
              (e.tx, e.ty) := by
            rw [hteq]
            exact openAdj_carve_self hsrcI htin2
          exact hreach.tail hstep
        · rw [if_neg hpq] at hvp
          exact OpenReach_mono hmono (hinv.reach p hvp)
      · exact hvmono _ hinv.zeroVis
      · intro e2 he2
        replace he2 : e2 ∈ fr.eraseIdx i ++ addFrontier w h _ e.tx e.ty := he2
        rcases List.mem_append.mp he2 with h1 | h1
        · obtain ⟨hv2, hi2, ht2, ht3⟩ := hinv.frSrc e2
            (by rw [hfr]; exact mem_of_mem_eraseIdx2 _ _ _ h1)
          exact ⟨hvmono _ hv2, hi2, ht2, ht3⟩
        · rw [addFrontier_mem] at h1
          obtain ⟨h1x, h1y, h1t, h1in, h1nv⟩ := h1
          refine ⟨?_, ?_, ?_, ?_⟩
          · rw [h1x, h1y]
            simp
          · rw [h1x, h1y]
            exact htin
          · rw [h1t, h1x, h1y]
          · rw [h1t]
            exact h1in
      · intro p d hvp hpin hnv
        replace hvp : (if p = (e.tx, e.ty) then true else s.vis p) = true := hvp
        replace hnv : (if padd p d = (e.tx, e.ty) then true else s.vis (padd p d)) = false := hnv
        have hnvne : padd p d ≠ (e.tx, e.ty) := by
          intro hc
          rw [if_pos hc] at hnv
          exact absurd hnv (by simp)
        rw [if_neg hnvne] at hnv
        show _ ∈ fr.eraseIdx i ++ addFrontier w h _ e.tx e.ty
        by_cases hpq : p = (e.tx, e.ty)
        · subst hpq
          apply List.mem_append.mpr
          right
          rw [addFrontier_mem]
          refine ⟨rfl, rfl, rfl, hpin, ?_⟩
          rw [if_neg hnvne]
          exact hnv
        · rw [if_neg hpq] at hvp
          apply List.mem_append.mpr
          left
          apply mem_eraseIdx_of_ne fr i _ e0 hilt
          · rw [← hfr]
            exact hinv.frCov p d hvp hpin hnv
          · intro hc
            rw [← hedef] at hc
            have htx := congrArg FEdge.tx hc
            have hty := congrArg FEdge.ty hc
            exact hnvne (Prod.ext htx hty)
    · show (fr.eraseIdx i ++ addFrontier w h
          (fun q => if q = (e.tx, e.ty) then true else s.vis q) e.tx e.ty).length +
        4 * (w * h - visCard w h (fun q => if q = (e.tx, e.ty) then true else s.vis q)) <
        fr.length + 4 * (w * h - visCard w h s.vis)
      rw [List.length_append, hcard]
      have hlenA : (addFrontier w h
          (fun q => if q = (e.tx, e.ty) then true else s.vis q) e.tx e.ty).length ≤ 4 :=
        addFrontier_len
      have hvcle : visCard w h s.vis + 1 ≤ w * h := by
        rw [← hcard]
        exact visCard_le w h _
      omega

/-- `_generate_prim` produces a perfect maze on a fresh grid. -/
theorem generatePrim_ok (w h : ℕ) (hw : 1 ≤ w) (hh : 1 ≤ h) (rng : ℕ → ℕ) :
    GenOk (generatePrim w h rng allWalls) w h := by
  have hzin : inB w h ((0 : ℤ), (0 : ℤ)) := by
    refine ⟨by norm_num, ?_, by norm_num, ?_⟩
    · show (0 : ℤ) < (w : ℤ)
      omega
    · show (0 : ℤ) < (h : ℤ)
      omega
  have hinit : PrimInv w h (primInit w h allWalls) := by
    refine ⟨symGrid_allWalls w h, borderGrid_allWalls w h, ?_, ?_, ?_, ?_, ?_, ?_, ?_⟩
    · intro p _ _ d
      exact allWalls_get p.1 p.2 d
    · show openPairCount allWalls w h + 1 =
        visCard w h fun q => decide (q = ((0 : ℤ), (0 : ℤ)))
      rw [openPairCount_allWalls, visCard_init w h hw hh]
    · intro p hvp
      replace hvp : decide (p = ((0 : ℤ), (0 : ℤ))) = true := hvp
      rw [of_decide_eq_true hvp]
      exact hzin
    · intro p hvp
      replace hvp : decide (p = ((0 : ℤ), (0 : ℤ))) = true := hvp
      rw [of_decide_eq_true hvp]
      exact Relation.ReflTransGen.refl
    · show decide (((0 : ℤ), (0 : ℤ)) = ((0 : ℤ), (0 : ℤ))) = true
      simp
    · intro e he
      replace he : e ∈ addFrontier w h
        (fun q : ℤ × ℤ => decide (q = ((0 : ℤ), (0 : ℤ)))) 0 0 := he
      rw [addFrontier_mem] at he
      obtain ⟨h1, h2, h3, h4, h5⟩ := he
      refine ⟨?_, ?_, ?_, ?_⟩
      · rw [h1, h2]
        show decide (((0 : ℤ), (0 : ℤ)) = ((0 : ℤ), (0 : ℤ))) = true
        simp
      · rw [h1, h2]
        exact hzin
      · rw [h3, h1, h2]
      · rw [h3]
        exact h4
    · intro p d hvp hpin hnv
      replace hvp : decide (p = ((0 : ℤ), (0 : ℤ))) = true := hvp
      have hp0 : p = ((0 : ℤ), (0 : ℤ)) := of_decide_eq_true hvp
      subst hp0
      show _ ∈ addFrontier w h
        (fun q : ℤ × ℤ => decide (q = ((0 : ℤ), (0 : ℤ)))) 0 0
      rw [addFrontier_mem]
      exact ⟨rfl, rfl, rfl, hpin, hnv⟩
  have hspec := loopFuel_spec (fun s : PrimState => !s.frontier.isEmpty)
    (fun f s => primStep w h (rng f) s) (PrimInv w h)
    (fun s => s.frontier.length + 4 * (w * h - visCard w h s.vis))
    (fun f s hs hc => primStep_spec w h (rng f) s hs
      (by
        intro hnil
        replace hc : (!s.frontier.isEmpty) = true := hc
        rw [hnil] at hc
        simpa using hc))
    (primFuel w h) (primInit w h allWalls) hinit
    (by
      show (primInit w h allWalls).frontier.length +
        4 * (w * h - visCard w h (primInit w h allWalls).vis) < primFuel w h
      have h4 : ((primInit w h allWalls).frontier).length ≤ 4 := by
        show (addFrontier w h
          (fun q : ℤ × ℤ => decide (q = ((0 : ℤ), (0 : ℤ)))) 0 0).length ≤ 4
        exact addFrontier_len
      have h1 : visCard w h (primInit w h allWalls).vis = 1 := by
        show visCard w h (fun q : ℤ × ℤ => decide (q = ((0 : ℤ), (0 : ℤ)))) = 1
        exact visCard_init w h hw hh
      unfold primFuel
      omega)
  set sf := loopFuel (fun s : PrimState => !s.frontier.isEmpty)
    (fun f s => primStep w h (rng f) s) (primFuel w h) (primInit w h allWalls) with hsf
  obtain ⟨hfinv, hfcond⟩ := hspec
  replace hfcond : (!sf.frontier.isEmpty) = false := hfcond
  have hfrnil : sf.frontier = [] := by
    rcases hfr : sf.frontier with _ | ⟨a, t⟩
    · rfl
    · rw [hfr] at hfcond
      simpa using hfcond
  have hallvis : ∀ p, inB w h p → sf.vis p = true := by
    apply closed_all w h (fun p => sf.vis p = true) hfinv.zeroVis
    intro p d hp hq hvp
    by_contra hnv
    rw [Bool.not_eq_true] at hnv
    have := hfinv.frCov p d hvp hq hnv
    rw [hfrnil] at this
    exact absurd this (List.not_mem_nil _)
  have hfull : visCard w h sf.vis = w * h := by
    apply le_antisymm (visCard_le w h sf.vis)
    unfold visCard
    rw [← card_cells w h]
    apply Finset.card_le_card
    intro p hp
    exact Finset.mem_filter.mpr ⟨hp, hallvis p (mem_cells.mp hp)⟩
  have hgen : generatePrim w h rng allWalls = sf.grid := rfl
  rw [hgen]
  refine ⟨hfinv.sym, hfinv.border, ?_, ?_⟩
  · rw [hfinv.pairs, hfull]
  · intro p hp
    exact hfinv.reach p (hallvis p hp)

/-! ## Union-find: basic root theory -/

theorem root_of_isRoot {p : ℕ → ℕ} {r : ℕ} (h : isRoot p r) : Root p r r :=
  ⟨Relation.ReflTransGen.refl, h⟩

theorem chain_from_root {p : ℕ → ℕ} {a b : ℕ} (ha : isRoot p a)
    (hc : Relation.ReflTransGen (PStep p) a b) : a = b := by
  rcases Relation.ReflTransGen.cases_head hc with h1 | ⟨m, hstep, _⟩
  · exact h1
  · exact absurd ha hstep.2

theorem root_unique {p : ℕ → ℕ} {i r1 r2 : ℕ} (h1 : Root p i r1)
    (h2 : Root p i r2) : r1 = r2 := by
  obtain ⟨hc1, hr1⟩ := h1
  obtain ⟨hc2, hr2⟩ := h2
  induction hc1 using Relation.ReflTransGen.head_induction_on with
  | refl => exact chain_from_root hr1 hc2
  | head hstep hrest ih =>
    rename_i a m
    rcases Relation.ReflTransGen.cases_head hc2 with hh | ⟨m2, hstep2, hrest2⟩
    · exact absurd (hh ▸ hr2) hstep.2
    · have hm : m2 = m := by rw [← hstep2.1, hstep.1]
      exact ih (hm ▸ hrest2)

theorem rkMeasure_lt {p rk : ℕ → ℕ} {n i : ℕ} (hinv : UFinv p rk n)
    (hi : i < n) (hne : p i ≠ i) : rkMeasure rk n (p i) < rkMeasure rk n i := by
  obtain ⟨hpn, hrk⟩ := hinv i hi
  have hlt := hrk hne
  apply Finset.card_lt_card
  rw [Finset.ssubset_iff_of_subset]
  · exact ⟨p i, Finset.mem_filter.mpr ⟨Finset.mem_range.mpr hpn, hlt⟩,
      fun hc => absurd (Finset.mem_filter.mp hc).2 (lt_irrefl _)⟩
  · intro j hj
    obtain ⟨hjr, hjlt⟩ := Finset.mem_filter.mp hj
    exact Finset.mem_filter.mpr ⟨hjr, lt_trans hlt hjlt⟩

theorem rkMeasure_lt_n {rk : ℕ → ℕ} {n i : ℕ} (hi : i < n) :
    rkMeasure rk n i < n := by
  have hsub : ((Finset.range n).filter fun j => rk i < rk j) ⊆
      (Finset.range n).erase i := by
    intro j hj
    obtain ⟨hjr, hjlt⟩ := Finset.mem_filter.mp hj
    apply Finset.mem_erase.mpr
    exact ⟨fun hc => absurd (hc ▸ hjlt) (lt_irrefl _), hjr⟩
  calc rkMeasure rk n i ≤ ((Finset.range n).erase i).card := Finset.card_le_card hsub
    _ < n := by
        rw [Finset.card_erase_of_mem (Finset.mem_range.mpr hi), Finset.card_range]
        omega

theorem root_exists {p rk : ℕ → ℕ} {n : ℕ} (hinv : UFinv p rk n) :
    ∀ i, i < n → ∃ r, Root p i r ∧ r < n := by
  have key : ∀ m i, i < n → rkMeasure rk n i = m → ∃ r, Root p i r ∧ r < n := by
    intro m
    induction m using Nat.strong_induction_on with
    | _ m ih =>
      intro i hi hm
      by_cases hroot : p i = i
      · exact ⟨i, root_of_isRoot hroot, hi⟩
      · have hlt := rkMeasure_lt hinv hi hroot
        obtain ⟨r, hr, hrn⟩ := ih (rkMeasure rk n (p i)) (by omega)
          (p i) (hinv i hi).1 rfl
        exact ⟨r, ⟨Relation.ReflTransGen.head ⟨rfl, hroot⟩ hr.1, hr.2⟩, hrn⟩
  intro i hi
  exact key (rkMeasure rk n i) i hi rfl

theorem sameRoot_symm {p : ℕ → ℕ} {i j : ℕ} (h : SameRoot p i j) :
    SameRoot p j i := by
  obtain ⟨r, h1, h2⟩ := h
  exact ⟨r, h2, h1⟩

theorem sameRoot_trans {p : ℕ → ℕ} {i j k : ℕ} (h1 : SameRoot p i j)
    (h2 : SameRoot p j k) : SameRoot p i k := by
  obtain ⟨r, ha, hb⟩ := h1
  obtain ⟨r2, hc, hd⟩ := h2
  rw [root_unique hb hc] at ha
  exact ⟨r2, ha, hd⟩

/-! ## Union-find: path halving -/

theorem halve_ne {p rk : ℕ → ℕ} {n i : ℕ} (hinv : UFinv p rk n)
    (hi : i < n) (hne : p i ≠ i) : p (p i) ≠ i := by
  intro hc
  by_cases hroot : p (p i) = p i
  · rw [hc] at hroot
    exact hne hroot.symm
  · have h1 : rk i < rk (p i) := (hinv i hi).2 hne
    have h2 : rk (p i) < rk (p (p i)) := (hinv (p i) (hinv i hi).1).2 hroot
    rw [hc] at h2
    omega

theorem halve_inv {p rk : ℕ → ℕ} {n i : ℕ} (hinv : UFinv p rk n)
    (hi : i < n) (hne : p i ≠ i) :
    UFinv (Function.update p i (p (p i))) rk n := by
  intro k hk
  by_cases hki : k = i
  · subst hki
    rw [Function.update_same]
    refine ⟨(hinv (p k) (hinv k hk).1).1, fun _ => ?_⟩
    by_cases hroot : p (p k) = p k
    · rw [hroot]
      exact (hinv k hk).2 hne
    · exact lt_trans ((hinv k hk).2 hne) ((hinv (p k) (hinv k hk).1).2 hroot)
  · rw [Function.update_noteq hki]
    exact hinv k hk

theorem halve_root_mpr {p rk : ℕ → ℕ} {n i : ℕ} (hinv : UFinv p rk n)
    (hi : i < n) (hne : p i ≠ i) {j x : ℕ} (hr : Root p j x) :
    Root (Function.update p i (p (p i))) j x := by
  set p1 := Function.update p i (p (p i)) with hp1
  have hp1i : p1 i = p (p i) := Function.update_same _ _ _
  have hp1ne : ∀ k, k ≠ i → p1 k = p k := fun k hk => Function.update_noteq hk _ _
  have hppne : p (p i) ≠ i := halve_ne hinv hi hne
  have hxi : x ≠ i := fun hc => hne (hc ▸ hr.2)
  have hxroot : isRoot p1 x := by
    show p1 x = x
    rw [hp1ne x hxi]
    exact hr.2
  obtain ⟨hc, hroot⟩ := hr
  refine ⟨?_, hxroot⟩
  induction hc using Relation.ReflTransGen.head_induction_on with
  | refl => exact Relation.ReflTransGen.refl
  | head hstep hrest ih =>
    rename_i a m
    by_cases hai : a = i
    · subst hai
      have hm : m = p a := hstep.1.symm
      subst hm
      by_cases hq : p (p a) = p a
      · have hr1 : isRoot p1 (p a) := by
          show p1 (p a) = p a
          rw [hp1ne (p a) hstep.2]
          exact hq
        have hax : p a = x := chain_from_root hr1 ih
        apply Relation.ReflTransGen.single
        refine ⟨?_, ?_⟩
        · rw [hp1i, hq, hax]
        · rw [hp1i]
          exact hppne
      · rcases Relation.ReflTransGen.cases_head ih with hh | ⟨m2, hstep2, hrest2⟩
        · exfalso
          have hpp : p1 (p a) = p (p a) := hp1ne (p a) hstep.2
          rw [← hh] at hxroot
          exact hq (by rw [← hpp]; exact hxroot)
        · have hm2 : m2 = p (p a) := by
            rw [← hstep2.1, hp1ne (p a) hstep.2]
          subst hm2
          exact Relation.ReflTransGen.head ⟨hp1i, by rw [hp1i]; exact hppne⟩ hrest2
    · exact Relation.ReflTransGen.head
        ⟨by rw [hp1ne a hai]; exact hstep.1, by rw [hp1ne a hai]; exact hstep.2⟩ ih

theorem halve_root_mp {p rk : ℕ → ℕ} {n i : ℕ} (hinv : UFinv p rk n)
    (hi : i < n) (hne : p i ≠ i) {j x : ℕ}
    (hr : Root (Function.update p i (p (p i))) j x) : Root p j x := by
  set p1 := Function.update p i (p (p i)) with hp1
  have hp1i : p1 i = p (p i) := Function.update_same _ _ _
  have hp1ne : ∀ k, k ≠ i → p1 k = p k := fun k hk => Function.update_noteq hk _ _
  have hppne : p (p i) ≠ i := halve_ne hinv hi hne
  have hxroot : isRoot p x := by
    have hxi : x ≠ i := by
      intro hc
      subst hc
      exact hppne (by rw [← hp1i]; exact hr.2)
    show p x = x
    rw [← hp1ne x hxi]
    exact hr.2
  obtain ⟨hc, hroot⟩ := hr
  refine ⟨?_, hxroot⟩
  induction hc using Relation.ReflTransGen.head_induction_on with
  | refl => exact Relation.ReflTransGen.refl
  | head hstep hrest ih =>
    rename_i a m
    by_cases hai : a = i
    · subst hai
      have hm : m = p (p a) := by
        rw [← hp1i]
        exact hstep.1.symm
      subst hm
      by_cases hq : p (p a) = p a
      · apply Relation.ReflTransGen.head (b := p a) ⟨rfl, hne⟩
        rw [← hq]
        exact ih
      · apply Relation.ReflTransGen.head (b := p a) ⟨rfl, hne⟩
        exact Relation.ReflTransGen.head (b := p (p a)) ⟨rfl, hq⟩ ih
    · apply Relation.ReflTransGen.head (b := m)
      · exact ⟨by rw [← hp1ne a hai]; exact hstep.1,
          by rw [← hp1ne a hai]; exact hstep.2⟩
      · exact ih

/-- `find` with fuel `n`: returns the root, preserves the invariant,
the rank table, and the whole root relation. -/
theorem find_spec {rk : ℕ → ℕ} {n : ℕ} :
    ∀ (fuel : ℕ) (p : ℕ → ℕ) (i : ℕ), UFinv p rk n → i < n →
      rkMeasure rk n i < fuel →
      UFinv (ufFind fuel p i).1 rk n ∧
        (∀ j x, Root (ufFind fuel p i).1 j x ↔ Root p j x) ∧
        Root p i (ufFind fuel p i).2 ∧ (ufFind fuel p i).2 < n := by
  intro fuel
  induction fuel with
  | zero =>
    intro p i _ _ hm
    omega
  | succ f ih =>
    intro p i hinv hi hm
    rw [ufFind]
    by_cases hroot : p i = i
    · rw [if_pos hroot]
      exact ⟨hinv, fun j x => Iff.rfl, root_of_isRoot hroot, hi⟩
    · rw [if_neg hroot]
      have hinv1 := halve_inv hinv hi hroot
      have hppn : p (p i) < n := (hinv (p i) (hinv i hi).1).1
      have hm1 : rkMeasure rk n (p (p i)) < f := by
        have h1 : rkMeasure rk n (p i) < rkMeasure rk n i := rkMeasure_lt hinv hi hroot
        by_cases hroot2 : p (p i) = p i
        · rw [hroot2]
          omega
        · have h2 : rkMeasure rk n (p (p i)) < rkMeasure rk n (p i) :=
            rkMeasure_lt hinv (hinv i hi).1 hroot2
          omega
      obtain ⟨ha, hb, hcr, hd⟩ := ih (Function.update p i (p (p i))) (p (p i)) hinv1 hppn hm1
      set R := ufFind f (Function.update p i (p (p i))) (p (p i)) with hR
      refine ⟨ha, ?_, ?_, hd⟩
      · intro j x
        rw [hb j x]
        exact ⟨fun hr => halve_root_mp hinv hi hroot hr,
          fun hr => halve_root_mpr hinv hi hroot hr⟩
      · have hr2 := halve_root_mp hinv hi hroot hcr
        refine ⟨?_, hr2.2⟩
        by_cases hroot2 : p (p i) = p i
        · apply Relation.ReflTransGen.head (b := p i) ⟨rfl, hroot⟩
          rw [← hroot2]
          exact hr2.1
        · apply Relation.ReflTransGen.head (b := p i) ⟨rfl, hroot⟩
          apply Relation.ReflTransGen.head (b := p (p i)) ⟨rfl, hroot2⟩
          exact hr2.1

/-! ## Union-find: linking two roots -/

theorem isRoot_iff_root_self {p : ℕ → ℕ} {k : ℕ} : isRoot p k ↔ Root p k k :=
  ⟨root_of_isRoot, fun h => h.2⟩

theorem update_root_mpr1 {p : ℕ → ℕ} {x y : ℕ} (hx : isRoot p x) (hxy : x ≠ y)
    {j r : ℕ} (hr : Root p j r) (hrx : r ≠ x) :
    Root (Function.update p x y) j r := by
  have hne : ∀ a, p a ≠ a → a ≠ x := by
    intro a hpa hc
    exact hpa (hc ▸ hx)
  obtain ⟨hc, hroot⟩ := hr
  refine ⟨?_, ?_⟩
  · clear hroot
    induction hc using Relation.ReflTransGen.head_induction_on with
    | refl => exact Relation.ReflTransGen.refl
    | head hstep hrest ih =>
      rename_i a m
      have hax : a ≠ x := hne a hstep.2
      exact Relation.ReflTransGen.head
        ⟨by rw [Function.update_noteq hax]; exact hstep.1,
         by rw [Function.update_noteq hax]; exact hstep.2⟩ ih
  · show Function.update p x y r = r
    rw [Function.update_noteq hrx]
    exact hroot

theorem update_root_mpr2 {p : ℕ → ℕ} {x y : ℕ} (hx : isRoot p x)
    (hy : isRoot p y) (hxy : x ≠ y) {j : ℕ} (hr : Root p j x) :
    Root (Function.update p x y) j y := by
  have hne : ∀ a, p a ≠ a → a ≠ x := by
    intro a hpa hc
    exact hpa (hc ▸ hx)
  have hyx : y ≠ x := fun hc => hxy hc.symm
  have hyroot : isRoot (Function.update p x y) y := by
    show Function.update p x y y = y
    rw [Function.update_noteq hyx]
    exact hy
  have hstepxy : PStep (Function.update p x y) x y :=
    ⟨Function.update_same _ _ _, by rw [Function.update_same]; exact hyx⟩
  obtain ⟨hc, _⟩ := hr
  refine ⟨?_, hyroot⟩
  induction hc using Relation.ReflTransGen.head_induction_on with
  | refl => exact Relation.ReflTransGen.single hstepxy
  | head hstep hrest ih =>
    rename_i a m
    have hax : a ≠ x := hne a hstep.2
    exact Relation.ReflTransGen.head
      ⟨by rw [Function.update_noteq hax]; exact hstep.1,
       by rw [Function.update_noteq hax]; exact hstep.2⟩ ih

theorem update_root_mp {p : ℕ → ℕ} {x y : ℕ} (hx : isRoot p x)
    (hy : isRoot p y) (hxy : x ≠ y) {j r : ℕ}
    (hr : Root (Function.update p x y) j r) :
    (Root p j r ∧ r ≠ x) ∨ (Root p j x ∧ r = y) := by
  have hyx : y ≠ x := fun hc => hxy hc.symm
  have hrx : r ≠ x := by
    intro hc
    subst hc
    have h2 := hr.2
    rw [isRoot, Function.update_same] at h2
    exact hyx h2
  have hroot2 : isRoot p r := by
    have h2 := hr.2
    rw [isRoot, Function.update_noteq hrx] at h2
    exact h2
  obtain ⟨hc, _⟩ := hr
  induction hc using Relation.ReflTransGen.head_induction_on with
  | refl => exact Or.inl ⟨root_of_isRoot hroot2, hrx⟩
  | @head a m hstep hrest ih =>
    by_cases hax : a = x
    · subst hax
      have hm : m = y := by
        rw [← hstep.1, Function.update_same]
      subst hm
      have hyr : m = r := by
        apply chain_from_root _ hrest
        show Function.update p a m m = m
        rw [Function.update_noteq hyx]
        exact hy
      exact Or.inr ⟨root_of_isRoot hx, hyr.symm⟩
    · have hs1 : p a = m := by
        rw [← Function.update_noteq hax y p]
        exact hstep.1
      have hs2 : p a ≠ a := by
        rw [← Function.update_noteq hax y p]
        exact hstep.2
      rcases ih with ⟨h1, h2⟩ | ⟨h1, h2⟩
      · exact Or.inl ⟨⟨Relation.ReflTransGen.head ⟨hs1, hs2⟩ h1.1, h1.2⟩, h2⟩
      · exact Or.inr ⟨⟨Relation.ReflTransGen.head ⟨hs1, hs2⟩ h1.1, h1.2⟩, h2⟩

theorem sameRoot_iff_rootTo {p : ℕ → ℕ} {r0 : ℕ} (hr0 : isRoot p r0) (i : ℕ) :
    SameRoot p i r0 ↔ Root p i r0 := by
  constructor
  · rintro ⟨r, h1, h2⟩
    rwa [root_unique h2 (root_of_isRoot hr0)] at h1
  · intro h
    exact ⟨r0, h, root_of_isRoot hr0⟩

theorem link_sameRoot_iff {p : ℕ → ℕ} {x y : ℕ} (hx : isRoot p x)
    (hy : isRoot p y) (hxy : x ≠ y) (i j : ℕ) :
    SameRoot (Function.update p x y) i j ↔
      SameRoot p i j ∨ (SameRoot p i x ∧ SameRoot p j y) ∨
        (SameRoot p i y ∧ SameRoot p j x) := by
  constructor
  · rintro ⟨r, h1, h2⟩
    rcases update_root_mp hx hy hxy h1 with ⟨ha1, ha2⟩ | ⟨ha1, ha2⟩ <;>
      rcases update_root_mp hx hy hxy h2 with ⟨hb1, hb2⟩ | ⟨hb1, hb2⟩
    · exact Or.inl ⟨r, ha1, hb1⟩
    · refine Or.inr (Or.inr ⟨⟨y, ?_, root_of_isRoot hy⟩,
        ⟨x, hb1, root_of_isRoot hx⟩⟩)
      rw [← hb2]
      exact ha1
    · refine Or.inr (Or.inl ⟨⟨x, ha1, root_of_isRoot hx⟩,
        ⟨y, ?_, root_of_isRoot hy⟩⟩)
      rw [← ha2]
      exact hb1
    · exact Or.inl ⟨x, ha1, hb1⟩
  · rintro (⟨r, h1, h2⟩ | ⟨h1, h2⟩ | ⟨h1, h2⟩)
    · by_cases hrx : r = x
      · subst hrx
        exact ⟨y, update_root_mpr2 hx hy hxy h1, update_root_mpr2 hx hy hxy h2⟩
      · exact ⟨r, update_root_mpr1 hx hxy h1 hrx,
          update_root_mpr1 hx hxy h2 hrx⟩
    · have h1r := (sameRoot_iff_rootTo hx i).mp h1
      have h2r := (sameRoot_iff_rootTo hy j).mp h2
      exact ⟨y, update_root_mpr2 hx hy hxy h1r,
        update_root_mpr1 hx hxy h2r (fun hc => hxy hc.symm)⟩
    · have h1r := (sameRoot_iff_rootTo hy i).mp h1
      have h2r := (sameRoot_iff_rootTo hx j).mp h2
      exact ⟨y, update_root_mpr1 hx hxy h1r (fun hc => hxy hc.symm),
        update_root_mpr2 hx hy hxy h2r⟩

theorem link_inv {p rk2 : ℕ → ℕ} {n x y : ℕ} (hinv : UFinv p rk2 n)
    (hx : isRoot p x) (hyn : y < n) (hxy : x ≠ y) (hrk : rk2 x < rk2 y) :
    UFinv (Function.update p x y) rk2 n := by
  intro k hk
  by_cases hkx : k = x
  · subst hkx
    rw [Function.update_same]
    exact ⟨hyn, fun _ => hrk⟩
  · rw [Function.update_noteq hkx]
    exact hinv k hk

theorem bump_inv {p rk : ℕ → ℕ} {n r : ℕ} (hinv : UFinv p rk n)
    (hr : isRoot p r) :
    UFinv p (Function.update rk r (rk r + 1)) n := by
  intro k hk
  refine ⟨(hinv k hk).1, fun hne => ?_⟩
  have hkr : k ≠ r := by
    intro hc
    subst hc
    exact hne hr
  rw [Function.update_noteq hkr]
  by_cases hpk : p k = r
  · rw [hpk, Function.update_same]
    have := (hinv k hk).2 hne
    rw [hpk] at this
    omega
  · rw [Function.update_noteq hpk]
    exact (hinv k hk).2 hne

theorem numRoots_congr {p q : ℕ → ℕ} {n : ℕ}
    (hiff : ∀ k, isRoot p k ↔ isRoot q k) : numRoots p n = numRoots q n := by
  unfold numRoots
  congr 1
  apply Finset.filter_congr
  intro k _
  exact ⟨fun hc => (hiff k).mp hc, fun hc => (hiff k).mpr hc⟩

theorem numRoots_update {p : ℕ → ℕ} {n x y : ℕ} (hx : isRoot p x)
    (hxn : x < n) (hxy : x ≠ y) :
    numRoots (Function.update p x y) n + 1 = numRoots p n := by
  unfold numRoots
  have heq : ((Finset.range n).filter fun i => Function.update p x y i = i) =
      ((Finset.range n).filter fun i => p i = i).erase x := by
    ext k
    simp only [Finset.mem_filter, Finset.mem_erase, Finset.mem_range]
    constructor
    · rintro ⟨hkn, hkr⟩
      by_cases hkx : k = x
      · subst hkx
        rw [Function.update_same] at hkr
        exact absurd hkr.symm hxy
      · rw [Function.update_noteq hkx] at hkr
        exact ⟨hkx, hkn, hkr⟩
    · rintro ⟨hkx, hkn, hkr⟩
      rw [Function.update_noteq hkx]
      exact ⟨hkn, hkr⟩
  rw [heq, Finset.card_erase_of_mem]
  · have hmem : x ∈ (Finset.range n).filter fun i => p i = i :=
      Finset.mem_filter.mpr ⟨Finset.mem_range.mpr hxn, hx⟩
    have : 1 ≤ ((Finset.range n).filter fun i => p i = i).card :=
      Finset.card_pos.mpr ⟨x, hmem⟩
    omega
  · exact Finset.mem_filter.mpr ⟨Finset.mem_range.mpr hxn, hx⟩

theorem sameRoot_iff_root_target {p : ℕ → ℕ} {a ra : ℕ} (hRa : Root p a ra)
    (i : ℕ) : SameRoot p i a ↔ Root p i ra := by
  constructor
  · rintro ⟨r, h1, h2⟩
    rwa [root_unique h2 hRa] at h1
  · intro h
    exact ⟨ra, h, hRa⟩

theorem link_sameRoot_ab {p p2 : ℕ → ℕ} {a b ra rb : ℕ}
    (hRiff : ∀ j x, Root p2 j x ↔ Root p j x)
    (hRa : Root p a ra) (hRb : Root p b rb) (hrr : ra ≠ rb)
    {x y : ℕ} (hxy : (x = ra ∧ y = rb) ∨ (x = rb ∧ y = ra)) :
    ∀ i j, SameRoot (Function.update p2 x y) i j ↔
      (SameRoot p i j ∨ (SameRoot p i a ∧ SameRoot p j b) ∨
        (SameRoot p i b ∧ SameRoot p j a)) := by
  have hisRa2 : isRoot p2 ra := ((hRiff ra ra).mpr (root_of_isRoot hRa.2)).2
  have hisRb2 : isRoot p2 rb := ((hRiff rb rb).mpr (root_of_isRoot hRb.2)).2
  have hSRiff : ∀ i j, SameRoot p2 i j ↔ SameRoot p i j := by
    intro i j
    constructor
    · rintro ⟨r, h1, h2⟩
      exact ⟨r, (hRiff i r).mp h1, (hRiff j r).mp h2⟩
    · rintro ⟨r, h1, h2⟩
      exact ⟨r, (hRiff i r).mpr h1, (hRiff j r).mpr h2⟩
  have hcra : ∀ i, SameRoot p2 i ra ↔ SameRoot p i a := by
    intro i
    rw [sameRoot_iff_rootTo hisRa2 i, hRiff i ra, ← sameRoot_iff_root_target hRa i]
  have hcrb : ∀ i, SameRoot p2 i rb ↔ SameRoot p i b := by
    intro i
    rw [sameRoot_iff_rootTo hisRb2 i, hRiff i rb, ← sameRoot_iff_root_target hRb i]
  intro i j
  rcases hxy with ⟨hx, hy⟩ | ⟨hx, hy⟩
  · subst hx; subst hy
    rw [link_sameRoot_iff hisRa2 hisRb2 hrr i j, hSRiff i j, hcra i, hcrb j,
      hcrb i, hcra j]
  · subst hx; subst hy
    rw [link_sameRoot_iff hisRb2 hisRa2 (fun hc => hrr hc.symm) i j, hSRiff i j,
      hcrb i, hcra j, hcra i, hcrb j]
    tauto

/-- `union(a, b)`: the complete specification used by the Kruskal
loop. -/
theorem union_spec {p rk : ℕ → ℕ} {n a b : ℕ} (hinv : UFinv p rk n)
    (ha : a < n) (hb : b < n) :
    UFinv (ufUnion n p rk a b).1 (ufUnion n p rk a b).2.1 n ∧
    ((ufUnion n p rk a b).2.2 = false →
      SameRoot p a b ∧ (∀ j x, Root (ufUnion n p rk a b).1 j x ↔ Root p j x) ∧
        numRoots (ufUnion n p rk a b).1 n = numRoots p n) ∧
    ((ufUnion n p rk a b).2.2 = true →
      (¬ SameRoot p a b) ∧ numRoots (ufUnion n p rk a b).1 n + 1 = numRoots p n ∧
      (∀ i j, SameRoot (ufUnion n p rk a b).1 i j ↔
        (SameRoot p i j ∨ (SameRoot p i a ∧ SameRoot p j b) ∨
          (SameRoot p i b ∧ SameRoot p j a)))) := by
  obtain ⟨hinv1, hiff1, hroot1, hran⟩ := find_spec n p a hinv ha (rkMeasure_lt_n ha)
  obtain ⟨hinv2, hiff2, hroot2, hrbn⟩ :=
    find_spec n (ufFind n p a).1 b hinv1 hb (rkMeasure_lt_n hb)
  set p1 := (ufFind n p a).1 with hp1
  set ra := (ufFind n p a).2 with hra
  set p2 := (ufFind n p1 b).1 with hp2
  set rb := (ufFind n p1 b).2 with hrb
  have hRa : Root p a ra := hroot1
  have hRb : Root p b rb := (hiff1 b rb).mp hroot2
  have hRiff : ∀ j x, Root p2 j x ↔ Root p j x :=
    fun j x => (hiff2 j x).trans (hiff1 j x)
  have hisRa2 : isRoot p2 ra := ((hRiff ra ra).mpr (root_of_isRoot hRa.2)).2
  have hisRb2 : isRoot p2 rb := ((hRiff rb rb).mpr (root_of_isRoot hRb.2)).2
  have hnum2 : numRoots p2 n = numRoots p n :=
    numRoots_congr fun k =>
      isRoot_iff_root_self.trans ((hRiff k k).trans isRoot_iff_root_self.symm)
  have hun : ufUnion n p rk a b =
      (if ra = rb then (p2, rk, false)
       else if rk ra < rk rb then (Function.update p2 ra rb, rk, true)
       else if rk rb < rk ra then (Function.update p2 rb ra, rk, true)
       else (Function.update p2 rb ra, Function.update rk ra (rk ra + 1), true)) := rfl
  have hnosr : ra ≠ rb → ¬ SameRoot p a b := by
    intro hrr ⟨r, h1, h2⟩
    exact hrr ((root_unique h1 hRa).symm.trans (root_unique h2 hRb))
  by_cases hrr : ra = rb
  · rw [hun, if_pos hrr]
    refine ⟨hinv2, ?_, ?_⟩
    · intro _
      refine ⟨⟨ra, hRa, by rw [hrr]; exact hRb⟩, hRiff, hnum2⟩
    · intro hc
      exact absurd hc (by simp)
  · rw [hun, if_neg hrr]
    by_cases hc1 : rk ra < rk rb
    · rw [if_pos hc1]
      refine ⟨?_, fun hc => absurd hc (by simp), fun _ => ⟨hnosr hrr, ?_, ?_⟩⟩
      · exact link_inv hinv2 hisRa2 hrbn hrr hc1
      · rw [numRoots_update hisRa2 hran hrr, hnum2]
      · exact link_sameRoot_ab hRiff hRa hRb hrr (Or.inl ⟨rfl, rfl⟩)
    · rw [if_neg hc1]
      have hrrb : rb ≠ ra := fun hc => hrr hc.symm
      by_cases hc2 : rk rb < rk ra
      · rw [if_pos hc2]
        refine ⟨?_, fun hc => absurd hc (by simp), fun _ => ⟨hnosr hrr, ?_, ?_⟩⟩
        · exact link_inv hinv2 hisRb2 hran hrrb hc2
        · rw [numRoots_update hisRb2 hrbn hrrb, hnum2]
        · exact link_sameRoot_ab hRiff hRa hRb hrr (Or.inr ⟨rfl, rfl⟩)
      · rw [if_neg hc2]
        refine ⟨?_, fun hc => absurd hc (by simp), fun _ => ⟨hnosr hrr, ?_, ?_⟩⟩
        · apply link_inv (bump_inv hinv2 hisRa2) hisRb2 hran hrrb
          rw [Function.update_noteq hrrb, Function.update_same]
          omega
        · rw [numRoots_update hisRb2 hrbn hrrb, hnum2]
        · exact link_sameRoot_ab hRiff hRa hRb hrr (Or.inr ⟨rfl, rfl⟩)

/-! ## Kruskal: index arithmetic, shuffle, and the edge list -/

theorem cellOf_inB {w h i : ℕ} (hw : 1 ≤ w) (hi : i < w * h) :
    inB w h (cellOf w i) := by
  have hmod : i % w < w := Nat.mod_lt _ (by omega)
  have hdiv : i / w < h := Nat.div_lt_of_lt_mul (by omega)
  exact ⟨Int.natCast_nonneg _, Int.ofNat_lt.mpr hmod, Int.natCast_nonneg _,
    Int.ofNat_lt.mpr hdiv⟩

theorem cellOf_zero (w : ℕ) : cellOf w 0 = ((0 : ℤ), (0 : ℤ)) := by
  simp [cellOf]

theorem toNat_lt_of_inB {w h : ℕ} {p : ℤ × ℤ} (hp : inB w h p) :
    p.1.toNat < w ∧ p.2.toNat < h := by
  obtain ⟨h1, h2, h3, h4⟩ := hp
  omega

theorem idxOf_lt {w h : ℕ} {p : ℤ × ℤ} (hp : inB w h p) : idxOf w p < w * h := by
  obtain ⟨hx, hy⟩ := toNat_lt_of_inB hp
  unfold idxOf
  calc p.2.toNat * w + p.1.toNat < (p.2.toNat + 1) * w := by
        rw [add_mul, one_mul]
        omega
    _ ≤ h * w := Nat.mul_le_mul_right w (by omega)
    _ = w * h := Nat.mul_comm h w

theorem cellOf_idxOf {w h : ℕ} {p : ℤ × ℤ} (hp : inB w h p) :
    cellOf w (idxOf w p) = p := by
  obtain ⟨hx, hy⟩ := toNat_lt_of_inB hp
  obtain ⟨h1, _, h3, _⟩ := hp
  have hmod : (p.2.toNat * w + p.1.toNat) % w = p.1.toNat := by
    rw [Nat.add_comm, Nat.add_mul_mod_self_right, Nat.mod_eq_of_lt hx]
  have hdiv : (p.2.toNat * w + p.1.toNat) / w = p.2.toNat := by
    rw [Nat.add_comm, Nat.add_mul_div_right _ _ (by omega : 0 < w),
      Nat.div_eq_of_lt hx]
    omega
  unfold cellOf idxOf
  rw [hmod, hdiv]
  have e1 : (p.1.toNat : ℤ) = p.1 := Int.toNat_of_nonneg h1
  have e2 : (p.2.toNat : ℤ) = p.2 := Int.toNat_of_nonneg h3
  rw [Prod.ext_iff]
  exact ⟨e1, e2⟩

theorem idxOf_cellOf {w h i : ℕ} (hw : 1 ≤ w) (hi : i < w * h) :
    idxOf w (cellOf w i) = i := by
  unfold idxOf cellOf
  simp only [Int.toNat_natCast]
  rw [Nat.add_comm]
  exact Nat.mod_add_div' i w

theorem cellOf_inj {w h i j : ℕ} (hw : 1 ≤ w) (hi : i < w * h) (hj : j < w * h)
    (heq : cellOf w i = cellOf w j) : i = j := by
  have := congrArg (idxOf w) heq
  rwa [idxOf_cellOf hw hi, idxOf_cellOf hw hj] at this

theorem getD_cons_eraseIdx_perm {α : Type} :
    ∀ (l : List α) (i : ℕ) (d : α), i < l.length →
      List.Perm (l.getD i d :: l.eraseIdx i) l
  | [], i, d, hi => by simp at hi
  | a :: t, 0, d, hi => by
    simp only [List.getD_cons_zero, List.eraseIdx_cons_zero]
    exact List.Perm.refl _
  | a :: t, i + 1, d, hi => by
    simp only [List.getD_cons_succ, List.eraseIdx_cons_succ]
    exact List.Perm.trans (List.Perm.swap _ _ _)
      (List.Perm.cons a (getD_cons_eraseIdx_perm t i d (by simpa using hi)))

theorem permuteList_perm {α : Type} (rs : ℕ → ℕ) (l : List α) :
    List.Perm (permuteList rs l) l := by
  have key : ∀ (n : ℕ) (l2 : List α), l2.length = n →
      List.Perm (permuteList rs l2) l2 := by
    intro n
    induction n using Nat.strong_induction_on with
    | _ n ih =>
      intro l2 hn
      match l2 with
      | [] => rw [permuteList]
      | a :: t =>
        rw [permuteList]
        have hlt : rs (a :: t).length % (a :: t).length < (a :: t).length :=
          Nat.mod_lt _ (by simp)
        have hlen : ((a :: t).eraseIdx
            (rs (a :: t).length % (a :: t).length)).length <
            (a :: t).length := by
          rw [List.length_eraseIdx_of_lt hlt]
          simp
        refine List.Perm.trans (List.Perm.cons _ (ih _ ?_ _ rfl))
          (getD_cons_eraseIdx_perm _ _ _ hlt)
        omega

  exact key l.length l rfl

theorem kruskalEdges_ok {w h : ℕ} {e : ℕ × ℕ × Dir}
    (he : e ∈ kruskalEdges w h) : EdgeOk w h e := by
  simp only [kruskalEdges, List.mem_flatMap, List.mem_filterMap,
    List.mem_range] at he
  obtain ⟨y, hy, x, hx, d, hd, hsome⟩ := he
  have hw : 1 ≤ w := by omega
  split_ifs at hsome with hc
  · simp only [Option.some.injEq] at hsome
    subst hsome
    have hpin : inB w h ((x : ℤ), (y : ℤ)) :=
      ⟨Int.natCast_nonneg _, Int.ofNat_lt.mpr hx, Int.natCast_nonneg _,
        Int.ofNat_lt.mpr hy⟩
    have hidx1 : y * w + x = idxOf w ((x : ℤ), (y : ℤ)) := by
      unfold idxOf
      simp [Int.toNat_natCast]
    have hidx2 : (padd ((x : ℤ), (y : ℤ)) d).2.toNat * w +
        (padd ((x : ℤ), (y : ℤ)) d).1.toNat = idxOf w (padd ((x : ℤ), (y : ℤ)) d) := rfl
    refine ⟨?_, ?_, ?_, ?_, ?_⟩
    · show y * w + x < w * h
      rw [hidx1]
      exact idxOf_lt hpin
    · show (padd ((x : ℤ), (y : ℤ)) d).2.toNat * w +
        (padd ((x : ℤ), (y : ℤ)) d).1.toNat < w * h
      rw [hidx2]
      exact idxOf_lt hc
    · show inB w h (cellOf w (y * w + x))
      rw [hidx1, cellOf_idxOf hpin]
      exact hpin
    · show inB w h (cellOf w _)
      rw [hidx2, cellOf_idxOf hc]
      exact hc
    · show cellOf w _ = padd (cellOf w (y * w + x)) d
      rw [hidx1, hidx2, cellOf_idxOf hc, cellOf_idxOf hpin]

theorem mem_kruskalEdges {w h : ℕ} {p : ℤ × ℤ} {d : Dir}
    (hd : d = Dir.E ∨ d = Dir.S) (hp : inB w h p) (hq : inB w h (padd p d)) :
    (idxOf w p, idxOf w (padd p d), d) ∈ kruskalEdges w h := by
  simp only [kruskalEdges, List.mem_flatMap, List.mem_filterMap, List.mem_range]
  obtain ⟨hx, hy⟩ := toNat_lt_of_inB hp
  refine ⟨p.2.toNat, hy, p.1.toNat, hx, d, ?_, ?_⟩
  · rcases hd with hd | hd <;> (subst hd; simp)
  · have hpp : ((p.1.toNat : ℤ), (p.2.toNat : ℤ)) = p := by
      rw [Prod.ext_iff]
      exact ⟨Int.toNat_of_nonneg hp.1, Int.toNat_of_nonneg hp.2.2.1⟩
    simp only [hpp]
    rw [if_pos hq]
    rfl

theorem kruskalEdges_cover {w h : ℕ} {p : ℤ × ℤ} {d : Dir}
    (hp : inB w h p) (hq : inB w h (padd p d)) :
    (idxOf w p, idxOf w (padd p d), d) ∈ kruskalEdges w h ∨
      (idxOf w (padd p d), idxOf w p, opp d) ∈ kruskalEdges w h := by
  cases d with
  | E => exact Or.inl (mem_kruskalEdges (Or.inl rfl) hp hq)
  | S => exact Or.inl (mem_kruskalEdges (Or.inr rfl) hp hq)
  | N =>
    right
    have := mem_kruskalEdges (w := w) (h := h) (p := padd p .N) (d := .S)
      (Or.inr rfl) hq (by rw [show padd (padd p .N) .S = p from by
        have := padd_padd_opp p Dir.N
        simpa [opp] using this]; exact hp)
    rwa [show padd (padd p .N) .S = p from by
      have := padd_padd_opp p Dir.N
      simpa [opp] using this] at this
  | W =>
    right
    have := mem_kruskalEdges (w := w) (h := h) (p := padd p .W) (d := .E)
      (Or.inl rfl) hq (by rw [show padd (padd p .W) .E = p from by
        have := padd_padd_opp p Dir.W
        simpa [opp] using this]; exact hp)
    rwa [show padd (padd p .W) .E = p from by
      have := padd_padd_opp p Dir.W
      simpa [opp] using this] at this

/-! ## Kruskal: the edge-loop body -/

theorem kruskalStep_parent (w h : ℕ) (s : KState) (e : ℕ × ℕ × Dir) :
    (kruskalStep w h s e).parent = (ufUnion (w * h) s.parent s.rank e.1 e.2.1).1 := by
  simp only [kruskalStep]
  split_ifs <;> rfl

theorem kruskalStep_rank (w h : ℕ) (s : KState) (e : ℕ × ℕ × Dir) :
    (kruskalStep w h s e).rank = (ufUnion (w * h) s.parent s.rank e.1 e.2.1).2.1 := by
  simp only [kruskalStep]
  split_ifs <;> rfl

theorem kruskalStep_grid_false {w h : ℕ} {s : KState} {e : ℕ × ℕ × Dir}
    (hb : (ufUnion (w * h) s.parent s.rank e.1 e.2.1).2.2 = false) :
    (kruskalStep w h s e).grid = s.grid := by
  simp only [kruskalStep]
  rw [hb]
  rfl

theorem kruskalStep_grid_carve {w h : ℕ} {s : KState} {e : ℕ × ℕ × Dir}
    (hok : EdgeOk w h e)
    (hb : (ufUnion (w * h) s.parent s.rank e.1 e.2.1).2.2 = true) :
    (kruskalStep w h s e).grid =
      carve s.grid (cellOf w e.1).1 (cellOf w e.1).2 e.2.2 := by
  have h1 : ((e.2.1 % w : ℕ) : ℤ) = (cellOf w e.1).1 + (delta e.2.2).1 := by
    have := congrArg Prod.fst hok.2.2.2.2
    simpa [cellOf, padd] using this
  have h2 : ((e.2.1 / w : ℕ) : ℤ) = (cellOf w e.1).2 + (delta e.2.2).2 := by
    have := congrArg Prod.snd hok.2.2.2.2
    simpa [cellOf, padd] using this
  simp only [kruskalStep]
  rw [hb]
  show setWall (setWall s.grid ((e.1 % w : ℕ) : ℤ) ((e.1 / w : ℕ) : ℤ) e.2.2 false)
      ((e.2.1 % w : ℕ) : ℤ) ((e.2.1 / w : ℕ) : ℤ) (opp e.2.2) false = _
  rw [h1, h2]
  rfl

theorem kruskalStep_spec {w h : ℕ} {s : KState} {e : ℕ × ℕ × Dir}
    (hok : EdgeOk w h e) (hinv : KInv w h s) :
    KInv w h (kruskalStep w h s e) ∧
      (∀ i j, SameRoot s.parent i j → SameRoot (kruskalStep w h s e).parent i j) ∧
      SameRoot (kruskalStep w h s e).parent e.1 e.2.1 := by
  obtain ⟨hlt1, hlt2, hin1, hin2, hpadd⟩ := hok
  obtain ⟨huf, hsym, hborder, hcount, hpartn⟩ := hinv
  obtain ⟨huinv, hfF, hfT⟩ := union_spec huf hlt1 hlt2
  have hqin : inB w h (padd (cellOf w e.1) e.2.2) := hpadd ▸ hin2
  cases hbb : (ufUnion (w * h) s.parent s.rank e.1 e.2.1).2.2 with
  | false =>
    obtain ⟨hsr, hroot, hnum⟩ := hfF hbb
    have hsiff : ∀ i j, SameRoot (ufUnion (w * h) s.parent s.rank e.1 e.2.1).1 i j ↔
        SameRoot s.parent i j := by
      intro i j
      constructor
      · rintro ⟨r, h1, h2⟩
        exact ⟨r, (hroot i r).mp h1, (hroot j r).mp h2⟩
      · rintro ⟨r, h1, h2⟩
        exact ⟨r, (hroot i r).mpr h1, (hroot j r).mpr h2⟩
    refine ⟨⟨?_, ?_, ?_, ?_, ?_⟩, ?_, ?_⟩
    · rw [kruskalStep_parent, kruskalStep_rank]
      exact huinv
    · rw [kruskalStep_grid_false hbb]
      exact hsym
    · rw [kruskalStep_grid_false hbb]
      exact hborder
    · rw [kruskalStep_grid_false hbb, kruskalStep_parent, hnum]
      exact hcount
    · intro i j hi hj
      rw [kruskalStep_grid_false hbb, kruskalStep_parent, hsiff i j]
      exact hpartn i j hi hj
    · intro i j hsij
      rw [kruskalStep_parent]
      exact (hsiff i j).mpr hsij
    · rw [kruskalStep_parent]
      exact (hsiff e.1 e.2.1).mpr hsr
  | true =>
    obtain ⟨hnsr, hnum, hchar⟩ := hfT hbb
    have hw1 : (s.grid (cellOf w e.1).1 (cellOf w e.1).2).get e.2.2 = true := by
      by_contra hcl
      have hcl2 : (s.grid (cellOf w e.1).1 (cellOf w e.1).2).get e.2.2 = false := by
        simpa using hcl
      have hopen : openAdj s.grid w h (cellOf w e.1) (cellOf w e.2.1) :=
        ⟨hin1, hin2, e.2.2, hpadd, hcl2⟩
      exact hnsr ((hpartn e.1 e.2.1 hlt1 hlt2).mpr
        (Relation.ReflTransGen.single hopen))
    have hw2 : (s.grid (padd (cellOf w e.1) e.2.2).1
        (padd (cellOf w e.1) e.2.2).2).get (opp e.2.2) = true := by
      rw [← hsym (cellOf w e.1) e.2.2 hin1 hqin]
      exact hw1
    have hcarve := kruskalStep_grid_carve ⟨hlt1, hlt2, hin1, hin2, hpadd⟩ hbb
    have hopc : openPairCount (carve s.grid (cellOf w e.1).1 (cellOf w e.1).2 e.2.2)
        w h = openPairCount s.grid w h + 1 :=
      openPairCount_carve s.grid w h (cellOf w e.1).1 (cellOf w e.1).2 e.2.2
        hin1 hqin hw1 hw2
    refine ⟨⟨?_, ?_, ?_, ?_, ?_⟩, ?_, ?_⟩
    · rw [kruskalStep_parent, kruskalStep_rank]
      exact huinv
    · rw [hcarve]
      exact symGrid_carve _ _ _ hsym
    · rw [hcarve]
      exact borderGrid_carve hborder hin1 hqin
    · rw [hcarve, kruskalStep_parent, hopc]
      omega
    · intro i j hi hj
      have hiff : OpenReach (carve s.grid (cellOf w e.1).1 (cellOf w e.1).2 e.2.2)
          w h (cellOf w i) (cellOf w j) ↔
          OpenReach s.grid w h (cellOf w i) (cellOf w j) ∨
          (OpenReach s.grid w h (cellOf w i) (cellOf w e.1) ∧
            OpenReach s.grid w h (padd (cellOf w e.1) e.2.2) (cellOf w j)) ∨
          (OpenReach s.grid w h (cellOf w i) (padd (cellOf w e.1) e.2.2) ∧
            OpenReach s.grid w h (cellOf w e.1) (cellOf w j)) :=
        OpenReach_carve_iff hsym hin1 hqin (cellOf w i) (cellOf w j)
      rw [hcarve, kruskalStep_parent, hchar i j, hiff]
      constructor
      · rintro (h1 | ⟨h1, h2⟩ | ⟨h1, h2⟩)
        · exact Or.inl ((hpartn i j hi hj).mp h1)
        · refine Or.inr (Or.inl ⟨(hpartn i e.1 hi hlt1).mp h1, ?_⟩)
          have h4 : OpenReach s.grid w h (cellOf w e.2.1) (cellOf w j) :=
            OpenReach_symm hsym ((hpartn j e.2.1 hj hlt2).mp h2)
          rw [hpadd] at h4
          exact h4
        · refine Or.inr (Or.inr ⟨?_,
            OpenReach_symm hsym ((hpartn j e.1 hj hlt1).mp h2)⟩)
          have h4 : OpenReach s.grid w h (cellOf w i) (cellOf w e.2.1) :=
            (hpartn i e.2.1 hi hlt2).mp h1
          rw [hpadd] at h4
          exact h4
      · rintro (h1 | ⟨h1, h2⟩ | ⟨h1, h2⟩)
        · exact Or.inl ((hpartn i j hi hj).mpr h1)
        · refine Or.inr (Or.inl ⟨(hpartn i e.1 hi hlt1).mpr h1,
            (hpartn j e.2.1 hj hlt2).mpr ?_⟩)
          have h4 : OpenReach s.grid w h (cellOf w j) (padd (cellOf w e.1) e.2.2) :=
            OpenReach_symm hsym h2
          rw [← hpadd] at h4
          exact h4
        · refine Or.inr (Or.inr ⟨(hpartn i e.2.1 hi hlt2).mpr ?_,
            (hpartn j e.1 hj hlt1).mpr (OpenReach_symm hsym h2)⟩)
          have h4 : OpenReach s.grid w h (cellOf w i) (padd (cellOf w e.1) e.2.2) := h1
          rw [← hpadd] at h4
          exact h4
    · intro i j hsij
      rw [kruskalStep_parent]
      exact (hchar i j).mpr (Or.inl hsij)
    · rw [kruskalStep_parent]
      obtain ⟨r1, hr1, -⟩ := root_exists huf e.1 hlt1
      obtain ⟨r2, hr2, -⟩ := root_exists huf e.2.1 hlt2
      exact (hchar e.1 e.2.1).mpr (Or.inr (Or.inl ⟨⟨r1, hr1, hr1⟩, ⟨r2, hr2, hr2⟩⟩))

/-! ## Kruskal: the edge loop and the generated maze -/

theorem kruskalGo_spec (w h : ℕ) :
    ∀ (es : List (ℕ × ℕ × Dir)) (s : KState),
      (∀ e ∈ es, EdgeOk w h e) → KInv w h s →
      KInv w h (kruskalGo w h es s) ∧
        (∀ i j, SameRoot s.parent i j →
          SameRoot (kruskalGo w h es s).parent i j) ∧
        (∀ e ∈ es, SameRoot (kruskalGo w h es s).parent e.1 e.2.1)
  | [], s, _, hinv =>
    ⟨hinv, fun _ _ hsr => hsr, fun e he => absurd he (List.not_mem_nil e)⟩
  | e :: es, s, hok, hinv => by
    obtain ⟨hinv2, hmono2, hsr2⟩ :=
      kruskalStep_spec (hok e (List.mem_cons_self e es)) hinv
    obtain ⟨hinv3, hmono3, hsr3⟩ := kruskalGo_spec w h es (kruskalStep w h s e)
      (fun e2 he2 => hok e2 (List.mem_cons_of_mem e he2)) hinv2
    refine ⟨hinv3, fun i j hij => hmono3 i j (hmono2 i j hij), ?_⟩
    intro e2 he2
    rcases List.mem_cons.mp he2 with heq | hmem
    · subst heq
      exact hmono3 _ _ hsr2
    · exact hsr3 e2 hmem

theorem root_id {i r : ℕ} (h : Root (fun k => k) i r) : r = i := by
  obtain ⟨hchain, -⟩ := h
  induction hchain with
  | refl => rfl
  | tail _ hstep ih => exact absurd rfl hstep.2

/-- `Maze._generate_kruskal` produces a grid satisfying the generator
contract: symmetric, border-closed, exactly `w*h - 1` carved walls,
and every cell reachable from the origin. -/
theorem generateKruskal_ok (w h : ℕ) (hw : 1 ≤ w) (hh : 1 ≤ h) (rs : ℕ → ℕ) :
    GenOk (generateKruskal w h rs allWalls) w h := by
  have hn0 : 0 < w * h := Nat.mul_pos hw hh
  have h00 : inB w h ((0 : ℤ), (0 : ℤ)) := by
    refine ⟨le_refl 0, ?_, le_refl 0, ?_⟩
    · show (0 : ℤ) < (w : ℤ)
      exact_mod_cast hw
    · show (0 : ℤ) < (h : ℤ)
      exact_mod_cast hh
  have hinv0 : KInv w h ⟨fun i => i, fun _ => 0, allWalls⟩ := by
    refine ⟨?_, ?_, ?_, ?_, ?_⟩
    · intro i hi
      exact ⟨hi, fun hne => absurd rfl hne⟩
    · exact symGrid_allWalls w h
    · exact borderGrid_allWalls w h
    · show openPairCount allWalls w h + numRoots (fun k => k) (w * h) = w * h
      rw [openPairCount_allWalls]
      simp [numRoots]
    · intro i j hi hj
      show SameRoot (fun k => k) i j ↔ _
      constructor
      · rintro ⟨r, h1, h2⟩
        have hij : i = j := root_id h1 ▸ root_id h2
        subst hij
        exact Relation.ReflTransGen.refl
      · intro hr
        have hij : i = j := cellOf_inj hw hi hj (OpenReach_allWalls hr)
        subst hij
        exact ⟨i, root_of_isRoot rfl, root_of_isRoot rfl⟩
  have hedges : ∀ e ∈ permuteList rs (kruskalEdges w h), EdgeOk w h e := by
    intro e he
    exact kruskalEdges_ok
      ((permuteList_perm rs (kruskalEdges w h)).mem_iff.mp he)
  obtain ⟨hinvF, hmono, hall⟩ :=
    kruskalGo_spec w h (permuteList rs (kruskalEdges w h))
      ⟨fun i => i, fun _ => 0, allWalls⟩ hedges hinv0
  set sf := kruskalGo w h (permuteList rs (kruskalEdges w h))
    ⟨fun i => i, fun _ => 0, allWalls⟩ with hsf
  have hgen : generateKruskal w h rs allWalls = sf.grid := rfl
  have hadj : ∀ p d, inB w h p → inB w h (padd p d) →
      SameRoot sf.parent (idxOf w p) (idxOf w (padd p d)) := by
    intro p d hp hq
    rcases kruskalEdges_cover hp hq with hmem | hmem
    · exact hall _ ((permuteList_perm rs (kruskalEdges w h)).mem_iff.mpr hmem)
    · exact sameRoot_symm
        (hall _ ((permuteList_perm rs (kruskalEdges w h)).mem_iff.mpr hmem))
  have hzero : idxOf w ((0 : ℤ), (0 : ℤ)) = 0 := by
    simp [idxOf]
  have hsame0 : ∀ p, inB w h p → SameRoot sf.parent 0 (idxOf w p) := by
    have hP : ∀ q, inB w h q →
        SameRoot sf.parent (idxOf w ((0 : ℤ), (0 : ℤ))) (idxOf w q) := by
      apply closed_all
      · obtain ⟨r0, hr0, -⟩ := root_exists hinvF.uf (idxOf w ((0 : ℤ), (0 : ℤ)))
          (idxOf_lt h00)
        exact ⟨r0, hr0, hr0⟩
      · intro q d hq hqd hPq
        exact sameRoot_trans hPq (hadj q d hq hqd)
    intro p hp
    exact hzero ▸ hP p hp
  refine ⟨?_, ?_, ?_, ?_⟩
  · rw [hgen]
    exact hinvF.sym
  · rw [hgen]
    exact hinvF.border
  · obtain ⟨r0, hr0, hr0n⟩ := root_exists hinvF.uf 0 hn0
    have hset : ((Finset.range (w * h)).filter fun i => sf.parent i = i) = {r0} := by
      ext k
      simp only [Finset.mem_filter, Finset.mem_range, Finset.mem_singleton]
      constructor
      · rintro ⟨hk, hpk⟩
        have hsr := hsame0 (cellOf w k) (cellOf_inB hw hk)
        rw [idxOf_cellOf hw hk] at hsr
        obtain ⟨r, h0r, hkr⟩ := hsr
        have e1 : r = r0 := root_unique h0r hr0
        have e2 : r = k := root_unique hkr (root_of_isRoot hpk)
        omega
      · rintro rfl
        exact ⟨hr0n, hr0.2⟩
    have hone : numRoots sf.parent (w * h) = 1 := by
      unfold numRoots
      rw [hset]
      exact Finset.card_singleton r0
    have hcount := hinvF.count
    rw [hgen]
    omega
  · intro p hp
    have hsr := hsame0 p hp
    have hor := (hinvF.partn 0 (idxOf w p) hn0 (idxOf_lt hp)).mp hsr
    rw [cellOf_zero, cellOf_idxOf hp] at hor
    rw [hgen]
    exact hor

/-! ## The algorithm dispatch and the bias selector -/

theorem generate_ok (alg : String) (w h : ℕ) (hw : 1 ≤ w) (hh : 1 ≤ h) (r : Rand) :
    GenOk (generate alg w h r) w h := by
  unfold generate
  split
  · exact generateDfs_ok w h hw hh r.idx
  · exact generatePrim_ok w h hw hh r.idx
  · exact generateKruskal_ok w h hw hh r.shuf
  · exact generateDfs_ok w h hw hh r.idx

theorem attemptsFor_pos (db : ℚ) : 1 ≤ attemptsFor db := by
  unfold attemptsFor
  split_ifs <;> omega

theorem selectKeep_spec (db : ℚ) (best : Option (Grid × ℚ)) (g : Grid) (q : ℚ)
    (P : Grid × ℚ → Prop) (hbest : ∀ b, best = some b → P b) (hg : P (g, q)) :
    ∃ b, selectKeep db best g q = some b ∧ P b := by
  unfold selectKeep
  split_ifs <;> rcases best with _ | br
  · exact ⟨(g, q), rfl, hg⟩
  · show ∃ b, (if br.2 < q then some (g, q) else some br) = some b ∧ P b
    split_ifs
    · exact ⟨(g, q), rfl, hg⟩
    · exact ⟨br, rfl, hbest br rfl⟩
  · exact ⟨(g, q), rfl, hg⟩
  · show ∃ b, (if q < br.2 then some (g, q) else some br) = some b ∧ P b
    split_ifs
    · exact ⟨(g, q), rfl, hg⟩
    · exact ⟨br, rfl, hbest br rfl⟩
  · exact ⟨(g, q), rfl, hg⟩
  · exact ⟨(g, q), rfl, hg⟩

theorem selectLoop_some (w h : ℕ) (alg : String) (db : ℚ) (rnds : ℕ → Rand) :
    ∀ (k i : ℕ) (best : Option (Grid × ℚ)) (cur : Grid),
      (best = none → 1 ≤ k) →
      (∀ b, best = some b → (∃ j, b.1 = generate alg w h (rnds j)) ∧
        b.2 = deadEndRatio b.1 w h) →
      ∃ b, (selectLoop w h alg db rnds k i best cur).2 = some b ∧
        (∃ j, b.1 = generate alg w h (rnds j)) ∧ b.2 = deadEndRatio b.1 w h
  | 0, i, none, cur, hk, hb => absurd (hk rfl) (by omega)
  | 0, i, some b, cur, hk, hb => ⟨b, rfl, hb b rfl⟩
  | k + 1, i, best, cur, hk, hb => by
    obtain ⟨b2, hb2, hPb2⟩ := selectKeep_spec db best (generate alg w h (rnds i))
      (deadEndRatio (generate alg w h (rnds i)) w h)
      (fun b => (∃ j, b.1 = generate alg w h (rnds j)) ∧
        b.2 = deadEndRatio b.1 w h)
      hb ⟨⟨i, rfl⟩, rfl⟩
    exact selectLoop_some w h alg db rnds k (i + 1)
      (selectKeep db best (generate alg w h (rnds i))
        (deadEndRatio (generate alg w h (rnds i)) w h))
      (generate alg w h (rnds i))
      (fun hnone => by rw [hnone] at hb2; exact absurd hb2 (by simp))
      (fun b hbeq => by
        rw [hb2] at hbeq
        injection hbeq with he
        exact he ▸ hPb2)

theorem selectGrid_spec (w h : ℕ) (alg : String) (db : ℚ) (rnds : ℕ → Rand) :
    (∃ j, (selectGrid w h alg db rnds).1 = generate alg w h (rnds j)) ∧
      (selectGrid w h alg db rnds).2 =
        deadEndRatio (selectGrid w h alg db rnds).1 w h := by
  obtain ⟨b, hb, hj, hr⟩ := selectLoop_some w h alg db rnds (attemptsFor db) 0
    none allWalls (fun _ => attemptsFor_pos db) (fun b hbeq => by simp at hbeq)
  have hsg : selectGrid w h alg db rnds = b := by
    simp only [selectGrid]
    rw [hb]
  rw [hsg]
  exact ⟨hj, hr⟩

theorem clamp01_zero : clamp01 0 = 0 := by norm_num [clamp01]

theorem clampBias_zero : clampBias 0 = 0 := by norm_num [clampBias]

theorem clamp01_one : clamp01 1 = 1 := by norm_num [clamp01]

theorem mkMaze_eq (width height : ℤ) (hw : 2 ≤ width) (hh : 2 ≤ height)
    (alg : String) (bf db : ℚ) (rnds : ℕ → Rand) (rb : Rand) :
    mkMaze width height alg bf db rnds rb = .ok
      ⟨width.toNat, height.toNat, normAlg alg, clamp01 bf, clampBias db,
        (buildMaze width.toNat height.toNat (normAlg alg) (clamp01 bf)
          (clampBias db) rnds rb).1,
        (buildMaze width.toNat height.toNat (normAlg alg) (clamp01 bf)
          (clampBias db) rnds rb).2⟩ := by
  unfold mkMaze
  rw [if_neg (by omega)]

theorem buildMaze_zero_grid (w h : ℕ) (alg : String) (rnds : ℕ → Rand)
    (rb : Rand) :
    (buildMaze w h alg 0 0 rnds rb).1 = generate alg w h (rnds 0) := by
  have h1 : attemptsFor 0 = 1 := by norm_num [attemptsFor]
  unfold buildMaze selectGrid
  rw [if_neg (lt_irrefl (0 : ℚ)), h1]
  have h3 : selectKeep (0 : ℚ) none (generate alg w h (rnds 0))
      (deadEndRatio (generate alg w h (rnds 0)) w h) =
      some (generate alg w h (rnds 0),
        deadEndRatio (generate alg w h (rnds 0)) w h) := by
    unfold selectKeep
    rw [if_neg (lt_irrefl (0 : ℚ)), if_neg (lt_irrefl (0 : ℚ))]
  have h2 : selectLoop w h alg 0 rnds 1 0 none allWalls =
      (generate alg w h (rnds 0),
        some (generate alg w h (rnds 0),
          deadEndRatio (generate alg w h (rnds 0)) w h)) := by
    rw [show selectLoop w h alg 0 rnds 1 0 none allWalls =
      selectLoop w h alg 0 rnds 0 1 (selectKeep 0 none (generate alg w h (rnds 0))
        (deadEndRatio (generate alg w h (rnds 0)) w h))
        (generate alg w h (rnds 0)) from rfl, h3]
    rfl
  show (match (selectLoop w h alg 0 rnds 1 0 none allWalls).2 with
    | some br => br
    | none => ((selectLoop w h alg 0 rnds 1 0 none allWalls).1,
        deadEndRatio (selectLoop w h alg 0 rnds 1 0 none allWalls).1 w h)).1 =
    generate alg w h (rnds 0)
  rw [h2]

/-! ## Braiding: openings arithmetic and dead-end monotonicity -/

theorem openings_eq (ws : Walls) :
    openings ws = (if ws.get Dir.N = false then 1 else 0) +
      (if ws.get Dir.S = false then 1 else 0) +
      (if ws.get Dir.E = false then 1 else 0) +
      (if ws.get Dir.W = false then 1 else 0) := by
  cases ws with
  | mk a b c d => cases a <;> cases b <;> cases c <;> cases d <;> rfl

theorem boolCount_le {a b : Bool} (hab : a = false → b = false) :
    (if a = false then (1 : ℕ) else 0) ≤ (if b = false then 1 else 0) := by
  cases a <;> cases b <;> simp_all

theorem openings_mono {v1 v2 : Walls}
    (hmono : ∀ d, v1.get d = false → v2.get d = false) :
    openings v1 ≤ openings v2 := by
  rw [openings_eq v1, openings_eq v2]
  exact add_le_add (add_le_add (add_le_add (boolCount_le (hmono Dir.N))
    (boolCount_le (hmono Dir.S))) (boolCount_le (hmono Dir.E)))
    (boolCount_le (hmono Dir.W))

theorem openings_pos {ws : Walls} {d : Dir} (hd : ws.get d = false) :
    1 ≤ openings ws := by
  rw [openings_eq]
  cases d <;> rw [if_pos hd] <;> omega

theorem openings_set_false {ws : Walls} {d : Dir} (hd : ws.get d = true) :
    openings (ws.set d false) = openings ws + 1 := by
  cases ws with
  | mk a b c e =>
    cases d <;> simp_all [openings_eq, Walls.set, Walls.get] <;> omega

theorem pair_ne_comp {x y : ℤ} {q : ℤ × ℤ} (hne : q ≠ (x, y)) :
    ¬(q.1 = x ∧ q.2 = y) := by
  intro hc
  exact hne (Prod.ext hc.1 hc.2)

theorem carve_at_self (g : Grid) (x y : ℤ) (d : Dir) :
    (carve g x y d) x y = (g x y).set d false := by
  unfold carve
  rw [setWall_apply, if_neg (pair_ne_comp (q := ((x : ℤ), (y : ℤ)))
    (Ne.symm (padd_ne (x, y) d)))]
  rw [setWall_apply, if_pos ⟨rfl, rfl⟩]

theorem carve_at_nbr (g : Grid) (x y : ℤ) (d : Dir) :
    (carve g x y d) (padd (x, y) d).1 (padd (x, y) d).2 =
      (g (padd (x, y) d).1 (padd (x, y) d).2).set (opp d) false := by
  unfold carve
  rw [setWall_apply, if_pos ⟨rfl, rfl⟩]
  rw [setWall_apply, if_neg (pair_ne_comp (padd_ne (x, y) d))]

theorem openings_carve_mono (g : Grid) (x y : ℤ) (d : Dir) (a b : ℤ) :
    openings (g a b) ≤ openings ((carve g x y d) a b) :=
  openings_mono fun e he => carve_false_mono g x y d a b e he

theorem mindeg_carve {g : Grid} {w h : ℕ} {x y : ℤ} {d : Dir}
    (hmd : ∀ p, inB w h p → 1 ≤ openings (g p.1 p.2)) :
    ∀ p, inB w h p → 1 ≤ openings ((carve g x y d) p.1 p.2) :=
  fun p hp => le_trans (hmd p hp) (openings_carve_mono g x y d p.1 p.2)

theorem deadEndCount_carve_le {g : Grid} {w h : ℕ} {x y : ℤ} {d : Dir}
    (hmd : ∀ p, inB w h p → 1 ≤ openings (g p.1 p.2))
    (hw1 : (g x y).get d = true)
    (hw2 : (g (padd (x, y) d).1 (padd (x, y) d).2).get (opp d) = true) :
    deadEndCount (carve g x y d) w h ≤ deadEndCount g w h := by
  apply Finset.card_le_card
  intro p hp2
  simp only [deadEndCount, Finset.mem_filter] at hp2 ⊢
  obtain ⟨hpc, hp1⟩ := hp2
  refine ⟨hpc, ?_⟩
  have hpin : inB w h p := mem_cells.mp hpc
  by_cases hc1 : p = (x, y)
  · exfalso
    have hp1b : openings ((carve g x y d) x y) = 1 := by
      rw [hc1] at hp1
      exact hp1
    rw [carve_at_self g x y d, openings_set_false hw1] at hp1b
    have hmd2 : 1 ≤ openings (g x y) := by
      have hx := hmd p hpin
      rw [hc1] at hx
      exact hx
    omega
  · by_cases hc2 : p = padd (x, y) d
    · exfalso
      have hp1b : openings ((carve g x y d) (padd (x, y) d).1
          (padd (x, y) d).2) = 1 := by
        rw [hc2] at hp1
        exact hp1
      rw [carve_at_nbr g x y d, openings_set_false hw2] at hp1b
      have hmd2 : 1 ≤ openings (g (padd (x, y) d).1 (padd (x, y) d).2) := by
        have hx := hmd p hpin
        rw [hc2] at hx
        exact hx
      omega
    · rw [carve_other hc1 hc2] at hp1
      exact hp1

theorem braidCandidates_mem {g : Grid} {w h : ℕ} {x y : ℤ} {d : Dir}
    (hd : d ∈ braidCandidates g w h x y) :
    (g x y).get d = true ∧ inB w h (padd (x, y) d) ∧
      (g (padd (x, y) d).1 (padd (x, y) d).2).get (opp d) = true := by
  simp only [braidCandidates, List.mem_filterMap] at hd
  obtain ⟨d2, -, hsome⟩ := hd
  split_ifs at hsome with h1 h2 h3
  have hdd : d2 = d := by simpa using hsome
  subst hdd
  exact ⟨by simpa using h1, h2, h3⟩

theorem deadEndList_inB {g : Grid} {w h : ℕ} {c : ℤ × ℤ}
    (hc : c ∈ deadEndList g w h) : inB w h c := by
  unfold deadEndList at hc
  rw [List.mem_flatMap] at hc
  obtain ⟨y, hy, hc2⟩ := hc
  rw [List.mem_filterMap] at hc2
  obtain ⟨x, hx, hsome⟩ := hc2
  rw [List.mem_range] at hx hy
  split_ifs at hsome
  simp only [Option.some.injEq] at hsome
  subst hsome
  exact ⟨Int.natCast_nonneg _, Int.ofNat_lt.mpr hx, Int.natCast_nonneg _,
    Int.ofNat_lt.mpr hy⟩

theorem braidGo_sym (w h : ℕ) (bf : ℚ) (r : Rand) :
    ∀ (l : List (ℤ × ℤ)) (i : ℕ) (g : Grid), symGrid g w h →
      symGrid (braidGo w h bf r l i g) w h
  | [], _, _, hs => hs
  | (x, y) :: rest, i, g, hs => by
    show symGrid (if bf < r.flt i then braidGo w h bf r rest (i + 1) g else _) w h
    split_ifs with hc
    · exact braidGo_sym w h bf r rest (i + 1) g hs
    · split
      · exact braidGo_sym w h bf r rest (i + 1) g hs
      · exact braidGo_sym w h bf r rest (i + 1) _ (symGrid_carve x y _ hs)

theorem braidGo_border (w h : ℕ) (bf : ℚ) (r : Rand) :
    ∀ (l : List (ℤ × ℤ)) (i : ℕ) (g : Grid), (∀ c ∈ l, inB w h c) →
      borderGrid g w h → borderGrid (braidGo w h bf r l i g) w h
  | [], _, _, _, hb => hb
  | (x, y) :: rest, i, g, hin, hb => by
    have hrest : ∀ c ∈ rest, inB w h c :=
      fun c hc => hin c (List.mem_cons_of_mem _ hc)
    show borderGrid (if bf < r.flt i then braidGo w h bf r rest (i + 1) g else _) w h
    split_ifs with hc
    · exact braidGo_border w h bf r rest (i + 1) g hrest hb
    · split
      · exact braidGo_border w h bf r rest (i + 1) g hrest hb
      · rename_i c0 cs heq
        have hdmem : (c0 :: cs).getD (r.idx i % (c0 :: cs).length) c0 ∈
            braidCandidates g w h x y := by
          rw [heq]
          exact getD_mem _ _ _ (by simp)
        obtain ⟨-, hq, -⟩ := braidCandidates_mem hdmem
        exact braidGo_border w h bf r rest (i + 1) _ hrest
          (borderGrid_carve hb (hin (x, y) (List.mem_cons_self _ _)) hq)

theorem braidGo_deadEnd (w h : ℕ) (bf : ℚ) (r : Rand) :
    ∀ (l : List (ℤ × ℤ)) (i : ℕ) (g : Grid), (∀ c ∈ l, inB w h c) →
      (∀ p, inB w h p → 1 ≤ openings (g p.1 p.2)) →
      deadEndCount (braidGo w h bf r l i g) w h ≤ deadEndCount g w h
  | [], _, _, _, _ => le_refl _
  | (x, y) :: rest, i, g, hin, hmd => by
    have hrest : ∀ c ∈ rest, inB w h c :=
      fun c hc => hin c (List.mem_cons_of_mem _ hc)
    show deadEndCount (if bf < r.flt i then braidGo w h bf r rest (i + 1) g
      else _) w h ≤ _
    split_ifs with hc
    · exact braidGo_deadEnd w h bf r rest (i + 1) g hrest hmd
    · split
      · exact braidGo_deadEnd w h bf r rest (i + 1) g hrest hmd
      · rename_i c0 cs heq
        have hdmem : (c0 :: cs).getD (r.idx i % (c0 :: cs).length) c0 ∈
            braidCandidates g w h x y := by
          rw [heq]
          exact getD_mem _ _ _ (by simp)
        obtain ⟨hw1, hq, hw2⟩ := braidCandidates_mem hdmem
        exact le_trans
          (braidGo_deadEnd w h bf r rest (i + 1) _ hrest (mindeg_carve hmd))
          (deadEndCount_carve_le hmd hw1 hw2)

theorem applyBraid_sym {g : Grid} {w h : ℕ} (bf : ℚ) (r : Rand)
    (hs : symGrid g w h) : symGrid (applyBraid w h bf r g) w h :=
  braidGo_sym w h bf r _ 0 g hs

theorem applyBraid_border {g : Grid} {w h : ℕ} (bf : ℚ) (r : Rand)
    (hb : borderGrid g w h) : borderGrid (applyBraid w h bf r g) w h :=
  braidGo_border w h bf r _ 0 g
    (fun c hc => deadEndList_inB
      ((permuteList_perm r.shuf (deadEndList g w h)).mem_iff.mp hc)) hb

theorem applyBraid_deadEnd {g : Grid} {w h : ℕ} (bf : ℚ) (r : Rand)
    (hmd : ∀ p, inB w h p → 1 ≤ openings (g p.1 p.2)) :
    deadEndCount (applyBraid w h bf r g) w h ≤ deadEndCount g w h :=
  braidGo_deadEnd w h bf r _ 0 g
    (fun c hc => deadEndList_inB
      ((permuteList_perm r.shuf (deadEndList g w h)).mem_iff.mp hc)) hmd

theorem GenOk_mindeg {g : Grid} {w h : ℕ} (hk : GenOk g w h) (hw : 1 ≤ w)
    (hh : 1 ≤ h) (h2 : 2 ≤ w * h) :
    ∀ p, inB w h p → 1 ≤ openings (g p.1 p.2) := by
  intro p hp
  by_cases h0 : p = ((0 : ℤ), (0 : ℤ))
  · have hq : ∃ q, inB w h q ∧ q ≠ ((0 : ℤ), (0 : ℤ)) := by
      by_cases hw2 : 2 ≤ w
      · refine ⟨((1 : ℤ), (0 : ℤ)), ⟨by omega, ?_, by omega, ?_⟩, by simp⟩
        · show (1 : ℤ) < (w : ℤ)
          exact_mod_cast hw2
        · show (0 : ℤ) < (h : ℤ)
          exact_mod_cast hh
      · have hh2 : 2 ≤ h := by nlinarith
        refine ⟨((0 : ℤ), (1 : ℤ)), ⟨by omega, ?_, by omega, ?_⟩, by simp⟩
        · show (0 : ℤ) < (w : ℤ)
          exact_mod_cast hw
        · show (1 : ℤ) < (h : ℤ)
          exact_mod_cast hh2
    obtain ⟨q, hqin, hqne⟩ := hq
    have hr := hk.reach0 q hqin
    rcases Relation.ReflTransGen.cases_head hr with heq | ⟨m, hstep, -⟩
    · exact absurd heq.symm hqne
    · obtain ⟨-, -, d, -, hopen⟩ := hstep
      subst h0
      exact openings_pos hopen
  · have hr := hk.reach0 p hp
    rcases (Relation.ReflTransGen.cases_tail hr) with heq | ⟨m, -, hstep⟩
    · exact absurd heq h0
    · obtain ⟨hm, hpin2, d, hpd, hopen⟩ := hstep
      have hback : (g p.1 p.2).get (opp d) = false := by
        have hsymm := hk.sym m d hm (hpd ▸ hp)
        rw [← hpd] at hsymm
        rw [← hsymm]
        exact hopen
      exact openings_pos hback

/-! ## BFS: invariant preservation and path extraction -/

theorem visCard_pos {w h : ℕ} {vis : ℤ × ℤ → Bool} {c : ℤ × ℤ}
    (hc : inB w h c) (hv : vis c = true) : 1 ≤ visCard w h vis :=
  Finset.card_pos.mpr ⟨c, Finset.mem_filter.mpr ⟨mem_cells.mpr hc, hv⟩⟩

theorem visCard_lt {w h : ℕ} {vis : ℤ × ℤ → Bool} {q : ℤ × ℤ}
    (hq : inB w h q) (hv : vis q = false) : visCard w h vis < w * h := by
  rw [← card_cells w h]
  apply Finset.card_lt_card
  constructor
  · exact Finset.filter_subset _ _
  · intro hsub
    have hmem := hsub (mem_cells.mpr hq)
    rw [Finset.mem_filter] at hmem
    rw [hmem.2] at hv
    cases hv

theorem parChain_mono {par par2 : ℤ × ℤ → Option (ℤ × ℤ)} {start : ℤ × ℤ}
    (hext : ∀ a p, par a = some p → par2 a = some p)
    (h0 : par2 start = none) :
    ∀ (k : ℕ) (c : ℤ × ℤ), parChain par k c start → parChain par2 k c start
  | 0, c, hch => ⟨hch.1, by rw [hch.1]; exact h0⟩
  | k + 1, c, hch => by
    obtain ⟨p, hp, hrest⟩ := hch
    exact ⟨p, hext c p hp, parChain_mono hext h0 k p hrest⟩

theorem backtrack_none {par : ℤ × ℤ → Option (ℤ × ℤ)} {c : ℤ × ℤ}
    (h : par c = none) : ∀ fuel, backtrack par fuel c = [c]
  | 0 => rfl
  | f + 1 => by
    unfold backtrack
    rw [h]

theorem backtrack_ne_nil (par : ℤ × ℤ → Option (ℤ × ℤ)) :
    ∀ (fuel : ℕ) (c : ℤ × ℤ), backtrack par fuel c ≠ []
  | 0, c => by simp [backtrack]
  | f + 1, c => by
    unfold backtrack
    cases par c <;> simp

theorem backtrack_ok (par : ℤ × ℤ → Option (ℤ × ℤ)) (start : ℤ × ℤ) :
    ∀ (k fuel : ℕ) (c : ℤ × ℤ), parChain par k c start → k ≤ fuel →
      (backtrack par fuel c).head? = some c ∧
        (backtrack par fuel c).getLast? = some start ∧
        List.Chain' (fun a b => par a = some b) (backtrack par fuel c)
  | 0, fuel, c, hch, hk => by
    obtain ⟨hcs, hnone⟩ := hch
    rw [backtrack_none hnone fuel, hcs]
    exact ⟨rfl, rfl, List.chain'_singleton _⟩
  | k + 1, fuel, c, hch, hk => by
    obtain ⟨p, hp, hrest⟩ := hch
    cases fuel with
    | zero => exact absurd hk (by omega)
    | succ f =>
      have hbt : backtrack par (f + 1) c = c :: backtrack par f p := by
        show (match par c with
          | none => [c]
          | some p2 => c :: backtrack par f p2) = c :: backtrack par f p
        rw [hp]
      obtain ⟨hhd, hlast, hchn⟩ := backtrack_ok par start k f p hrest (by omega)
      rw [hbt]
      refine ⟨rfl, ?_, ?_⟩
      · rcases hbp : backtrack par f p with _ | ⟨p2, l2⟩
        · exact absurd hbp (backtrack_ne_nil par f p)
        · rw [List.getLast?_cons_cons]
          rw [hbp] at hlast
          exact hlast
      · rw [List.chain'_cons']
        refine ⟨?_, hchn⟩
        intro b hb
        rw [hhd] at hb
        have hpb : p = b := by simpa using hb
        rw [← hpb]
        exact hp

theorem bfsVisit_pres (m : Maze) (start goal c : ℤ × ℤ) (s : BfsState) (d : Dir)
    (hdomc : s.dom c = true) (hinv : BInv m start goal s) :
    BInv m start goal (bfsVisit m c s d) ∧
      (bfsVisit m c s d).found = s.found ∧
      (∀ r, s.dom r = true → (bfsVisit m c s d).dom r = true) ∧
      bfsMeasN m (bfsVisit m c s d) ≤ bfsMeasN m s := by
  simp only [bfsVisit]
  split_ifs with hwall hq hdq
  · exact ⟨hinv, rfl, fun r hr => hr, le_refl _⟩
  · exact ⟨hinv, rfl, fun r hr => hr, le_refl _⟩
  · -- the discovery branch
    have hwf : hasWall m c.1 c.2 d = false := by simpa using hwall
    have hdqf : s.dom (padd c d) = false := by simpa using hdq
    have hc : inB m.width m.height c := hinv.domB c hdomc
    have hcq : c ≠ padd c d := by
      intro he
      rw [← he] at hdqf
      rw [hdomc] at hdqf
      cases hdqf
    have hsq : start ≠ padd c d := by
      intro he
      rw [← he] at hdqf
      rw [hinv.dom0] at hdqf
      cases hdqf
    have hvc : visCard m.width m.height
        (fun r => if r = padd c d then true else s.dom r) =
        visCard m.width m.height s.dom + 1 := visCard_insert hq hdqf
    have hext : ∀ a p, s.par a = some p →
        (if a = padd c d then some c else s.par a) = some p := by
      intro a p hap
      have haq : a ≠ padd c d := by
        intro he
        rw [he, hinv.nodom _ hdqf] at hap
        cases hap
      rw [if_neg haq]
      exact hap
    have h0 : (if start = padd c d then some c else s.par start) = none := by
      rw [if_neg hsq]
      exact hinv.par0
    refine ⟨⟨hinv.startB, ?_, h0, ?_, ?_, ?_, ?_, ?_, ?_⟩, rfl, ?_, ?_⟩
    · show (if start = padd c d then true else s.dom start) = true
      rw [if_neg hsq]
      exact hinv.dom0
    · intro c2 hc2
      show (if c2 = padd c d then true else s.dom c2) = true
      rcases List.mem_append.mp hc2 with hold | hnew
      · split_ifs with he
        · rfl
        · exact hinv.qdom c2 hold
      · rw [if_pos (by simpa using hnew)]
    · intro c2 h2
      replace h2 : (if c2 = padd c d then true else s.dom c2) = true := h2
      by_cases he : c2 = padd c d
      · rw [he]
        exact hq
      · rw [if_neg he] at h2
        exact hinv.domB c2 h2
    · intro c2 p2 hp2
      replace hp2 : (if c2 = padd c d then some c else s.par c2) = some p2 := hp2
      split_ifs at hp2 with he
      · injection hp2 with hcp
        constructor
        · show (if p2 = padd c d then true else s.dom p2) = true
          rw [← hcp, if_neg hcq]
          exact hdomc
        · rw [← hcp, he]
          exact ⟨hc, hq, d, rfl, hwf⟩
      · obtain ⟨hdp, hso⟩ := hinv.parP c2 p2 hp2
        constructor
        · show (if p2 = padd c d then true else s.dom p2) = true
          split_ifs with he2
          · rfl
          · exact hdp
        · exact hso
    · intro c2 h2
      replace h2 : (if c2 = padd c d then true else s.dom c2) = true := h2
      rw [hvc]
      by_cases he : c2 = padd c d
      · obtain ⟨k, hk, hch⟩ := hinv.chain c hdomc
        refine ⟨k + 1, by omega, c, ?_, parChain_mono hext h0 k c hch⟩
        rw [he]
        exact if_pos rfl
      · rw [if_neg he] at h2
        obtain ⟨k, hk, hch⟩ := hinv.chain c2 h2
        exact ⟨k, by omega, parChain_mono hext h0 k c2 hch⟩
    · intro c2 h2
      replace h2 : (if c2 = padd c d then true else s.dom c2) = false := h2
      by_cases he : c2 = padd c d
      · rw [if_pos he] at h2
        cases h2
      · rw [if_neg he] at h2
        show (if c2 = padd c d then some c else s.par c2) = none
        rw [if_neg he]
        exact hinv.nodom c2 h2
    · intro hf
      show (if goal = padd c d then true else s.dom goal) = true
      split_ifs with he
      · rfl
      · exact hinv.fgoal hf
    · intro r hr
      show (if r = padd c d then true else s.dom r) = true
      split_ifs with he
      · rfl
      · exact hr
    · have hlt := visCard_lt hq hdqf
      have hlen : (s.queue ++ [padd c d]).length = s.queue.length + 1 := by simp
      show (s.queue ++ [padd c d]).length +
        2 * (m.width * m.height - visCard m.width m.height
          (fun r => if r = padd c d then true else s.dom r)) ≤
        s.queue.length + 2 * (m.width * m.height - visCard m.width m.height s.dom)
      rw [hlen, hvc]
      omega
  · exact ⟨hinv, rfl, fun r hr => hr, le_refl _⟩

theorem bfsFold_pres (m : Maze) (start goal c : ℤ × ℤ) :
    ∀ (ds : List Dir) (s : BfsState), s.dom c = true → BInv m start goal s →
      BInv m start goal (ds.foldl (bfsVisit m c) s) ∧
        (ds.foldl (bfsVisit m c) s).found = s.found ∧
        bfsMeasN m (ds.foldl (bfsVisit m c) s) ≤ bfsMeasN m s
  | [], s, _, hinv => ⟨hinv, rfl, le_refl _⟩
  | d :: ds, s, hdomc, hinv => by
    obtain ⟨hinv2, hfound2, hmono2, hle2⟩ :=
      bfsVisit_pres m start goal c s d hdomc hinv
    obtain ⟨hinv3, hfound3, hle3⟩ := bfsFold_pres m start goal c ds
      (bfsVisit m c s d) (hmono2 c hdomc) hinv2
    exact ⟨hinv3, hfound3.trans hfound2, le_trans hle3 hle2⟩

theorem bfsStep_eq (m : Maze) (goal : ℤ × ℤ) (s : BfsState) (c : ℤ × ℤ)
    (rest : List (ℤ × ℤ)) (hqe : s.queue = c :: rest) :
    bfsStep m goal s = if c = goal then { s with queue := rest, found := true }
      else dirList.foldl (bfsVisit m c) { s with queue := rest } := by
  unfold bfsStep
  rw [hqe]

theorem bfsStep_pres (m : Maze) (start goal : ℤ × ℤ) (s : BfsState)
    (hinv : BInv m start goal s)
    (hcond : ((!s.found) && !s.queue.isEmpty) = true) :
    BInv m start goal (bfsStep m goal s) ∧
      bfsMeasN m (bfsStep m goal s) < bfsMeasN m s := by
  obtain ⟨h1, h2⟩ := Bool.and_eq_true_iff.mp hcond
  have hne : s.queue ≠ [] := by simpa using h2
  rcases hqe : s.queue with _ | ⟨c, rest⟩
  · exact absurd hqe hne
  · have hdomc : s.dom c = true := hinv.qdom c (by rw [hqe]; exact List.mem_cons_self c rest)
    have hinv1 : BInv m start goal { s with queue := rest } :=
      ⟨hinv.startB, hinv.dom0, hinv.par0,
        fun c2 hc2 => hinv.qdom c2 (by rw [hqe]; exact List.mem_cons_of_mem _ hc2),
        hinv.domB, hinv.parP, hinv.chain, hinv.nodom, hinv.fgoal⟩
    rw [bfsStep_eq m goal s c rest hqe]
    split_ifs with hcg
    · constructor
      · exact ⟨hinv.startB, hinv.dom0, hinv.par0,
          fun c2 hc2 => hinv.qdom c2 (by rw [hqe]; exact List.mem_cons_of_mem _ hc2),
          hinv.domB, hinv.parP, hinv.chain, hinv.nodom,
          fun _ => by rw [← hcg]; exact hdomc⟩
      · show rest.length + 2 * (m.width * m.height - visCard m.width m.height s.dom) <
          s.queue.length + 2 * (m.width * m.height - visCard m.width m.height s.dom)
        rw [hqe]
        simp
    · obtain ⟨hinv3, -, hle3⟩ :=
        bfsFold_pres m start goal c dirList { s with queue := rest } hdomc hinv1
      refine ⟨hinv3, lt_of_le_of_lt hle3 ?_⟩
      show rest.length + 2 * (m.width * m.height - visCard m.width m.height s.dom) <
        s.queue.length + 2 * (m.width * m.height - visCard m.width m.height s.dom)
      rw [hqe]
      simp

theorem bfsStart_inv (m : Maze) (start goal : ℤ × ℤ)
    (hs : inB m.width m.height start) : BInv m start goal (bfsStart start) := by
  refine ⟨hs, by simp [bfsStart], rfl, ?_, ?_, ?_, ?_, ?_, ?_⟩
  · intro c hc
    have hcs : c = start := by simpa [bfsStart] using hc
    simp [bfsStart, hcs]
  · intro c h2
    have hcs : c = start := by simpa [bfsStart] using h2
    rw [hcs]
    exact hs
  · intro c p hp
    exact absurd hp (by simp [bfsStart])
  · intro c h2
    have hcs : c = start := by simpa [bfsStart] using h2
    exact ⟨0, visCard_pos hs (by simp [bfsStart]), hcs, rfl⟩
  · intro c h2
    rfl
  · intro hf
    exact absurd hf (by simp [bfsStart])

theorem bfsFinal_spec (m : Maze) (start goal : ℤ × ℤ)
    (hs : inB m.width m.height start) :
    BInv m start goal (bfsFinal m start goal) ∧
      ((bfsFinal m start goal).found = true ∨ (bfsFinal m start goal).queue = []) := by
  have hmeas : bfsMeasN m (bfsStart start) < bfsFuel m := by
    show 1 + 2 * (m.width * m.height - visCard m.width m.height (bfsStart start).dom) <
      2 * (m.width * m.height) + 2
    omega
  have h := loopFuel_spec (fun s => (!s.found) && !s.queue.isEmpty)
    (fun _ s => bfsStep m goal s) (BInv m start goal) (bfsMeasN m)
    (fun _ s hinv hc => bfsStep_pres m start goal s hinv hc)
    (bfsFuel m) (bfsStart start) (bfsStart_inv m start goal hs) hmeas
  obtain ⟨hinv, hcond⟩ := h
  refine ⟨hinv, ?_⟩
  have hcond2 : ((!(bfsFinal m start goal).found) &&
      !(bfsFinal m start goal).queue.isEmpty) = false := hcond
  cases hfv : (bfsFinal m start goal).found
  · right
    rw [hfv] at hcond2
    simpa using hcond2
  · exact Or.inl rfl

/-! ## Construction-level helper lemmas -/

theorem mkMaze_fields (width height : ℤ) (hw : 2 ≤ width) (hh : 2 ≤ height)
    (alg : String) (bf db : ℚ) (rnds : ℕ → Rand) (rb : Rand) :
    theMaze (mkMaze width height alg bf db rnds rb) =
      ⟨width.toNat, height.toNat, normAlg alg, clamp01 bf, clampBias db,
        (buildMaze width.toNat height.toNat (normAlg alg) (clamp01 bf)
          (clampBias db) rnds rb).1,
        (buildMaze width.toNat height.toNat (normAlg alg) (clamp01 bf)
          (clampBias db) rnds rb).2⟩ := by
  rw [mkMaze_eq width height hw hh alg bf db rnds rb]
  rfl

theorem buildMaze_sym_border (w h : ℕ) (hw : 1 ≤ w) (hh : 1 ≤ h) (alg : String)
    (bf db : ℚ) (rnds : ℕ → Rand) (rb : Rand) :
    symGrid (buildMaze w h alg bf db rnds rb).1 w h ∧
      borderGrid (buildMaze w h alg bf db rnds rb).1 w h := by
  obtain ⟨⟨j, hj⟩, -⟩ := selectGrid_spec w h alg db rnds
  have hok := generate_ok alg w h hw hh (rnds j)
  rw [← hj] at hok
  simp only [buildMaze]
  split_ifs with hbf
  · exact ⟨applyBraid_sym bf rb hok.sym, applyBraid_border bf rb hok.border⟩
  · exact ⟨hok.sym, hok.border⟩

theorem deadEndRatio_le {g1 g2 : Grid} {w h : ℕ}
    (hc : deadEndCount g1 w h ≤ deadEndCount g2 w h) :
    deadEndRatio g1 w h ≤ deadEndRatio g2 w h := by
  unfold deadEndRatio
  by_cases h0 : (w * h : ℕ) = 0
  · rw [h0]
    norm_num
  · have hpos : (0 : ℚ) < ((w * h : ℕ) : ℚ) := by
      exact_mod_cast Nat.pos_of_ne_zero h0
    exact (div_le_div_right hpos).mpr (by exact_mod_cast hc)

/-! ## The claims -/

/-- C1: for all dimensions at least 2x2, each of the three supported
algorithms, run with `braid_factor = 0` and `dead_end_bias = 0` on a
fresh all-walled grid, produces a grid with exactly `w*h - 1` carved
wall-pairs in which every in-bounds cell reaches every other through
cleared walls (the open-wall graph is a spanning tree). -/
theorem claim_C1_spanning_tree (width height : ℤ) (hw : 2 ≤ width)
    (hh : 2 ≤ height) (alg : String)
    (halg : alg = "dfs" ∨ alg = "prim" ∨ alg = "kruskal")
    (rnds : ℕ → Rand) (rb : Rand) :
    openPairCount (mazeGridOf (mkMaze width height alg 0 0 rnds rb))
        width.toNat height.toNat + 1 = width.toNat * height.toNat ∧
      ∀ p q, inB width.toNat height.toNat p → inB width.toNat height.toNat q →
        OpenReach (mazeGridOf (mkMaze width height alg 0 0 rnds rb))
          width.toNat height.toNat p q := by
  have hgrid : mazeGridOf (mkMaze width height alg 0 0 rnds rb) =
      generate (normAlg alg) width.toNat height.toNat (rnds 0) := by
    unfold mazeGridOf
    rw [mkMaze_fields width height hw hh alg 0 0 rnds rb]
    show (buildMaze width.toNat height.toNat (normAlg alg) (clamp01 0)
      (clampBias 0) rnds rb).1 = _
    rw [clamp01_zero, clampBias_zero]
    exact buildMaze_zero_grid _ _ _ _ _
  have hok := generate_ok (normAlg alg) width.toNat height.toNat
    (by omega) (by omega) (rnds 0)
  rw [hgrid]
  refine ⟨hok.pairs, ?_⟩
  intro p q hp hq
  exact Relation.ReflTransGen.trans (OpenReach_symm hok.sym (hok.reach0 p hp))
    (hok.reach0 q hq)

theorem claim_C1_spanning_tree_witness :
    openPairCount (mazeGridOf (mkMaze 2 2 "kruskal" 0 0
        (fun _ => ⟨fun _ => 0, fun _ => 0, fun _ => 0⟩)
        ⟨fun _ => 0, fun _ => 0, fun _ => 0⟩)) (2 : ℤ).toNat (2 : ℤ).toNat + 1 =
      (2 : ℤ).toNat * (2 : ℤ).toNat ∧
    ∀ p q, inB (2 : ℤ).toNat (2 : ℤ).toNat p → inB (2 : ℤ).toNat (2 : ℤ).toNat q →
      OpenReach (mazeGridOf (mkMaze 2 2 "kruskal" 0 0
        (fun _ => ⟨fun _ => 0, fun _ => 0, fun _ => 0⟩)
        ⟨fun _ => 0, fun _ => 0, fun _ => 0⟩)) (2 : ℤ).toNat (2 : ℤ).toNat p q :=
  claim_C1_spanning_tree 2 2 (by decide) (by decide) "kruskal"
    (Or.inr (Or.inr rfl)) (fun _ => ⟨fun _ => 0, fun _ => 0, fun _ => 0⟩)
    ⟨fun _ => 0, fun _ => 0, fun _ => 0⟩

/-- C2 (amended): for every `deadEndBias` in `[-1, 1]`, the bias
selector performs exactly 1 attempt at zero bias and otherwise
`min(10, 3 + ⌊10 * |deadEndBias|⌋)` attempts: Python `int()` truncates
toward zero, it does not round. -/
theorem claim_C2_attempts (db : ℚ) (h1 : -1 ≤ db) (h2 : db ≤ 1) :
    attemptsFor db =
      if db = 0 then 1 else min 10 (3 + (⌊|db| * 10⌋).toNat) := by
  unfold attemptsFor
  rcases lt_trichotomy db 0 with hlt | heq | hgt
  · rw [if_neg (by linarith), if_pos hlt, if_neg (ne_of_lt hlt),
      abs_of_neg hlt]
  · subst heq
    norm_num
  · rw [if_pos hgt, if_neg (ne_of_gt hgt), abs_of_pos hgt]

theorem claim_C2_attempts_witness :
    attemptsFor (1 / 2) =
      if (1 / 2 : ℚ) = 0 then 1 else min 10 (3 + (⌊|(1 : ℚ) / 2| * 10⌋).toNat) :=
  claim_C2_attempts (1 / 2) (by norm_num) (by norm_num)

/-- C2 counterexample: at `deadEndBias = 0.08` the code performs
`min(10, 3 + int(0.8)) = 3` attempts while the claimed formula
`min(10, 3 + round(10 * 0.08)) = 4` — the spec's `round` does not
match the code's `int()` truncation. -/
theorem claim_C2_counterexample :
    attemptsFor (8 / 100) = 3 ∧
      min 10 (3 + (round (10 * |(8 : ℚ) / 100|)).toNat) = 4 := by
  constructor
  · unfold attemptsFor
    rw [if_pos (by norm_num)]
    have hf : ⌊(8 : ℚ) / 100 * 10⌋ = 0 := by
      rw [Int.floor_eq_zero_iff]
      constructor <;> norm_num
    rw [hf]
    decide
  · have hr : round (10 * |(8 : ℚ) / 100|) = 1 := by
      have habs : |(8 : ℚ) / 100| = 8 / 100 := abs_of_pos (by norm_num)
      rw [habs, round_eq]
      have h13 : (10 : ℚ) * (8 / 100) + 1 / 2 = 13 / 10 := by norm_num
      rw [h13, Int.floor_eq_iff]
      constructor <;> norm_num
    rw [hr]
    decide

/-- C3: building with `braid_factor = 1` (any generator, any bias),
the stored dead-end ratio — measured after braiding — is at most the
ratio of the grid the bias selector kept, measured before braiding:
braiding never increases the number of dead ends. -/
theorem claim_C3_braid_monotone (width height : ℤ) (hw : 2 ≤ width)
    (hh : 2 ≤ height) (alg : String) (db : ℚ) (rnds : ℕ → Rand) (rb : Rand) :
    (theMaze (mkMaze width height alg 1 db rnds rb)).dead_end_ratio ≤
      (selectGrid width.toNat height.toNat (normAlg alg) (clampBias db)
        rnds).2 := by
  obtain ⟨⟨j, hj⟩, hratio⟩ := selectGrid_spec width.toNat height.toNat
    (normAlg alg) (clampBias db) rnds
  have hok := generate_ok (normAlg alg) width.toNat height.toNat
    (by omega) (by omega) (rnds j)
  rw [← hj] at hok
  have hwh : 2 ≤ width.toNat * height.toNat := by
    have hw1 : 2 ≤ width.toNat := by omega
    have hh1 : 1 ≤ height.toNat := by omega
    calc 2 = 2 * 1 := by norm_num
      _ ≤ width.toNat * height.toNat := Nat.mul_le_mul hw1 hh1
  have hmd := GenOk_mindeg hok (by omega) (by omega) hwh
  have hde := applyBraid_deadEnd 1 rb hmd
  rw [mkMaze_fields width height hw hh alg 1 db rnds rb]
  show (buildMaze width.toNat height.toNat (normAlg alg) (clamp01 1)
    (clampBias db) rnds rb).2 ≤ _
  rw [clamp01_one]
  have hb2 : (buildMaze width.toNat height.toNat (normAlg alg) 1
      (clampBias db) rnds rb).2 =
      deadEndRatio (applyBraid width.toNat height.toNat 1 rb
        (selectGrid width.toNat height.toNat (normAlg alg) (clampBias db)
          rnds).1) width.toNat height.toNat := by
    simp only [buildMaze]
    rw [if_pos (by norm_num : (0 : ℚ) < 1)]
  rw [hb2, hratio]
  exact deadEndRatio_le hde

theorem claim_C3_braid_monotone_witness :
    (theMaze (mkMaze 2 2 "dfs" 1 0
        (fun _ => ⟨fun _ => 0, fun _ => 0, fun _ => 0⟩)
        ⟨fun _ => 0, fun _ => 0, fun _ => 0⟩)).dead_end_ratio ≤
      (selectGrid (2 : ℤ).toNat (2 : ℤ).toNat (normAlg "dfs") (clampBias 0)
        (fun _ => ⟨fun _ => 0, fun _ => 0, fun _ => 0⟩)).2 :=
  claim_C3_braid_monotone 2 2 (by decide) (by decide) "dfs" 0
    (fun _ => ⟨fun _ => 0, fun _ => 0, fun _ => 0⟩)
    ⟨fun _ => 0, fun _ => 0, fun _ => 0⟩

/-- C4: after any construction (any algorithm, bias and braid factor),
walls are symmetric: for an in-bounds cell and an in-bounds neighbour,
the wall toward the neighbour equals the neighbour's wall back. -/
theorem claim_C4_wall_symmetry (width height : ℤ) (hw : 2 ≤ width)
    (hh : 2 ≤ height) (alg : String) (bf db : ℚ) (rnds : ℕ → Rand) (rb : Rand)
    (p : ℤ × ℤ) (d : Dir) (hp : inB width.toNat height.toNat p)
    (hq : inB width.toNat height.toNat (padd p d)) :
    hasWall (theMaze (mkMaze width height alg bf db rnds rb)) p.1 p.2 d =
      hasWall (theMaze (mkMaze width height alg bf db rnds rb))
        (padd p d).1 (padd p d).2 (opp d) := by
  rw [mkMaze_fields width height hw hh alg bf db rnds rb]
  obtain ⟨hsym, -⟩ := buildMaze_sym_border width.toNat height.toNat
    (by omega) (by omega) (normAlg alg) (clamp01 bf) (clampBias db) rnds rb
  exact hsym p d hp hq

theorem claim_C4_wall_symmetry_witness :
    hasWall (theMaze (mkMaze 2 2 "prim" (3 / 4) (1 / 4)
        (fun _ => ⟨fun _ => 0, fun _ => 0, fun _ => 0⟩)
        ⟨fun _ => 0, fun _ => 0, fun _ => 0⟩)) (0 : ℤ) (0 : ℤ) Dir.E =
      hasWall (theMaze (mkMaze 2 2 "prim" (3 / 4) (1 / 4)
        (fun _ => ⟨fun _ => 0, fun _ => 0, fun _ => 0⟩)
        ⟨fun _ => 0, fun _ => 0, fun _ => 0⟩))
        (padd ((0 : ℤ), (0 : ℤ)) Dir.E).1 (padd ((0 : ℤ), (0 : ℤ)) Dir.E).2
        (opp Dir.E) :=
  claim_C4_wall_symmetry 2 2 (by decide) (by decide) "prim" (3 / 4) (1 / 4)
    (fun _ => ⟨fun _ => 0, fun _ => 0, fun _ => 0⟩)
    ⟨fun _ => 0, fun _ => 0, fun _ => 0⟩ ((0 : ℤ), (0 : ℤ)) Dir.E
    (by decide) (by decide)

/-- C5: after any construction, every wall of an in-bounds cell that
faces out of the grid is present: neither the generators nor the
braider ever clear an outward border wall. -/
theorem claim_C5_border (width height : ℤ) (hw : 2 ≤ width) (hh : 2 ≤ height)
    (alg : String) (bf db : ℚ) (rnds : ℕ → Rand) (rb : Rand)
    (p : ℤ × ℤ) (d : Dir) (hp : inB width.toNat height.toNat p)
    (hout : ¬ inB width.toNat height.toNat (padd p d)) :
    hasWall (theMaze (mkMaze width height alg bf db rnds rb)) p.1 p.2 d = true := by
  rw [mkMaze_fields width height hw hh alg bf db rnds rb]
  obtain ⟨-, hborder⟩ := buildMaze_sym_border width.toNat height.toNat
    (by omega) (by omega) (normAlg alg) (clamp01 bf) (clampBias db) rnds rb
  exact hborder p d hp hout

theorem claim_C5_border_witness :
    hasWall (theMaze (mkMaze 2 2 "kruskal" (1 / 2) (-1 / 2)
        (fun _ => ⟨fun _ => 0, fun _ => 0, fun _ => 0⟩)
        ⟨fun _ => 0, fun _ => 0, fun _ => 0⟩)) (0 : ℤ) (0 : ℤ) Dir.W = true :=
  claim_C5_border 2 2 (by decide) (by decide) "kruskal" (1 / 2) (-1 / 2)
    (fun _ => ⟨fun _ => 0, fun _ => 0, fun _ => 0⟩)
    ⟨fun _ => 0, fun _ => 0, fun _ => 0⟩ ((0 : ℤ), (0 : ℤ)) Dir.W
    (by decide) (by decide)

/-- C6: for distinct in-bounds start and goal, if the BFS of
`compute_shortest_path` exhausts its queue without dequeuing the goal
it returns the empty list; if it does reach the goal it returns a path
that starts at `start`, ends at `goal`, and moves only between
in-bounds adjacent cells whose connecting wall is cleared. -/
theorem claim_C6_bfs (m : Maze) (start goal : ℤ × ℤ)
    (hs : inB m.width m.height start) (hg : inB m.width m.height goal)
    (hne : start ≠ goal) :
    ((bfsFinal m start goal).found = false →
      (bfsFinal m start goal).queue = [] ∧
        computeShortestPath m start goal = []) ∧
    ((bfsFinal m start goal).found = true →
      (computeShortestPath m start goal).head? = some start ∧
        (computeShortestPath m start goal).getLast? = some goal ∧
        List.Chain' (stepOpen m) (computeShortestPath m start goal)) := by
  obtain ⟨hinv, hor⟩ := bfsFinal_spec m start goal hs
  constructor
  · intro hf
    constructor
    · rcases hor with hfo | hqe
      · rw [hf] at hfo
        cases hfo
      · exact hqe
    · unfold computeShortestPath
      rw [if_neg hne, if_neg (by rw [hf]; simp)]
  · intro hf
    have hdg : (bfsFinal m start goal).dom goal = true := hinv.fgoal hf
    obtain ⟨k, hk, hch⟩ := hinv.chain goal hdg
    have hkle : k ≤ m.width * m.height + 1 :=
      le_trans (le_of_lt (lt_of_lt_of_le hk (visCard_le _ _ _))) (by omega)
    obtain ⟨hhd, hlast, hchn⟩ := backtrack_ok (bfsFinal m start goal).par start
      k (m.width * m.height + 1) goal hch hkle
    have hpath : computeShortestPath m start goal =
        (backtrack (bfsFinal m start goal).par (m.width * m.height + 1)
          goal).reverse := by
      unfold computeShortestPath
      rw [if_neg hne, if_pos hf]
    rw [hpath]
    refine ⟨?_, ?_, ?_⟩
    · rw [List.head?_reverse]
      exact hlast
    · rw [List.getLast?_reverse]
      exact hhd
    · rw [List.chain'_reverse]
      refine List.Chain'.imp ?_ hchn
      intro a b hab
      exact (hinv.parP a b hab).2

theorem claim_C6_bfs_witness :
    ((bfsFinal ⟨2, 2, "dfs", 0, 0, allWalls, 0⟩ ((0 : ℤ), (0 : ℤ))
        ((1 : ℤ), (1 : ℤ))).found = false →
      (bfsFinal ⟨2, 2, "dfs", 0, 0, allWalls, 0⟩ ((0 : ℤ), (0 : ℤ))
        ((1 : ℤ), (1 : ℤ))).queue = [] ∧
        computeShortestPath ⟨2, 2, "dfs", 0, 0, allWalls, 0⟩
          ((0 : ℤ), (0 : ℤ)) ((1 : ℤ), (1 : ℤ)) = []) ∧
    ((bfsFinal ⟨2, 2, "dfs", 0, 0, allWalls, 0⟩ ((0 : ℤ), (0 : ℤ))
        ((1 : ℤ), (1 : ℤ))).found = true →
      (computeShortestPath ⟨2, 2, "dfs", 0, 0, allWalls, 0⟩
          ((0 : ℤ), (0 : ℤ)) ((1 : ℤ), (1 : ℤ))).head? = some ((0 : ℤ), (0 : ℤ)) ∧
        (computeShortestPath ⟨2, 2, "dfs", 0, 0, allWalls, 0⟩
          ((0 : ℤ), (0 : ℤ)) ((1 : ℤ), (1 : ℤ))).getLast? = some ((1 : ℤ), (1 : ℤ)) ∧
        List.Chain' (stepOpen ⟨2, 2, "dfs", 0, 0, allWalls, 0⟩)
          (computeShortestPath ⟨2, 2, "dfs", 0, 0, allWalls, 0⟩
            ((0 : ℤ), (0 : ℤ)) ((1 : ℤ), (1 : ℤ)))) :=
  claim_C6_bfs ⟨2, 2, "dfs", 0, 0, allWalls, 0⟩ ((0 : ℤ), (0 : ℤ))
    ((1 : ℤ), (1 : ℤ)) (by decide) (by decide) (by decide)

/-- C7: construction fails — with the exact dimension error — if and
only if a dimension is below 2; otherwise it succeeds.  (In the code
the `raise` precedes every grid-state assignment.) -/
theorem claim_C7_dim_check (width height : ℤ) (alg : String) (bf db : ℚ)
    (rnds : ℕ → Rand) (rb : Rand) :
    ((∃ msg, mkMaze width height alg bf db rnds rb = .error msg) ↔
      (width < 2 ∨ height < 2)) ∧
    (mkMaze width height alg bf db rnds rb =
        .error "Maze dimensions must be at least 2x2." ∨
      ∃ m, mkMaze width height alg bf db rnds rb = .ok m) := by
  unfold mkMaze
  by_cases hc : width < 2 ∨ height < 2
  · rw [if_pos hc]
    exact ⟨⟨fun _ => hc, fun _ => ⟨_, rfl⟩⟩, Or.inl rfl⟩
  · rw [if_neg hc]
    refine ⟨⟨?_, fun h2 => absurd h2 hc⟩, Or.inr ⟨_, rfl⟩⟩
    rintro ⟨msg, hmsg⟩
    exact absurd hmsg (by simp)

/-- C8: an unsupported algorithm string does not make construction
fail: it is normalized to `"dfs"`, the built maze records `"dfs"`, the
whole construction coincides with the `"dfs"` one, and the generation
dispatch falls back to the depth-first backtracker. -/
theorem claim_C8_unknown_alg (width height : ℤ) (hw : 2 ≤ width)
    (hh : 2 ≤ height) (alg : String) (h1 : alg ≠ "dfs") (h2 : alg ≠ "prim")
    (h3 : alg ≠ "kruskal") (bf db : ℚ) (rnds : ℕ → Rand) (rb : Rand) :
    (∃ m, mkMaze width height alg bf db rnds rb = .ok m) ∧
      (theMaze (mkMaze width height alg bf db rnds rb)).algorithm = "dfs" ∧
      mkMaze width height alg bf db rnds rb =
        mkMaze width height "dfs" bf db rnds rb ∧
      ∀ r : Rand, generate alg width.toNat height.toNat r =
        generateDfs width.toNat height.toNat r.idx allWalls := by
  have hnorm : normAlg alg = "dfs" := by
    unfold normAlg
    rw [if_neg (by simp [h1, h2, h3])]
  refine ⟨?_, ?_, ?_, ?_⟩
  · rw [mkMaze_eq width height hw hh alg bf db rnds rb]
    exact ⟨_, rfl⟩
  · rw [mkMaze_fields width height hw hh alg bf db rnds rb]
    exact hnorm
  · rw [mkMaze_eq width height hw hh alg bf db rnds rb,
      mkMaze_eq width height hw hh "dfs" bf db rnds rb, hnorm,
      show normAlg "dfs" = "dfs" from by unfold normAlg; rw [if_pos (Or.inl rfl)]]
  · intro r
    unfold generate
    split <;> simp_all

theorem claim_C8_unknown_alg_witness :
    (∃ m, mkMaze 2 2 "foo" 0 0 (fun _ => ⟨fun _ => 0, fun _ => 0, fun _ => 0⟩)
        ⟨fun _ => 0, fun _ => 0, fun _ => 0⟩ = .ok m) ∧
      (theMaze (mkMaze 2 2 "foo" 0 0
        (fun _ => ⟨fun _ => 0, fun _ => 0, fun _ => 0⟩)
        ⟨fun _ => 0, fun _ => 0, fun _ => 0⟩)).algorithm = "dfs" ∧
      mkMaze 2 2 "foo" 0 0 (fun _ => ⟨fun _ => 0, fun _ => 0, fun _ => 0⟩)
          ⟨fun _ => 0, fun _ => 0, fun _ => 0⟩ =
        mkMaze 2 2 "dfs" 0 0 (fun _ => ⟨fun _ => 0, fun _ => 0, fun _ => 0⟩)
          ⟨fun _ => 0, fun _ => 0, fun _ => 0⟩ ∧
      ∀ r : Rand, generate "foo" (2 : ℤ).toNat (2 : ℤ).toNat r =
        generateDfs (2 : ℤ).toNat (2 : ℤ).toNat r.idx allWalls :=
  claim_C8_unknown_alg 2 2 (by decide) (by decide) "foo" (by decide)
    (by decide) (by decide) 0 0 (fun _ => ⟨fun _ => 0, fun _ => 0, fun _ => 0⟩)
    ⟨fun _ => 0, fun _ => 0, fun _ => 0⟩

/-- C9: for any maze and in-bounds cell `p`,
`compute_shortest_path(p, p)` is the singleton `[p]`. -/
theorem claim_C9_self_path (m : Maze) (p : ℤ × ℤ)
    (hp : inB m.width m.height p) : computeShortestPath m p p = [p] := by
  unfold computeShortestPath
  rw [if_pos rfl]

theorem claim_C9_self_path_witness :
    computeShortestPath ⟨2, 2, "dfs", 0, 0, allWalls, 0⟩
      ((1 : ℤ), (0 : ℤ)) ((1 : ℤ), (0 : ℤ)) = [((1 : ℤ), (0 : ℤ))] :=
  claim_C9_self_path ⟨2, 2, "dfs", 0, 0, allWalls, 0⟩ ((1 : ℤ), (0 : ℤ))
    (by decide)

/-- C10: construction never rejects out-of-range tuning parameters: it
stores `braid_factor` clamped into `[0, 1]` and `dead_end_bias`
clamped into `[-1, 1]`. -/
theorem claim_C10_clamping (width height : ℤ) (hw : 2 ≤ width)
    (hh : 2 ≤ height) (alg : String) (bf db : ℚ) (rnds : ℕ → Rand)
    (rb : Rand) :
    (∃ m, mkMaze width height alg bf db rnds rb = .ok m) ∧
      (theMaze (mkMaze width height alg bf db rnds rb)).braid_factor =
        clamp01 bf ∧
      (theMaze (mkMaze width height alg bf db rnds rb)).dead_end_bias =
        clampBias db ∧
      0 ≤ (theMaze (mkMaze width height alg bf db rnds rb)).braid_factor ∧
      (theMaze (mkMaze width height alg bf db rnds rb)).braid_factor ≤ 1 ∧
      -1 ≤ (theMaze (mkMaze width height alg bf db rnds rb)).dead_end_bias ∧
      (theMaze (mkMaze width height alg bf db rnds rb)).dead_end_bias ≤ 1 := by
  refine ⟨⟨_, mkMaze_eq width height hw hh alg bf db rnds rb⟩, ?_⟩
  rw [mkMaze_fields width height hw hh alg bf db rnds rb]
  refine ⟨rfl, rfl, ?_, ?_, ?_, ?_⟩
  · exact le_min (le_max_right bf 0) zero_le_one
  · exact min_le_right _ _
  · exact le_min (le_max_right db (-1)) (by norm_num)
  · exact min_le_right _ _

theorem claim_C10_clamping_witness :
    (∃ m, mkMaze 2 2 "dfs" 5 (-3)
        (fun _ => ⟨fun _ => 0, fun _ => 0, fun _ => 0⟩)
        ⟨fun _ => 0, fun _ => 0, fun _ => 0⟩ = .ok m) ∧
      (theMaze (mkMaze 2 2 "dfs" 5 (-3)
        (fun _ => ⟨fun _ => 0, fun _ => 0, fun _ => 0⟩)
        ⟨fun _ => 0, fun _ => 0, fun _ => 0⟩)).braid_factor = clamp01 5 ∧
      (theMaze (mkMaze 2 2 "dfs" 5 (-3)
        (fun _ => ⟨fun _ => 0, fun _ => 0, fun _ => 0⟩)
        ⟨fun _ => 0, fun _ => 0, fun _ => 0⟩)).dead_end_bias = clampBias (-3) ∧
      0 ≤ (theMaze (mkMaze 2 2 "dfs" 5 (-3)
        (fun _ => ⟨fun _ => 0, fun _ => 0, fun _ => 0⟩)
        ⟨fun _ => 0, fun _ => 0, fun _ => 0⟩)).braid_factor ∧
      (theMaze (mkMaze 2 2 "dfs" 5 (-3)
        (fun _ => ⟨fun _ => 0, fun _ => 0, fun _ => 0⟩)
        ⟨fun _ => 0, fun _ => 0, fun _ => 0⟩)).braid_factor ≤ 1 ∧
      -1 ≤ (theMaze (mkMaze 2 2 "dfs" 5 (-3)
        (fun _ => ⟨fun _ => 0, fun _ => 0, fun _ => 0⟩)
        ⟨fun _ => 0, fun _ => 0, fun _ => 0⟩)).dead_end_bias ∧
      (theMaze (mkMaze 2 2 "dfs" 5 (-3)
        (fun _ => ⟨fun _ => 0, fun _ => 0, fun _ => 0⟩)
        ⟨fun _ => 0, fun _ => 0, fun _ => 0⟩)).dead_end_bias ≤ 1 :=
  claim_C10_clamping 2 2 (by decide) (by decide) "dfs" 5 (-3)
    (fun _ => ⟨fun _ => 0, fun _ => 0, fun _ => 0⟩)
    ⟨fun _ => 0, fun _ => 0, fun _ => 0⟩

end MazeCore
